import Mathlib

/-!
# cower: a shallow embedding of `cower.c`

The C program is embedded as pure Lean functions.

* A C string value is the list of its bytes before the terminating NUL (`CStr`).
* A writable character buffer is a `Mem`; pointers into it are offsets.  Functions that
  write through a pointer return the new buffer.
* Functions that can leave the buffer or dereference NULL on some inputs return `Option`,
  `none` standing for that undefined behaviour; bounded loops take their bound as fuel and
  also return `none` should the fuel run out.
* Services of external libraries (libalpm lists, POSIX regex, the registry) are modelled by
  their documented behaviour or taken as parameters.
-/

namespace Cower

/-! ## Characters, strings and buffers -/

/-- A C string: its bytes before the terminating NUL. -/
abbrev CStr := List Char

/-- A writable character buffer; a pointer into it is an offset. -/
abbrev Mem := List Char

/-- The NUL byte. -/
def NUL : Char := Char.ofNat 0

/-- Read the byte at offset `p` (`*p`). -/
def peek (m : Mem) (p : Nat) : Char := m.getD p NUL

/-- Write the byte `c` at offset `p` (`*p = c`). -/
def poke (m : Mem) (p : Nat) (c : Char) : Mem := m.set p c

/-- The C string that starts at offset `p`. -/
def cstr (m : Mem) (p : Nat) : CStr := (m.drop p).takeWhile (fun c => c != NUL)

/-- The buffer holding the string `s` and its terminator. -/
def mem_of (s : CStr) : Mem := s ++ [NUL]

/-- C `strlen` of the string at `p`. -/
def strlen (m : Mem) (p : Nat) : Nat := (cstr m p).length

/-- C `isspace` for the bytes of the C locale. -/
def isspace (c : Char) : Bool :=
  c == ' ' || c == '\t' || c == '\n' || c == Char.ofNat 11 || c == Char.ofNat 12 || c == '\r'

/-- C `isalpha` for the bytes of the C locale. -/
def isalpha (c : Char) : Bool :=
  (65 ≤ c.toNat && c.toNat ≤ 90) || (97 ≤ c.toNat && c.toNat ≤ 122)

/-- Length of the longest initial run of the string at `p` whose bytes satisfy `pred`
(`strspn` / `strcspn`). -/
def span (m : Mem) (p : Nat) (pred : Char → Bool) : Nat := ((cstr m p).takeWhile pred).length

/-- Index of the first element satisfying `pred`. -/
def find_idx (pred : Char → Bool) : List Char → Option Nat
  | [] => none
  | c :: cs => if pred c then some 0 else (find_idx pred cs).map (fun i => i + 1)

/-- C `strchr(p, c)` for a byte `c` other than NUL. -/
def strchr (m : Mem) (p : Nat) (c : Char) : Option Nat :=
  (find_idx (fun x => x == c) (cstr m p)).map (fun i => p + i)

/-- C `strrchr(p, c)` for a byte `c` other than NUL: the last occurrence. -/
def strrchr (m : Mem) (p : Nat) (c : Char) : Option Nat :=
  (find_idx (fun x => x == c) (cstr m p).reverse).map (fun i => p + ((cstr m p).length - 1 - i))

/-- C `memchr(p, c, n)`: the first occurrence of `c` in the `n` bytes at `p`. -/
def memchr (m : Mem) (p : Nat) (c : Char) (n : Nat) : Option Nat :=
  (find_idx (fun x => x == c) ((m.drop p).take n)).map (fun i => p + i)

/-- C `memmove(dst, src, n)`. -/
def memmove (m : Mem) (dst src n : Nat) : Mem :=
  m.take dst ++ (m.drop src).take n ++ m.drop (dst + ((m.drop src).take n).length)

/-- Conversion of a pointer difference to `size_t` (64 bit). -/
def size_t (i : Int) : Nat := (i % (2 ^ 64 : Int)).toNat

/-- The sign of C `strcmp` (bytes compared as unsigned values): `-1`, `0` or `1`. -/
def strcmp : CStr → CStr → Int
  | [], [] => 0
  | [], _ :: _ => -1
  | _ :: _, [] => 1
  | a :: as, b :: bs =>
    if a.toNat < b.toNat then -1 else if b.toNat < a.toNat then 1 else strcmp as bs

/-- Macro `STR_STARTS_WITH(x, y)`, i.e. `strncmp(x, y, strlen(y)) == 0`. -/
def STR_STARTS_WITH (m : Mem) (x : Nat) (y : CStr) : Bool := y.isPrefixOf (cstr m x)

/-- The loop `while(isspace(*right)) right--;` of `strtrim`. -/
def strtrim_right (m : Mem) : Nat → Nat → Nat
  | right, 0 => right
  | right, fuel + 1 => if isspace (peek m right) then strtrim_right m (right - 1) fuel else right

/-- Function `strtrim` of cower.c: trims the string at `str` in place; the value returned is
`right - left`, where `left` is the pointer advanced past the leading whitespace. -/
def strtrim (m : Mem) (str : Nat) : Mem × Nat :=
  if peek m str = NUL then (m, 0)
  else
    let left := str + span m str isspace
    let m1 := if left ≠ str then memmove m str left (strlen m left + 1) else m
    if peek m1 str = NUL then (m1, 0)
    else
      let right := strtrim_right m1 (str + strlen m1 str - 1) (strlen m1 str)
      (poke m1 (right + 1) NUL, size_t (((right + 1 : Nat) : Int) - (left : Int)))

/-- C `strtok_r(s, delim, &saveptr)` (glibc): returns the buffer, the token and the new
`saveptr`; `s = none` is the call with `NULL`. -/
def strtok_r (m : Mem) (s : Option Nat) (delim : List Char) (saveptr : Nat) :
    Mem × Option Nat × Nat :=
  let s0 := s.getD saveptr
  if peek m s0 = NUL then (m, none, s0)
  else
    let s1 := s0 + span m s0 (fun c => delim.contains c)
    if peek m s1 = NUL then (m, none, s1)
    else
      let e := s1 + span m s1 (fun c => !delim.contains c)
      if peek m e = NUL then (m, some s1, e) else (poke m e NUL, some s1, e + 1)

/-! ## libalpm lists -/

/-- libalpm `alpm_list_add`: append at the end. -/
def alpm_list_add {α : Type} (list : List α) (data : α) : List α := list ++ [data]

/-- libalpm `alpm_list_join`: concatenation. -/
def alpm_list_join {α : Type} (first second : List α) : List α := first ++ second

/-- libalpm `alpm_list_count`. -/
def alpm_list_count {α : Type} (list : List α) : Nat := list.length

/-- libalpm `alpm_list_find_str`: the first element equal to `needle`, if any. -/
def alpm_list_find_str (haystack : List CStr) (needle : CStr) : Option CStr :=
  haystack.find? (fun s => s == needle)

/-- libalpm `alpm_list_add_sorted`: insert before the first element `x` with
`fn(data, x) <= 0`. -/
def alpm_list_add_sorted {α : Type} (list : List α) (data : α) (fn : α → α → Int) : List α :=
  match list with
  | [] => [data]
  | x :: xs => if fn data x ≤ 0 then data :: x :: xs else x :: alpm_list_add_sorted xs data fn

/-- Inner loop of `alpm_list_mmerge` while the left list is `l :: ls`; `rest` merges `ls`
with what remains on the right. -/
def alpm_list_mmerge_left {α : Type} (fn : α → α → Int) (l : α) (ls : List α)
    (rest : List α → List α) : List α → List α
  | [] => l :: ls
  | r :: rs =>
    if fn l r ≤ 0 then l :: rest (r :: rs) else r :: alpm_list_mmerge_left fn l ls rest rs

/-- libalpm `alpm_list_mmerge`: merge, taking from the left list when
`fn(left, right) <= 0`. -/
def alpm_list_mmerge {α : Type} (fn : α → α → Int) : List α → List α → List α
  | [] => fun right => right
  | l :: ls => alpm_list_mmerge_left fn l ls (alpm_list_mmerge fn ls)

/-- Recursion of libalpm `alpm_list_msort(list, n, fn)`: split after `n / 2` nodes, sort both
halves, merge.  The recursion depth is bounded by `fuel`. -/
def alpm_list_msort_rec {α : Type} (fn : α → α → Int) : Nat → List α → Nat → List α
  | 0, list, _ => list
  | fuel + 1, list, n =>
    if 1 < n then
      alpm_list_mmerge fn (alpm_list_msort_rec fn fuel (list.take (n / 2)) (n / 2))
        (alpm_list_msort_rec fn fuel (list.drop (n / 2)) (n - n / 2))
    else list

/-- libalpm `alpm_list_msort(list, n, fn)`. -/
def alpm_list_msort {α : Type} (list : List α) (n : Nat) (fn : α → α → Int) : List α :=
  alpm_list_msort_rec fn n list n

/-! ## Data model -/

/-- Enumeration `pkgdetail_t`. -/
inductive pkgdetail_t where
  | PKGDETAIL_DEPENDS
  | PKGDETAIL_MAKEDEPENDS
  | PKGDETAIL_OPTDEPENDS
  | PKGDETAIL_PROVIDES
  | PKGDETAIL_CONFLICTS
  | PKGDETAIL_REPLACES
  deriving DecidableEq, Repr

open pkgdetail_t

/-- The NULL pointer in a `char*` field of a record.  Such a field holds the string pointed
to, which never contains the byte NUL; this value, which is the content of no string, is
the field that points nowhere. -/
def NULL : CStr := [NUL]

/-- Structure `aurpkg_t`.  The `char*` fields hold the string pointed to, and `NULL` when
the pointer is NULL; `maint`, the only one the program tests against NULL, is optional. -/
structure aurpkg_t where
  desc : CStr
  lic : CStr
  maint : Option CStr
  name : CStr
  url : CStr
  urlpath : CStr
  ver : CStr
  cat : Int
  id : Int
  ood : Int
  votes : Int
  firstsub : Int
  lastmod : Int
  conflicts : List CStr
  depends : List CStr
  makedepends : List CStr
  optdepends : List CStr
  provides : List CStr
  replaces : List CStr
  deriving DecidableEq, Repr

/-- The record after `memset(p->aurpkg, 0, sizeof(struct aurpkg_t))`. -/
def aurpkg_zero : aurpkg_t :=
  ⟨NULL, NULL, none, NULL, NULL, NULL, NULL, 0, 0, 0, 0, 0, 0, [], [], [], [], [], []⟩

/-- Function `aurpkg_cmp`: `strcmp` of the names. -/
def aurpkg_cmp (pkg1 pkg2 : aurpkg_t) : Int := strcmp pkg1.name pkg2.name

/-! ## Recipe parser -/

/-- The delimiters `" \t\n"` of the token loop. -/
def bash_delims : List Char := [' ', '\t', '\n']

/-- One pass through the body of the token loop of `parse_bash_array` for the token at
`token`: the buffer, `saveptr`, and the string to be added when the token is not skipped. -/
def parse_bash_token (m : Mem) (token saveptr : Nat) : Mem × Nat × Option CStr :=
  if peek m token = '#' then
    -- found an embedded comment: strtok_r(NULL, "\n", &saveptr); continue
    let r := strtok_r m none ['\n'] saveptr
    (r.1, r.2.2, none)
  else
    -- unquote the element
    let q : Mem × Nat :=
      if peek m token = '\'' ∨ peek m token = '"' then
        match strrchr m (token + 1) (peek m token) with
        | some ptr => (poke m ptr NUL, token + 1)
        | none => (m, token)
      else (m, token)
    if peek q.1 q.2 = NUL ∨ strlen q.1 q.2 < 2 ∨ peek q.1 q.2 = '$' then (q.1, saveptr, none)
    else (q.1, saveptr, some (cstr q.1 q.2))

/-- The token loop of `parse_bash_array` (all kinds but optdepends), entered with the token
returned by the previous `strtok_r`. -/
def parse_bash_loop : Nat → Mem → Option Nat → Nat → List CStr → Option (Mem × List CStr)
  | 0, _, _, _, _ => none
  | _ + 1, m, none, _, deplist => some (m, deplist)
  | fuel + 1, m, some token, saveptr, deplist =>
    let b := parse_bash_token m token saveptr
    let deplist1 :=
      match b.2.2 with
      | some t => if (alpm_list_find_str deplist t).isSome then deplist else alpm_list_add deplist t
      | none => deplist
    let r := strtok_r b.1 none bash_delims b.2.1
    parse_bash_loop fuel r.1 r.2.1 r.2.2 deplist1

/-- Offset of the first whitespace byte after `token` (`while(!isspace(*++ptr));`), `none`
when the scan leaves the buffer. -/
def optdep_run_end (m : Mem) (token : Nat) : Option Nat :=
  (find_idx isspace (m.drop (token + 1))).map (fun i => token + 1 + i)

/-- The character loop of `parse_bash_array` for optdepends. -/
def parse_optdep_loop : Nat → Mem → Nat → Nat → List CStr → Option (Mem × List CStr)
  | 0, _, _, _, _ => none
  | fuel + 1, m, token, arrayend, deplist =>
    if arrayend < token then some (m, deplist)
    else if peek m token = '\'' ∨ peek m token = '"' then
      match memchr m (token + 1) (peek m token) (size_t ((arrayend : Int) - ((token + 1 : Nat) : Int))) with
      | none => none
      | some ptr =>
        let m1 := (strtrim (poke m ptr NUL) (token + 1)).1
        parse_optdep_loop fuel m1 (ptr + 1) arrayend (alpm_list_add deplist (cstr m1 (token + 1)))
    else if isalpha (peek m token) then
      match optdep_run_end m token with
      | none => none
      | some ptr =>
        let m1 := (strtrim (poke m (ptr - 1) NUL) token).1
        parse_optdep_loop fuel m1 (ptr + 1) arrayend (alpm_list_add deplist (cstr m1 token))
    else parse_optdep_loop fuel m (token + 1) arrayend deplist

/-- Function `parse_bash_array(deplist, array, type)` for a non-NULL `array`. -/
def parse_bash_array (deplist : List CStr) (m : Mem) (array : Nat) (type : pkgdetail_t) :
    Option (Mem × List CStr) :=
  if type = PKGDETAIL_OPTDEPENDS then
    parse_optdep_loop (strlen m array + 2) m array (array + strlen m array) deplist
  else
    let r := strtok_r m (some array) bash_delims 0
    parse_bash_loop (m.length + 1) r.1 r.2.1 r.2.2 deplist

/-- The scan `for(arrayend = arrayptr; depth; arrayend++)` of `pkgbuild_get_extinfo`: the value
of `arrayend` when the depth reaches zero, `none` when the scan leaves the buffer. -/
def array_end (m : Mem) : Nat → Nat → Nat → Option Nat
  | 0, _, _ => none
  | fuel + 1, arrayend, depth =>
    if depth = 0 then some arrayend
    else if m.length ≤ arrayend then none
    else if peek m arrayend = ')' then array_end m fuel (arrayend + 1) (depth - 1)
    else if peek m arrayend = '(' then array_end m fuel (arrayend + 1) (depth + 1)
    else array_end m fuel (arrayend + 1) depth

/-- The prefix dispatch of `pkgbuild_get_extinfo`: the slot of `details` and the `type`
passed on (`0`, i.e. depends, for every kind but optdepends). -/
def extinfo_kind (m : Mem) (lineptr : Nat) : Option (pkgdetail_t × pkgdetail_t) :=
  if STR_STARTS_WITH m lineptr "depends=(".toList then
    some (PKGDETAIL_DEPENDS, PKGDETAIL_DEPENDS)
  else if STR_STARTS_WITH m lineptr "makedepends=(".toList then
    some (PKGDETAIL_MAKEDEPENDS, PKGDETAIL_DEPENDS)
  else if STR_STARTS_WITH m lineptr "optdepends=(".toList then
    some (PKGDETAIL_OPTDEPENDS, PKGDETAIL_OPTDEPENDS)
  else if STR_STARTS_WITH m lineptr "provides=(".toList then
    some (PKGDETAIL_PROVIDES, PKGDETAIL_DEPENDS)
  else if STR_STARTS_WITH m lineptr "replaces=(".toList then
    some (PKGDETAIL_REPLACES, PKGDETAIL_DEPENDS)
  else if STR_STARTS_WITH m lineptr "conflicts=(".toList then
    some (PKGDETAIL_CONFLICTS, PKGDETAIL_DEPENDS)
  else none

/-- The loop of `pkgbuild_get_extinfo`, entered with a non-NULL `lineptr`.  `details` gives for
each kind the list variable its slot points to (`none` for a NULL slot) and `lists` the value
of each list variable. -/
def extinfo_loop : Nat → Mem → Nat → (pkgdetail_t → Option Nat) → (Nat → List CStr) →
    Option (Nat → List CStr)
  | 0, _, _, _, _ => none
  | fuel + 1, m, lineptr0, details, lists =>
    -- linelen = strtrim(++lineptr)
    let lineptr := lineptr0 + 1
    if m.length ≤ lineptr then none
    else
      let t := strtrim m lineptr
      let next : Mem → Nat → (Nat → List CStr) → Option (Nat → List CStr) :=
        fun m1 lp lists1 =>
          match strchr m1 lp '\n' with
          | none => some lists1
          | some lp1 => extinfo_loop fuel m1 lp1 details lists1
      if t.2 = 0 ∨ peek t.1 lineptr = '#' then next t.1 lineptr lists
      else
        match extinfo_kind t.1 lineptr with
        | none => next t.1 lineptr lists
        | some (slot, type) =>
          match details slot with
          | none => next t.1 lineptr lists
          | some v =>
            match memchr t.1 lineptr '(' t.2 with
            | none => none
            | some lparen =>
              match array_end t.1 (t.1.length + 1) (lparen + 1) 1 with
              | none => none
              | some arrayend =>
                match parse_bash_array (lists v) (poke t.1 (arrayend - 1) NUL) (lparen + 1) type with
                | none => none
                | some r => next r.1 arrayend (Function.update lists v r.2)

/-- Function `pkgbuild_get_extinfo(pkgbuild, details)`; `pkgbuild = none` is the NULL buffer. -/
def pkgbuild_get_extinfo (pkgbuild : Option Mem) (details : pkgdetail_t → Option Nat)
    (lists : Nat → List CStr) : Option (Nat → List CStr) :=
  match pkgbuild with
  | none => some lists
  | some m => extinfo_loop (m.length + 1) m 0 details lists

/-- The slots set up by `task_query`: the six list fields of the record, numbered in the order
of `pkgdetail_t`. -/
def query_details : pkgdetail_t → Option Nat
  | PKGDETAIL_DEPENDS => some 0
  | PKGDETAIL_MAKEDEPENDS => some 1
  | PKGDETAIL_OPTDEPENDS => some 2
  | PKGDETAIL_PROVIDES => some 3
  | PKGDETAIL_CONFLICTS => some 4
  | PKGDETAIL_REPLACES => some 5

/-- The list variables of a record, numbered as in `query_details`. -/
def aurpkg_lists (pkg : aurpkg_t) : Nat → List CStr
  | 0 => pkg.depends
  | 1 => pkg.makedepends
  | 2 => pkg.optdepends
  | 3 => pkg.provides
  | 4 => pkg.conflicts
  | 5 => pkg.replaces
  | _ => []

/-- The extended-info step of `task_query`: `pkgbuild_get_extinfo` run on the six list fields
of the record. -/
def aurpkg_get_extinfo (pkgbuild : Option Mem) (pkg : aurpkg_t) : Option aurpkg_t :=
  (pkgbuild_get_extinfo pkgbuild query_details (aurpkg_lists pkg)).map fun l =>
    { pkg with depends := l 0, makedepends := l 1, optdepends := l 2, provides := l 3,
               conflicts := l 4, replaces := l 5 }

/-! ## Configuration -/

/-- Enumerator `OP_SEARCH` of `operation_t`. -/
def OP_SEARCH : Nat := 1
/-- Enumerator `OP_INFO` of `operation_t`. -/
def OP_INFO : Nat := 2
/-- Enumerator `OP_DOWNLOAD` of `operation_t`. -/
def OP_DOWNLOAD : Nat := 4
/-- Enumerator `OP_UPDATE` of `operation_t`. -/
def OP_UPDATE : Nat := 8
/-- Enumerator `OP_MSEARCH` of `operation_t`. -/
def OP_MSEARCH : Nat := 16

/-- Enumerator `LOG_INFO` of `loglevel_t`. -/
def LOG_INFO : Nat := 1
/-- Enumerator `LOG_ERROR` of `loglevel_t`. -/
def LOG_ERROR : Nat := 2
/-- Enumerator `LOG_WARN` of `loglevel_t`. -/
def LOG_WARN : Nat := 4
/-- Enumerator `LOG_DEBUG` of `loglevel_t`. -/
def LOG_DEBUG : Nat := 8
/-- Enumerator `LOG_VERBOSE` of `loglevel_t`. -/
def LOG_VERBOSE : Nat := 16
/-- Enumerator `LOG_BRIEF` of `loglevel_t`. -/
def LOG_BRIEF : Nat := 32

/-- Macro `UNSET`. -/
def UNSET : Int := -1
/-- Macro `THREAD_DEFAULT`. -/
def THREAD_DEFAULT : Int := 10
/-- Macro `TIMEOUT_DEFAULT`. -/
def TIMEOUT_DEFAULT : Int := 10
/-- Macro `LIST_DELIM`. -/
def LIST_DELIM : CStr := [' ', ' ']
/-- Macro `INFO_INDENT`. -/
def INFO_INDENT : Nat := 17

/-- C `~x` on a 32-bit mask. -/
def bnot32 (x : Nat) : Nat := 2 ^ 32 - 1 - x % 2 ^ 32

/-- Conversion of an integer value to `int` (32 bit, wrapping). -/
def to_int (v : Int) : Int := (v + 2 ^ 31) % 2 ^ 32 - 2 ^ 31

/-- The runtime configuration `cfg`. -/
structure cfg_t where
  dlpath : Option CStr
  delim : CStr
  format : Option CStr
  proto : CStr
  opmask : Nat
  logmask : Nat
  color : Int
  ignoreood : Int
  extinfo : Bool
  force : Bool
  getdeps : Bool
  quiet : Bool
  skiprepos : Bool
  secure : Bool
  maxthreads : Int
  timeout : Int
  targets : List CStr
  ignore_pkgs : List CStr
  ignore_repos : List CStr
  deriving DecidableEq, Repr

/-- The configuration as `main` initialises it before `parse_options` (the static object is
zeroed, then the sentinel values are stored). -/
def cfg_init : cfg_t :=
  { dlpath := none, delim := LIST_DELIM, format := none, proto := "https".toList,
    opmask := 0, logmask := LOG_ERROR ||| LOG_WARN ||| LOG_INFO,
    color := UNSET, ignoreood := UNSET, extinfo := false, force := false, getdeps := false,
    quiet := false, skiprepos := false, secure := true, maxthreads := UNSET, timeout := UNSET,
    targets := [], ignore_pkgs := [], ignore_repos := [] }

/-! ## Result aggregation -/

/-- The POSIX regex library as the program uses it: `regcomp` with `REGEX_OPTS` (`none` when
the pattern does not compile) and the answer of `regexec`. -/
structure regex_t (R : Type) where
  regcomp : CStr → Option R
  regexec : R → CStr → Int

/-- POSIX `REG_NOMATCH`. -/
def REG_NOMATCH : Int := 1

/-- The test of `filter_results` on one record: `regexec` does not answer `REG_NOMATCH` on the
name, or does not on the description. -/
def filter_match {R : Type} (rx : regex_t R) (regex : R) (pkg : aurpkg_t) : Bool :=
  rx.regexec regex pkg.name != REG_NOMATCH || rx.regexec regex pkg.desc != REG_NOMATCH

/-- The inner loop of `filter_results` over the records `j` of `list`. -/
def filter_inner {R : Type} (rx : regex_t R) (regex : R) :
    List aurpkg_t → List aurpkg_t → List aurpkg_t
  | [], filterlist => filterlist
  | pkg :: rest, filterlist =>
    if filter_match rx regex pkg then filter_inner rx regex rest (alpm_list_add filterlist pkg)
    else filter_inner rx regex rest filterlist

/-- The outer loop of `filter_results` over the targets `i`; returns the final `filterlist`. -/
def filter_outer {R : Type} (rx : regex_t R) :
    List CStr → List aurpkg_t → List aurpkg_t → List aurpkg_t
  | [], _, filterlist => filterlist
  | targ :: rest, list, _ =>
    let filterlist :=
      match rx.regcomp targ with
      | some regex => filter_inner rx regex list []
      | none => []
    filter_outer rx rest filterlist filterlist

/-- Function `filter_results`. -/
def filter_results {R : Type} (rx : regex_t R) (cfg : cfg_t) (list : List aurpkg_t) :
    List aurpkg_t :=
  if cfg.opmask &&& OP_SEARCH = 0 then list
  else
    let filterlist := filter_outer rx cfg.targets list []
    alpm_list_msort filterlist (alpm_list_count filterlist) aurpkg_cmp

/-- The loop of `print_results`; `prev` is the previous list element. -/
def print_results_loop {β : Type} (printfn : aurpkg_t → List β) :
    Option aurpkg_t → List aurpkg_t → List β
  | _, [] => []
  | prev, pkg :: rest =>
    (match prev with
      | none => printfn pkg
      | some q => if aurpkg_cmp pkg q ≠ 0 then printfn pkg else []) ++
    print_results_loop printfn (some pkg) rest

/-- Function `print_results(results, printfn)`: what the calls of `printfn` produce, in order.
`printfn = none` is the NULL function pointer; the message on stderr is not modelled. -/
def print_results {β : Type} (cfg : cfg_t) (results : List aurpkg_t)
    (printfn : Option (aurpkg_t → List β)) : List β :=
  match printfn with
  | none => []
  | some f =>
    if results = [] ∧ cfg.opmask &&& OP_INFO ≠ 0 then []
    else print_results_loop f none results

/-- The choice of `task.printfn` in `main`: whether a renderer is installed. -/
def main_has_printfn (cfg : cfg_t) : Bool :=
  if cfg.opmask &&& OP_UPDATE ≠ 0 then false
  else if cfg.opmask &&& OP_INFO ≠ 0 then true
  else if cfg.opmask &&& (OP_SEARCH ||| OP_MSEARCH) ≠ 0 then true
  else false

/-- The joining loop of `main` over the values returned by the workers. -/
def main_join (thread_returns : List (List aurpkg_t)) : List aurpkg_t :=
  thread_returns.foldl alpm_list_join []

/-- The exit code computed by `main`:
`(results == NULL) ^ !(cfg.opmask & ~OP_UPDATE)`. -/
def main_ret (cfg : cfg_t) (results : List aurpkg_t) : Int :=
  let a : Nat := if results = [] then 1 else 0
  let b : Nat := if cfg.opmask &&& bnot32 OP_UPDATE = 0 then 1 else 0
  ((a ^^^ b : Nat) : Int)

/-- The end of `main` from the join of the workers on: the exit code and the records handed
to the renderer, in order. -/
def main_finish {R : Type} (rx : regex_t R) (cfg : cfg_t)
    (thread_returns : List (List aurpkg_t)) : Int × List aurpkg_t :=
  let results := filter_results rx cfg (main_join thread_returns)
  (main_ret cfg results,
   print_results cfg results (if main_has_printfn cfg then some (fun pkg => [pkg]) else none))

/-! ## Streaming JSON sink -/

/-- C `strtol(s, &end, 10)`: the value and the number of bytes consumed (`end - s`). -/
def strtol (s : CStr) : Int × Nat :=
  let ws := (s.takeWhile isspace).length
  let sgn := match s.drop ws with
    | '-' :: _ => 1
    | '+' :: _ => 1
    | _ => 0
  let neg := match s.drop ws with
    | '-' :: _ => true
    | _ => false
  let ds := (s.drop (ws + sgn)).takeWhile Char.isDigit
  let v : Int := ((ds.foldl (fun acc c => acc * 10 + (c.toNat - 48)) 0 : Nat) : Int)
  if ds = [] then (0, 0)
  else ((if neg then max (-v) (-(2 ^ 63)) else min v (2 ^ 63 - 1)), ws + sgn + ds.length)

/-- C `strncmp(a, b, n) == 0` on two strings. -/
def strncmp_eq (a b : CStr) (n : Nat) : Bool := a.take n == b.take n

/-- Structure `yajl_parser_t`; `key` is the 32-byte key buffer. -/
structure yajl_parser_t where
  pkglist : List aurpkg_t
  resultcount : Int
  aurpkg : aurpkg_t
  key : Mem
  keysz : Nat
  json_depth : Int
  deriving DecidableEq, Repr

/-- The parser state `task_query` allocates (zeroed). -/
def yajl_parser_init : yajl_parser_t :=
  { pkglist := [], resultcount := 0, aurpkg := aurpkg_zero, key := List.replicate 32 NUL,
    keysz := 0, json_depth := 0 }

/-- Macro `KEY_IS(k)`: `strncmp(p->key, k, p->keysz) == 0`. -/
def KEY_IS (p : yajl_parser_t) (k : String) : Bool := strncmp_eq (cstr p.key 0) k.toList p.keysz

/-- Function `aurpkg_dup`: a copy of the record. -/
def aurpkg_dup (pkg : aurpkg_t) : aurpkg_t := pkg

/-- Function `aurpkg_free_inner`: the string and list fields are freed and set to NULL. -/
def aurpkg_free_inner (pkg : aurpkg_t) : aurpkg_t :=
  { pkg with name := NULL, maint := none, ver := NULL, urlpath := NULL, desc := NULL,
             url := NULL, lic := NULL, depends := [], makedepends := [], optdepends := [],
             provides := [], conflicts := [], replaces := [] }

/-- Function `json_end_map`. -/
def json_end_map (cfg : cfg_t) (p : yajl_parser_t) : yajl_parser_t :=
  let p1 := { p with json_depth := p.json_depth - 1 }
  if 0 < p1.json_depth then
    if ¬ (p1.aurpkg.ood ≠ 0 ∧ cfg.ignoreood ≠ 0) then
      { p1 with pkglist := alpm_list_add_sorted p1.pkglist (aurpkg_dup p1.aurpkg) aurpkg_cmp }
    else { p1 with aurpkg := aurpkg_free_inner p1.aurpkg }
  else p1

/-- Function `json_integer`. -/
def json_integer (p : yajl_parser_t) (val : Int) : yajl_parser_t :=
  if KEY_IS p "ID" then { p with aurpkg := { p.aurpkg with id := to_int val } }
  else if KEY_IS p "CategoryID" then { p with aurpkg := { p.aurpkg with cat := to_int val } }
  else if KEY_IS p "NumVotes" then { p with aurpkg := { p.aurpkg with votes := to_int val } }
  else if KEY_IS p "OutOfDate" then { p with aurpkg := { p.aurpkg with ood := to_int val } }
  else if KEY_IS p "FirstSubmitted" then { p with aurpkg := { p.aurpkg with firstsub := val } }
  else if KEY_IS p "LastModified" then { p with aurpkg := { p.aurpkg with lastmod := val } }
  else if KEY_IS p "resultcount" then { p with resultcount := to_int val }
  else p

/-- Function `json_map_key(ctx, data, size)`; `none` when the copy leaves the key buffer. -/
def json_map_key (p : yajl_parser_t) (data : Mem) (size : Nat) : Option yajl_parser_t :=
  if 32 ≤ size then none
  else some { p with keysz := size, key := data.take size ++ [NUL] ++ p.key.drop (size + 1) }

/-- Function `json_start_map`. -/
def json_start_map (p : yajl_parser_t) : yajl_parser_t :=
  let p1 := { p with json_depth := p.json_depth + 1 }
  if 1 < p1.json_depth then { p1 with aurpkg := aurpkg_zero } else p1

/-- Macro `VALDUPE`: the string made of the first `n` bytes of `src`. -/
def VALDUPE (src : Mem) (n : Nat) : CStr := cstr (src.take n ++ [NUL]) 0

/-- Macro `NUMCOPY`: `strtol` of the first `n` bytes of `src`, copied to the 32-byte buffer;
`none` when the copy leaves that buffer. -/
def NUMCOPY (src : Mem) (n : Nat) : Option Int :=
  if 32 ≤ n then none else some (strtol (cstr (src.take n ++ [NUL]) 0)).1

/-- Function `json_string(ctx, data, size)`; `data` is the memory the pointer refers to. -/
def json_string (p : yajl_parser_t) (data : Mem) (size : Nat) : Option yajl_parser_t :=
  if KEY_IS p "type" && STR_STARTS_WITH data 0 "error".toList then some p
  else if KEY_IS p "ID" then
    (NUMCOPY data size).map fun v => { p with aurpkg := { p.aurpkg with id := to_int v } }
  else if KEY_IS p "Name" then
    some { p with aurpkg := { p.aurpkg with name := VALDUPE data size } }
  else if KEY_IS p "Maintainer" then
    some { p with aurpkg := { p.aurpkg with maint := some (VALDUPE data size) } }
  else if KEY_IS p "Version" then
    some { p with aurpkg := { p.aurpkg with ver := VALDUPE data size } }
  else if KEY_IS p "CategoryID" then
    (NUMCOPY data size).map fun v => { p with aurpkg := { p.aurpkg with cat := to_int v } }
  else if KEY_IS p "Description" then
    some { p with aurpkg := { p.aurpkg with desc := VALDUPE data size } }
  else if KEY_IS p "URL" then
    some { p with aurpkg := { p.aurpkg with url := VALDUPE data size } }
  else if KEY_IS p "URLPath" then
    some { p with aurpkg := { p.aurpkg with urlpath := VALDUPE data size } }
  else if KEY_IS p "License" then
    some { p with aurpkg := { p.aurpkg with lic := VALDUPE data size } }
  else if KEY_IS p "NumVotes" then
    (NUMCOPY data size).map fun v => { p with aurpkg := { p.aurpkg with votes := to_int v } }
  else if KEY_IS p "OutOfDate" then
    some { p with aurpkg := { p.aurpkg with ood := ((peek data 0).toNat : Int) - 48 } }
  else if KEY_IS p "FirstSubmitted" then
    (NUMCOPY data size).map fun v => { p with aurpkg := { p.aurpkg with firstsub := v } }
  else if KEY_IS p "LastModified" then
    (NUMCOPY data size).map fun v => { p with aurpkg := { p.aurpkg with lastmod := v } }
  else some p

/-- The events yajl pushes to the callbacks the program registers. -/
inductive json_event where
  | integer (val : Int)
  | string (data : Mem) (size : Nat)
  | start_map
  | map_key (data : Mem) (size : Nat)
  | end_map
  deriving DecidableEq, Repr

/-- One callback invocation. -/
def json_callback (cfg : cfg_t) (p : yajl_parser_t) : json_event → Option yajl_parser_t
  | json_event.integer val => some (json_integer p val)
  | json_event.string data size => json_string p data size
  | json_event.start_map => some (json_start_map p)
  | json_event.map_key data size => json_map_key p data size
  | json_event.end_map => some (json_end_map cfg p)

/-- The callbacks run over a stream of events. -/
def json_run (cfg : cfg_t) : yajl_parser_t → List json_event → Option yajl_parser_t
  | p, [] => some p
  | p, e :: es =>
    match json_callback cfg p e with
    | none => none
    | some p1 => json_run cfg p1 es

/-! ## Renderers -/

/-- The table `aur_cat`; entry 0 is NULL. -/
def aur_cat : List (Option CStr) :=
  none :: (["None", "daemons", "devel", "editors", "emulators", "games", "gnome", "i18n",
    "kde", "lib", "modules", "multimedia", "network", "office", "science", "system", "x11",
    "xfce", "kernels"].map fun n => some n.toList)

/-- The string `printf_flags`. -/
def printf_flags : List Char := "'-+ #0I".toList

/-- The string `digits`. -/
def digits : List Char := "0123456789".toList

/-- Decimal text of an integer (`%d`, `%ld`). -/
def itoa10 (v : Int) : CStr :=
  if v < 0 then '-' :: (Nat.repr v.natAbs).toList else (Nat.repr v.natAbs).toList

/-- The character written for the escape letter `c` by the switch of `print_escaped`, if
any. -/
def escape_char (c : Char) : Option Char :=
  if c = '\\' then some '\\'
  else if c = '"' then some '"'
  else if c = 'a' then some (Char.ofNat 7)
  else if c = 'b' then some (Char.ofNat 8)
  else if c = 'e' then some (Char.ofNat 27)
  else if c = 'n' then some '\n'
  else if c = 'r' then some '\r'
  else if c = 't' then some '\t'
  else if c = 'v' then some (Char.ofNat 11)
  else none

/-- The loop of `print_escaped` at `f`: the bytes written and the final `out`; `none` when
the scan leaves the buffer. -/
def print_escaped_loop : Nat → Mem → Nat → Nat → Option (CStr × Nat)
  | 0, _, _, _ => none
  | fuel + 1, m, f, out =>
    if m.length ≤ f then none
    else if peek m f = NUL then some ([], out)
    else if peek m f = '\\' then
      if m.length ≤ f + 1 then none
      else
        (print_escaped_loop fuel m (f + 2) out).map fun r =>
          ((match escape_char (peek m (f + 1)) with
            | some c => [c]
            | none => []) ++ r.1, r.2)
    else (print_escaped_loop fuel m (f + 1) (out + 1)).map fun r => (peek m f :: r.1, r.2)

/-- Function `print_escaped(delim)`, `delim` pointing to the start of the buffer `m`: the
bytes written to stdout and the value returned. -/
def print_escaped (m : Mem) : Option (CStr × Nat) := print_escaped_loop (m.length + 1) m 0 0

/-- C `printf` with a format made of `%`, the flags and width `spec`, and `s`, as glibc
prints it: the argument padded with blanks to the width, on the right when the flag `-` is
given. -/
def printf_s (spec : CStr) (arg : CStr) : CStr :=
  let width := ((spec.dropWhile fun c => printf_flags.contains c).foldl
    (fun acc c => acc * 10 + (c.toNat - 48)) 0 : Nat)
  if spec.contains '-' then arg ++ List.replicate (width - arg.length) ' '
  else List.replicate (width - arg.length) ' ' ++ arg

/-- The argument of a `%s` conversion as glibc prints it: the text `(null)` for the NULL
pointer. -/
def printf_arg (s : CStr) : CStr := if s = NULL then "(null)".toList else s

/-- The loop of `print_extinfo_list` from element `i` on; `count` is the running count. -/
def print_extinfo_loop (delim : CStr) (wrap : Bool) (cols : Nat) :
    List CStr → Nat → Option CStr
  | [], _ => some ['\n']
  | data :: next, count =>
    let brk : Bool := wrap && decide (0 < cols) && decide (cols ≤ count + data.length)
    let count1 := (if brk then INFO_INDENT else count) + data.length
    let head := (if brk then '\n' :: List.replicate INFO_INDENT ' ' else []) ++ data
    match next with
    | [] => (print_extinfo_loop delim wrap cols next count1).map fun r => head ++ r
    | _ :: _ =>
      match print_escaped (mem_of delim) with
      | none => none
      | some e =>
        (print_extinfo_loop delim wrap cols next (count1 + e.2)).map fun r => head ++ e.1 ++ r

/-- Function `print_extinfo_list(list, fieldname, delim, wrap)`; `getcols` is the value of
`getcols()`. -/
def print_extinfo_list (getcols : Nat) (list : List CStr) (fieldname : Option CStr)
    (delim : CStr) (wrap : Bool) : Option CStr :=
  if list = [] then some []
  else
    let cols := if wrap then getcols else 0
    let label := match fieldname with
      | some n => printf_s "-15".toList n ++ [':', ' ']
      | none => []
    (print_extinfo_loop delim wrap cols list label.length).map fun r => label ++ r

/-- The switch of `print_pkg_formatted` on the conversion letter `c`, with `spec` the flags
and width copied to `fmt`. -/
def print_pkg_conversion (cfg : cfg_t) (pkg : aurpkg_t) (spec : CStr) (c : Char) :
    Option CStr :=
  if c = 'a' then some (printf_s spec (itoa10 pkg.lastmod))
  else if c = 'c' then
    match aur_cat.get? pkg.cat.toNat with
    | some (some n) => if 0 ≤ pkg.cat then some (printf_s spec n) else none
    | some none => if 0 ≤ pkg.cat then some (printf_s spec "(null)".toList) else none
    | none => none
  else if c = 'd' then some (printf_s spec (printf_arg pkg.desc))
  else if c = 'i' then some (printf_s spec (itoa10 pkg.id))
  else if c = 'l' then some (printf_s spec (printf_arg pkg.lic))
  else if c = 'm' then some (printf_s spec (pkg.maint.getD "(orphan)".toList))
  else if c = 'n' then some (printf_s spec (printf_arg pkg.name))
  else if c = 'o' then some (printf_s spec (itoa10 pkg.votes))
  else if c = 'p' then
    some (printf_s spec ((cfg.proto ++ "://aur.archlinux.org/packages.php?ID=".toList ++
      itoa10 pkg.id).take 63))
  else if c = 's' then some (printf_s spec (itoa10 pkg.firstsub))
  else if c = 't' then some (printf_s spec (if pkg.ood ≠ 0 then "yes".toList else "no".toList))
  else if c = 'u' then some (printf_s spec (printf_arg pkg.url))
  else if c = 'v' then some (printf_s spec (printf_arg pkg.ver))
  else if c = 'C' then print_extinfo_list 0 pkg.conflicts none cfg.delim false
  else if c = 'D' then print_extinfo_list 0 pkg.depends none cfg.delim false
  else if c = 'M' then print_extinfo_list 0 pkg.makedepends none cfg.delim false
  else if c = 'O' then print_extinfo_list 0 pkg.optdepends none cfg.delim false
  else if c = 'P' then print_extinfo_list 0 pkg.provides none cfg.delim false
  else if c = 'R' then print_extinfo_list 0 pkg.replaces none cfg.delim false
  else if c = '%' then some ['%']
  else some ['?']

/-- The loop of `print_pkg_formatted` with `p` at offset `p` of the format buffer `m`, whose
terminator is at offset `e`. -/
def print_pkg_formatted_loop (cfg : cfg_t) (pkg : aurpkg_t) (m : Mem) (e : Nat) :
    Nat → Nat → Option CStr
  | 0, _ => none
  | fuel + 1, p =>
    if e ≤ p then some []
    else if peek m p = '%' then
      let len0 := span m (p + 1) (fun c => printf_flags.contains c)
      let len := len0 + span m (p + 1 + len0) (fun c => digits.contains c)
      if 32 < len + 3 then none
      else
        match print_pkg_conversion cfg pkg ((m.drop (p + 1)).take len) (peek m (p + len + 1)) with
        | none => none
        | some o => (print_pkg_formatted_loop cfg pkg m e fuel (p + len + 2)).map fun r => o ++ r
    else if peek m p = '\\' then
      match print_escaped [peek m p, peek m (p + 1), NUL] with
      | none => none
      | some o => (print_pkg_formatted_loop cfg pkg m e fuel (p + 2)).map fun r => o.1 ++ r
    else (print_pkg_formatted_loop cfg pkg m e fuel (p + 1)).map fun r => peek m p :: r

/-- Function `print_pkg_formatted(pkg)` for a configuration with a format: the bytes written
to stdout; `none` when a fixed buffer is overrun. -/
def print_pkg_formatted (cfg : cfg_t) (pkg : aurpkg_t) : Option CStr :=
  match cfg.format with
  | none => none
  | some format =>
    (print_pkg_formatted_loop cfg pkg (mem_of (cstr format 0)) (cstr format 0).length
      ((cstr format 0).length + 1) 0).map fun r => r ++ ['\n']

/-! ## Update task -/

/-- The local package database as the update task consults it: the installed version of a
package (`alpm_db_get_pkg` on `db_local`, then `alpm_pkg_get_version`) and `alpm_pkg_vercmp`. -/
structure alpm_t where
  db_local : CStr → Option CStr
  alpm_pkg_vercmp : CStr → CStr → Int

/-- What `task_update` does besides returning: the warnings, the nested download and the
update line. -/
inductive update_note where
  | skipping_uninstalled (candidate : CStr)
  | ignored (candidate : CStr)
  | task_download (name : CStr)
  | update_line (candidate : CStr)
  deriving DecidableEq, Repr

/-- Function `task_update(curl, arg)`; `task_query` is the result of the registry query for
each target. -/
def task_update (cfg : cfg_t) (alpm : alpm_t) (task_query : CStr → List aurpkg_t) (arg : CStr) :
    List aurpkg_t × List update_note :=
  let qretval := task_query arg
  match qretval.head? with
  | none => ([], [])
  | some aurpkg =>
    match alpm.db_local arg with
    | none => ([], [update_note.skipping_uninstalled arg])
    | some pmver =>
      if 0 < alpm.alpm_pkg_vercmp aurpkg.ver pmver then
        if (alpm_list_find_str cfg.ignore_pkgs arg).isSome then ([], [update_note.ignored arg])
        else if cfg.opmask &&& OP_DOWNLOAD ≠ 0 then
          (qretval, [update_note.task_download aurpkg.name])
        else (qretval, [update_note.update_line arg])
      else ([], [])

/-! ## Command line -/

/-- The values `getopt_long` hands to the switch of `parse_options`, with `optarg`. -/
inductive getopt_t where
  | opt_s
  | opt_u
  | opt_i
  | opt_d
  | opt_m
  | opt_b
  | opt_c (optarg : Option CStr)
  | opt_f
  | opt_h
  | opt_q
  | opt_t (optarg : CStr)
  | opt_v
  | opt_V
  | OP_DEBUG
  | OP_FORMAT (optarg : CStr)
  | opt_o
  | OP_IGNOREPKG (optarg : CStr)
  | OP_IGNOREREPO (optarg : Option CStr)
  | OP_NOIGNOREOOD
  | OP_LISTDELIM (optarg : CStr)
  | OP_NOSSL
  | OP_THREADS (optarg : CStr)
  | OP_TIMEOUT (optarg : CStr)
  | opt_unknown
  deriving DecidableEq, Repr

/-- The tokens of a loop `for(token = strtok(s, delim); token; token = strtok(NULL, delim))`. -/
def strtok_loop (delim : List Char) : Nat → Mem → Option Nat → Nat → List CStr
  | 0, _, _, _ => []
  | fuel + 1, m, s, saveptr =>
    match (strtok_r m s delim saveptr).2.1 with
    | none => []
    | some token =>
      cstr (strtok_r m s delim saveptr).1 token ::
        strtok_loop delim fuel (strtok_r m s delim saveptr).1 none (strtok_r m s delim saveptr).2.2

/-- All tokens of the string `s`. -/
def strtok_all (s : CStr) (delim : List Char) : List CStr :=
  strtok_loop delim (s.length + 1) (mem_of s) (some 0) 0

/-- The colour choice for `optarg` (`-c`): `none` for an invalid argument. -/
def color_arg (isatty : Bool) (optarg : Option CStr) : Option Int :=
  if optarg = none ∨ optarg = some "auto".toList then some (if isatty then 1 else 0)
  else if optarg = some "always".toList then some 1
  else if optarg = some "never".toList then some 0
  else none

/-- The switch of `parse_options` for one option: the new configuration, or the value
returned at once. -/
def parse_option (isatty : Bool) (cfg : cfg_t) : getopt_t → Except Int cfg_t
  | getopt_t.opt_s => .ok { cfg with opmask := cfg.opmask ||| OP_SEARCH }
  | getopt_t.opt_u => .ok { cfg with opmask := cfg.opmask ||| OP_UPDATE }
  | getopt_t.opt_i =>
    if cfg.opmask &&& OP_INFO = 0 then .ok { cfg with opmask := cfg.opmask ||| OP_INFO }
    else .ok { cfg with extinfo := true }
  | getopt_t.opt_d =>
    if cfg.opmask &&& OP_DOWNLOAD = 0 then .ok { cfg with opmask := cfg.opmask ||| OP_DOWNLOAD }
    else .ok { cfg with getdeps := true }
  | getopt_t.opt_m => .ok { cfg with opmask := cfg.opmask ||| OP_MSEARCH }
  | getopt_t.opt_b => .ok { cfg with logmask := cfg.logmask ||| LOG_BRIEF }
  | getopt_t.opt_c optarg =>
    match color_arg isatty optarg with
    | some c => .ok { cfg with color := c }
    | none => .error 1
  | getopt_t.opt_f => .ok { cfg with force := true }
  | getopt_t.opt_h => .error 1
  | getopt_t.opt_q => .ok { cfg with quiet := true }
  | getopt_t.opt_t optarg => .ok { cfg with dlpath := some optarg }
  | getopt_t.opt_v => .ok { cfg with logmask := cfg.logmask ||| LOG_VERBOSE }
  | getopt_t.opt_V => .error 2
  | getopt_t.OP_DEBUG => .ok { cfg with logmask := cfg.logmask ||| LOG_DEBUG }
  | getopt_t.OP_FORMAT optarg => .ok { cfg with format := some optarg }
  | getopt_t.opt_o => .ok { cfg with ignoreood := 1 }
  | getopt_t.OP_IGNOREPKG optarg =>
    .ok { cfg with ignore_pkgs := (strtok_all optarg [',']).foldl alpm_list_add cfg.ignore_pkgs }
  | getopt_t.OP_IGNOREREPO optarg =>
    match optarg with
    | none => .ok { cfg with skiprepos := true }
    | some a =>
      .ok { cfg with ignore_repos := (strtok_all a [',']).foldl alpm_list_add cfg.ignore_repos }
  | getopt_t.OP_NOIGNOREOOD => .ok { cfg with ignoreood := 0 }
  | getopt_t.OP_LISTDELIM optarg => .ok { cfg with delim := optarg }
  | getopt_t.OP_NOSSL => .ok { cfg with secure := false, proto := "http".toList }
  | getopt_t.OP_THREADS optarg =>
    if (strtol optarg).2 < optarg.length ∨ to_int (strtol optarg).1 ≤ 0 then .error 1
    else .ok { cfg with maxthreads := to_int (strtol optarg).1 }
  | getopt_t.OP_TIMEOUT optarg =>
    if (strtol optarg).2 < optarg.length then .error 1
    else .ok { cfg with timeout := (strtol optarg).1 }
  | getopt_t.opt_unknown => .error 1

/-- The option loop of `parse_options`. -/
def parse_options_loop (isatty : Bool) : cfg_t → List getopt_t → Except Int cfg_t
  | cfg, [] => .ok cfg
  | cfg, opt :: rest =>
    match parse_option isatty cfg opt with
    | .error r => .error r
    | .ok cfg1 => parse_options_loop isatty cfg1 rest

/-- Macro `NOT_EXCL(val)`. -/
def NOT_EXCL (cfg : cfg_t) (val : Nat) : Bool :=
  cfg.opmask &&& val != 0 && cfg.opmask &&& bnot32 val != 0

/-- The loop of `parse_options` over the positional arguments `argv[optind..]`. -/
def parse_targets : List CStr → List CStr → List CStr
  | targets, [] => targets
  | targets, arg :: rest =>
    if (alpm_list_find_str targets arg).isSome then parse_targets targets rest
    else parse_targets (alpm_list_add targets arg) rest

/-- Function `parse_options`: `opts` are the options in the order `getopt_long` reports them,
`args` the positional arguments left at `optind`.  Returns the value returned and the
configuration; when an option makes the function return at once, `main` exits without using
the configuration, and the one given is returned. -/
def parse_options (isatty : Bool) (cfg : cfg_t) (opts : List getopt_t) (args : List CStr) :
    Int × cfg_t :=
  match parse_options_loop isatty cfg opts with
  | .error r => (r, cfg)
  | .ok cfg1 =>
    if cfg1.opmask = 0 then (3, cfg1)
    else if NOT_EXCL cfg1 OP_INFO || NOT_EXCL cfg1 OP_SEARCH || NOT_EXCL cfg1 OP_MSEARCH ||
        NOT_EXCL cfg1 (OP_UPDATE ||| OP_DOWNLOAD) then (2, cfg1)
    else (0, { cfg1 with targets := parse_targets cfg1.targets args })

/-! ## Search pre-filter of `task_query` -/

/-- Macro `REGEX_CHARS`. -/
def REGEX_CHARS : List Char := "^.+*?$[]()\x7b\x7d|\\".toList

/-- C `strpbrk(p, accept)`: the first byte of the string at `p` that is in `accept`. -/
def strpbrk (m : Mem) (p : Nat) (accept : List Char) : Option Nat :=
  (find_idx (fun x => accept.contains x) (cstr m p)).map (fun i => p + i)

/-- The value of `span` computed at `argstr` by the loop of `task_query`:
`strcspn(argstr, REGEX_CHARS)`, less one when the byte that ends the run is `?` or `*`. -/
def query_span (m : Mem) (argstr : Nat) : Int :=
  let span0 : Nat := span m argstr (fun c => !REGEX_CHARS.contains c)
  if peek m (argstr + span0) = '?' ∨ peek m (argstr + span0) = '*' then (span0 : Int) - 1
  else (span0 : Int)

/-- The loop `for(argstr = arg; *argstr; argstr++)` of `task_query` in search mode, entered at
`argstr` with the current value of `span`: `some none` for the return on an invalid regular
expression, otherwise the values of `argstr` and `span` when the loop is left. -/
def query_span_loop (m : Mem) : Nat → Nat → Int → Option (Option (Nat × Int))
  | 0, _, _ => none
  | fuel + 1, argstr, span0 =>
    if peek m argstr = NUL then some (some (argstr, span0))
    else if peek m argstr = '[' ∨ peek m argstr = '\x7b' then
      -- a string inside [] or {} cannot be a valid span
      match strpbrk m (((argstr : Int) + query_span m argstr).toNat) [']', '\x7d'] with
      | none => some none
      | some q => query_span_loop m fuel (q + 1) (query_span m argstr)
    else if 2 ≤ query_span m argstr then some (some (argstr, query_span m argstr))
    else query_span_loop m fuel (argstr + 1) (query_span m argstr)

/-- What `task_query` does with a target before any request is made. -/
inductive prefilter_t where
  | invalid_regex
  | too_short
  | request (argstr : Nat) (span : Int)
  deriving DecidableEq, Repr

/-- The start of `task_query(curl, arg)`: the choice of `argstr` and `span`.  Outside search
mode the whole target is used (`span` is 0, which makes `curl_easy_escape` take the whole
string). -/
def task_query_prefilter (cfg : cfg_t) (arg : CStr) : Option prefilter_t :=
  if cfg.opmask &&& OP_SEARCH ≠ 0 then
    match query_span_loop (mem_of arg) (arg.length + 2) 0 0 with
    | none => none
    | some none => some prefilter_t.invalid_regex
    | some (some (argstr, span)) =>
      if span < 2 then some prefilter_t.too_short else some (prefilter_t.request argstr span)
  else some (prefilter_t.request 0 0)

/-- The bytes `url_escape(argstr, span, NULL)` encodes as the RPC argument: `span` bytes from
`argstr`, the whole string when `span` is 0. -/
def query_argument (arg : CStr) (argstr : Nat) (span : Int) : CStr :=
  if span = 0 then cstr (mem_of arg) argstr else (cstr (mem_of arg) argstr).take span.toNat

/-! ## Tarball extraction -/

/-- libarchive `ARCHIVE_EOF`. -/
def ARCHIVE_EOF : Int := 1
/-- libarchive `ARCHIVE_OK`. -/
def ARCHIVE_OK : Int := 0
/-- libarchive `ARCHIVE_RETRY`. -/
def ARCHIVE_RETRY : Int := -10
/-- libarchive `ARCHIVE_WARN`. -/
def ARCHIVE_WARN : Int := -20
/-- libarchive `ARCHIVE_FAILED`. -/
def ARCHIVE_FAILED : Int := -25
/-- libarchive `ARCHIVE_FATAL`. -/
def ARCHIVE_FATAL : Int := -30

/-- An entry for which `archive_read_next_header` answers `ARCHIVE_OK`, as the function uses
it: `archive_entry_pathname`, `S_ISDIR` of its mode, the answer of `archive_read_extract` on
it and the value of `archive_errno` after that call. -/
structure archive_entry_t where
  pathname : Option CStr
  isdir : Bool
  extract : Int
  errno : Int
  deriving DecidableEq, Repr

/-- The variables of `archive_extract_file`, with the entries handed to
`archive_read_extract` so far. -/
structure extract_t where
  ret : Int
  want_subdir : Bool
  subdir : Option CStr
  extracted : List (Option CStr)
  deriving DecidableEq, Repr

/-- The `while` loop of `archive_extract_file` over the entries whose header is read with
`ARCHIVE_OK`; `none` when `entryname[len - 1]` is read from an empty name. -/
def archive_extract_loop : List archive_entry_t → extract_t → Option extract_t
  | [], st => some st
  | entry :: rest, st =>
    let st1 : Option extract_t :=
      if st.want_subdir then
        match entry.pathname with
        | some entryname =>
          if entry.isdir then
            let len := entryname.length
            if len = 0 then none
            else
              some { st with
                subdir := some (entryname.take
                  (if entryname.getD (len - 1) NUL = '/' then len - 1 else len)),
                want_subdir := false }
          else some st
        | none => some st
      else some st
    match st1 with
    | none => none
    | some st1 =>
      let st2 := { st1 with extracted := st1.extracted ++ [entry.pathname] }
      -- ok = archive_read_extract(archive, entry, archive_flags)
      if entry.extract = ARCHIVE_FATAL ∨ entry.extract = ARCHIVE_WARN then
        some { st2 with ret := entry.errno }
      else if entry.extract = ARCHIVE_EOF then some { st2 with ret := 0 }
      else archive_extract_loop rest st2

/-- Function `archive_extract_file(file, subdir)`: `open_memory` is the answer of
`archive_read_open_memory`, `entries` the entries of the archive, `subdir` the value of
`*subdir` (`none` for a NULL `subdir`).  Returns the value returned, `*subdir` and the entries
handed to `archive_read_extract`. -/
def archive_extract_file (open_memory : Int) (entries : List archive_entry_t)
    (subdir : Option (Option CStr)) : Option (Int × Option (Option CStr) × List (Option CStr)) :=
  let st0 : extract_t :=
    { ret := open_memory, want_subdir := subdir.isSome, subdir := subdir.join, extracted := [] }
  let st : Option extract_t :=
    if st0.ret = ARCHIVE_OK then archive_extract_loop entries st0 else some st0
  st.map fun st =>
    (st.ret,
     (if st.want_subdir ∧ st.subdir = none then some (some [])
      else subdir.map fun _ => st.subdir),
     st.extracted)

/-! ## Package-manager configuration -/

/-- Linux `PATH_MAX`, the size of the `line` buffers. -/
def PATH_MAX : Nat := 4096

/-- The strings successive calls of `fgets(line, PATH_MAX, fp)` store for a file with the
text `text`, `cur` being the bytes already read for the current call. -/
def fgets_loop : List Char → CStr → List CStr
  | [], cur => if cur = [] then [] else [cur]
  | c :: cs, cur =>
    if c = '\n' ∨ cur.length + 1 = PATH_MAX - 1 then (cur ++ [c]) :: fgets_loop cs []
    else fgets_loop cs (cur ++ [c])

/-- The strings successive calls of `fgets(line, PATH_MAX, fp)` store for a file with the
text `text`. -/
def fgets_lines (text : List Char) : List CStr := fgets_loop text []

/-- C `strsep(&p, delim)` on the string at `p`: the buffer and the new value of `p` (`none`
for NULL). -/
def strsep (m : Mem) (p : Nat) (delim : List Char) : Mem × Option Nat :=
  match find_idx (fun c => delim.contains c) (cstr m p) with
  | some i => (poke m (p + i) NUL, some (p + i + 1))
  | none => (m, none)

/-- Macro `STREQ(x, y)`. -/
def STREQ (x y : CStr) : Bool := strcmp x y == 0

/-- The body of the `fgets` loop of `alpm_init` for the line `l`: the configuration and the
sync databases registered so far.  `none` when `line[linelen - 1]` lies outside `line`, and
when `strtok` is called with the NULL pointer `strsep` leaves for a line without `=`. -/
def alpm_init_line (cfg : cfg_t) (syncdbs : List CStr) (l : CStr) :
    Option (cfg_t × List CStr) :=
  let m0 := mem_of l
  let m1 := match strchr m0 0 '#' with
    | some ptr => poke m0 ptr NUL
    | none => m0
  let t := strtrim m1 0
  let linelen := t.2
  let other : Option (cfg_t × List CStr) :=
    let s := strsep t.1 0 ['=']
    let m3 := (strtrim s.1 0).1
    let m4 := match s.2 with
      | some ptr => (strtrim m3 ptr).1
      | none => m3
    if STREQ (cstr m4 0) "IgnorePkg".toList then
      match s.2 with
      | none => none
      | some ptr =>
        let tokens := strtok_all (cstr m4 ptr) ['\t', '\n', ' ']
        some ({ cfg with ignore_pkgs := tokens.foldl alpm_list_add cfg.ignore_pkgs }, syncdbs)
    else some (cfg, syncdbs)
  if linelen = 0 then some (cfg, syncdbs)
  else if peek t.1 0 = '[' then
    if PATH_MAX ≤ linelen - 1 then none
    else if peek t.1 (linelen - 1) = ']' then
      -- section = strndup(&line[1], linelen - 2)
      let sect := (cstr t.1 1).take (linelen - 2)
      if strcmp sect "options".toList ≠ 0 then
        if ¬ cfg.skiprepos ∧ (alpm_list_find_str cfg.ignore_repos sect).isNone then
          -- alpm_register_syncdb(pmhandle, section, 0)
          some (cfg, alpm_list_add syncdbs sect)
        else some (cfg, syncdbs)
      else some (cfg, syncdbs)
    else other
  else other

/-- The `fgets` loop of `alpm_init`. -/
def alpm_init_loop : cfg_t → List CStr → List CStr → Option (cfg_t × List CStr)
  | cfg, syncdbs, [] => some (cfg, syncdbs)
  | cfg, syncdbs, l :: rest =>
    match alpm_init_line cfg syncdbs l with
    | none => none
    | some r => alpm_init_loop r.1 r.2 rest

/-- Function `alpm_init`: `alpm_handle_ok` tells whether `alpm_initialize` hands out a handle,
`pacman_conf` is `PACMAN_CONFIG` as `fgets` reads it (`none` when it cannot be opened).
The result is `some none` for the NULL handle, else the configuration and the sync
databases registered, in order. -/
def alpm_init (cfg : cfg_t) (alpm_handle_ok : Bool) (pacman_conf : Option (List CStr)) :
    Option (Option (cfg_t × List CStr)) :=
  if ¬ alpm_handle_ok then some none
  else
    match pacman_conf with
    | none => some (some (cfg, []))
    | some lines => (alpm_init_loop cfg [] lines).map some

/-! ## Startup -/

/-- What `main` finds outside the program: whether stdout is a terminal, the environment
variables `XDG_CONFIG_HOME` and `HOME`, the files as `fgets` reads them (`none` when `fopen`
fails), `wordexp` (`none` for a non-zero answer, else the words), `realpath` and `getcwd`,
whether `access(path, W_OK)` and `chdir(path)` answer 0, the value of `curl_global_init`,
whether `alpm_initialize` hands out a handle, the answer of `alpm_find_foreign_pkgs`, the
answer of the call of `pthread_create` for thread `n` and the list thread `n` returns.
Allocation is taken to succeed. -/
structure main_env where
  isatty : Bool
  xdg_config_home : Option CStr
  home : Option CStr
  fopen : CStr → Option (List CStr)
  wordexp : CStr → Option (List CStr)
  realpath : CStr → Option CStr
  getcwd : Option CStr
  access_w_ok : CStr → Bool
  chdir_ok : CStr → Bool
  curl_global_init : Int
  alpm_handle_ok : Bool
  foreign_pkgs : List CStr
  pthread_create : Nat → Int
  thread_return : Nat → List aurpkg_t

/-- Macro `PACMAN_CONFIG`. -/
def PACMAN_CONFIG : CStr := "/etc/pacman.conf".toList

/-- The path `parse_configfile` opens, `none` when neither variable is set. -/
def config_path (env : main_env) : Option CStr :=
  match env.xdg_config_home with
  | some xdg_config_home => some (xdg_config_home ++ "/cower/config".toList)
  | none =>
    match env.home with
    | none => none
    | some home => some (home ++ "/.config/cower/config".toList)

/-- The body of the `fgets` loop of `parse_configfile` for the line `l`: the value of `ret`
and the configuration (an invalid `Color`, which returns 1 at once, included).  `none` when
`strtok` is called with a NULL `val`, and when `*cfg.dlpath` is read from a NULL `dlpath`. -/
def parse_config_line (env : main_env) (cfg : cfg_t) (l : CStr) : Option (Int × cfg_t) :=
  let t := strtrim (mem_of l) 0
  if t.2 = 0 ∨ peek t.1 0 = '#' then some (0, cfg)
  else
    let m2 := match strchr t.1 0 '#' with
      | some v => poke t.1 v NUL
      | none => t.1
    let s := strsep m2 0 ['=']
    let m3 := (strtrim s.1 0).1
    let m4 := match s.2 with
      | some v => (strtrim m3 v).1
      | none => m3
    let key := cstr m4 0
    let val : Option CStr := match s.2 with
      | some v => if peek m4 v = NUL then none else some (cstr m4 v)
      | none => none
    if STREQ key "NoSSL".toList then some (0, { cfg with secure := false, proto := "http".toList })
    else if STREQ key "IgnoreRepo".toList then
      match val with
      | none => none
      | some v =>
        some (0, { cfg with ignore_repos := (strtok_all v [' ']).foldl alpm_list_add cfg.ignore_repos })
    else if STREQ key "IgnorePkg".toList then
      match val with
      | none => none
      | some v =>
        some (0, { cfg with ignore_pkgs := (strtok_all v [' ']).foldl alpm_list_add cfg.ignore_pkgs })
    else if STREQ key "IgnoreOOD".toList then
      if cfg.ignoreood = UNSET then some (0, { cfg with ignoreood := 1 }) else some (0, cfg)
    else if STREQ key "TargetDir".toList then
      match val with
      | none => some (0, cfg)
      | some v =>
        if cfg.dlpath = none then
          match env.wordexp v with
          | some we_wordv =>
            let cfg1 := if we_wordv.length = 1 then { cfg with dlpath := we_wordv.head? } else cfg
            match cfg1.dlpath with
            | none => none
            | some dlpath => if peek (mem_of dlpath) 0 ≠ '/' then some (1, cfg1) else some (0, cfg1)
          | none => some (1, cfg)
        else some (0, cfg)
    else if STREQ key "MaxThreads".toList then
      match val with
      | none => some (0, cfg)
      | some v =>
        if cfg.maxthreads = UNSET then
          let cfg1 := { cfg with maxthreads := to_int (strtol v).1 }
          if (strtol v).2 < v.length ∨ cfg1.maxthreads ≤ 0 then some (1, cfg1) else some (0, cfg1)
        else some (0, cfg)
    else if STREQ key "ConnectTimeout".toList then
      match val with
      | none => some (0, cfg)
      | some v =>
        if cfg.timeout = UNSET then
          let cfg1 := { cfg with timeout := (strtol v).1 }
          if (strtol v).2 < v.length ∨ cfg1.timeout < 0 then some (1, cfg1) else some (0, cfg1)
        else some (0, cfg)
    else if STREQ key "Color".toList then
      if cfg.color = UNSET then
        match color_arg env.isatty val with
        | some c => some (0, { cfg with color := c })
        | none => some (1, cfg)
      else some (0, cfg)
    else some (0, cfg)

/-- The `fgets` loop of `parse_configfile`. -/
def parse_config_loop (env : main_env) : cfg_t → List CStr → Option (Int × cfg_t)
  | cfg, [] => some (0, cfg)
  | cfg, l :: rest =>
    match parse_config_line env cfg l with
    | none => none
    | some r => if 0 < r.1 then some r else parse_config_loop env r.2 rest

/-- Function `parse_configfile`: the value returned and the configuration.  When neither
variable is set the function reports it with `cwr_fprintf(stderr, LOG_ERROR, ...)`, and
`cwr_vfprintf` reads `colstr->error` for a level of the log mask; `main` calls
`parse_configfile` before `strings_init`, so `colstr` is still NULL: `none`. -/
def parse_configfile (env : main_env) (cfg : cfg_t) : Option (Int × cfg_t) :=
  match config_path env with
  | none => if cfg.logmask &&& LOG_ERROR ≠ 0 then none else some (1, cfg)
  | some path =>
    match env.fopen path with
    | none => some (0, cfg)
    | some lines => parse_config_loop env cfg lines

/-- Function `set_working_dir`: the value returned and the configuration. -/
def set_working_dir (env : main_env) (cfg : cfg_t) : Int × cfg_t :=
  if cfg.opmask &&& OP_DOWNLOAD = 0 then (0, { cfg with dlpath := none })
  else
    let resolved := match cfg.dlpath with
      | some dlpath => env.realpath dlpath
      | none => env.getcwd
    match resolved with
    | none => (1, { cfg with dlpath := none })
    | some resolved =>
      if ¬ env.access_w_ok resolved then (1, { cfg with dlpath := none })
      else if ¬ env.chdir_ok resolved then (1, { cfg with dlpath := some resolved })
      else (0, { cfg with dlpath := some resolved })

/-- Function `strings_init`, as far as it touches the configuration. -/
def strings_init (cfg : cfg_t) : cfg_t :=
  { cfg with delim := if cfg.extinfo ∧ cfg.format ≠ none then cfg.delim else LIST_DELIM }

/-- The fallback from the sentinel values in `main`. -/
def main_fallback (cfg : cfg_t) : cfg_t :=
  { cfg with
    maxthreads := if cfg.maxthreads = UNSET then THREAD_DEFAULT else cfg.maxthreads,
    timeout := if cfg.timeout = UNSET then TIMEOUT_DEFAULT else cfg.timeout,
    color := if cfg.color = UNSET then 0 else cfg.color,
    ignoreood := if cfg.ignoreood = UNSET then 0 else cfg.ignoreood }

/-- The loop of `main` that creates the threads, `k` of them still to be created from number
`n` on: the number of threads created, or the answer of the `pthread_create` that failed
with the number of threads created before it. -/
def main_spawn (pthread_create : Nat → Int) : Nat → Nat → Except (Int × Nat) Nat
  | 0, n => .ok n
  | k + 1, n =>
    if pthread_create n ≠ 0 then .error (pthread_create n, n)
    else main_spawn pthread_create k (n + 1)

/-- What a run of `main` amounts to: the exit code, the number of worker threads created,
the configuration in force when `main` returned, the sync databases registered and the
records handed to the renderer. -/
structure main_result where
  ret : Int
  workers : Nat
  cfg : cfg_t
  syncdbs : List CStr
  rendered : List aurpkg_t
  deriving DecidableEq, Repr

/-- Function `main`: `opts` and `args` are the command line as `getopt_long` reports it. -/
def main {R : Type} (rx : regex_t R) (env : main_env) (opts : List getopt_t)
    (args : List CStr) : Option main_result :=
  let po := parse_options env.isatty cfg_init opts args
  if po.1 = 3 ∨ po.1 = 1 ∨ po.1 = 2 then some ⟨po.1, 0, po.2, [], []⟩
  else
    match parse_configfile env po.2 with
    | none => none
    | some pc =>
      -- ret = parse_configfile() != 0
      if pc.1 ≠ 0 then some ⟨1, 0, pc.2, [], []⟩
      else
        let cfg1 := strings_init (main_fallback pc.2)
        let wd := set_working_dir env cfg1
        if wd.1 ≠ 0 then some ⟨wd.1, 0, wd.2, [], []⟩
        else if env.curl_global_init ≠ 0 then some ⟨env.curl_global_init, 0, wd.2, [], []⟩
        else
          match alpm_init wd.2 env.alpm_handle_ok (env.fopen PACMAN_CONFIG) with
          | none => none
          | some none => some ⟨env.curl_global_init, 0, wd.2, [], []⟩
          | some (some pm) =>
            let cfg2 :=
              if pm.1.opmask &&& OP_UPDATE ≠ 0 ∧ pm.1.targets = [] then
                { pm.1 with targets := env.foreign_pkgs }
              else pm.1
            let count := to_int (alpm_list_count cfg2.targets)
            if count = 0 then some ⟨env.curl_global_init, 0, cfg2, pm.2, []⟩
            else
              let num_threads := if cfg2.maxthreads < count then cfg2.maxthreads else count
              match main_spawn env.pthread_create num_threads.toNat 0 with
              | .error e => some ⟨e.1, e.2, cfg2, pm.2, []⟩
              | .ok n =>
                let fin := main_finish rx cfg2 ((List.range n).map env.thread_return)
                some ⟨fin.1, n, cfg2, pm.2, fin.2⟩

/-! ## Download task -/

/-- One tarball transfer: the answer of `curl_easy_perform`, the HTTP status, and the
response as `archive_extract_file` reads it (the answer of `archive_read_open_memory` and
the entries). -/
structure transfer_t where
  curlstat : Int
  httpcode : Int
  open_memory : Int
  entries : List archive_entry_t

/-- What the download task finds outside the program: the answer of the info query
`task_query` for a target, whether `access(arg, F_OK)` answers 0, the transfer for a
URL, the file `get_file_as_buffer` reads, whether `alpm_find_satisfier` finds the
dependency in the local database, and the answer of `alpm_provides_pkg`.  The answers are
taken not to change during a run. -/
structure download_env where
  task_query : CStr → List aurpkg_t
  access_f_ok : CStr → Bool
  curl_easy_perform : CStr → transfer_t
  get_file_as_buffer : CStr → Option Mem
  alpm_find_satisfier : CStr → Bool
  alpm_provides_pkg : CStr → Option CStr

/-- What the download task does besides returning. -/
inductive download_note where
  | no_results (arg : CStr)
  | already_exists (arg : CStr)
  | fetch (arg : CStr)
  | extract (arg : CStr) (entries : List (Option CStr))
  | downloaded (name : CStr)
  | binary (pkg : CStr)
  | satisfied (depend : CStr)
  deriving DecidableEq, Repr

/-- The state the download task works on: the configuration, whose `targets` is the shared
work list, and what was done so far. -/
structure download_state where
  cfg : cfg_t
  notes : List download_note
  deriving DecidableEq, Repr

/-- Adds a note to the state. -/
def download_state.note (st : download_state) (n : download_note) : download_state :=
  { st with notes := st.notes ++ [n] }

/-- Function `pkg_is_binary(pkg)`: the value returned and the state (the warning). -/
def pkg_is_binary (env : download_env) (st : download_state) (pkg : CStr) :
    Bool × download_state :=
  match env.alpm_provides_pkg pkg with
  | some _ => (true, st.note (download_note.binary pkg))
  | none => (false, st)

/-- The copy `sanitized` of `depend` after `sanitized[strcspn(sanitized, "<>=")] = 0`. -/
def sanitized (depend : CStr) : CStr :=
  depend.takeWhile (fun c => !"<>=".toList.contains c)

/-- The loop of `resolve_dependencies` over `deplist`; `task_download` is the call
`task_download(curl, sanitized)` as it acts on the state. -/
def resolve_dependencies_loop (env : download_env)
    (task_download : download_state → CStr → Option download_state) :
    List CStr → download_state → Option download_state
  | [], st => some st
  | depend :: rest, st =>
    if (alpm_list_find_str st.cfg.targets (sanitized depend)).isNone then
      let st1 : download_state :=
        { st with cfg := { st.cfg with targets := alpm_list_add st.cfg.targets (sanitized depend) } }
      if env.alpm_find_satisfier depend then
        resolve_dependencies_loop env task_download rest
          (st1.note (download_note.satisfied depend))
      else
        let b := pkg_is_binary env st1 depend
        if ¬ b.1 then
          match task_download b.2 (sanitized depend) with
          | none => none
          | some st2 => resolve_dependencies_loop env task_download rest st2
        else resolve_dependencies_loop env task_download rest b.2
    else resolve_dependencies_loop env task_download rest st

/-- The slots `resolve_dependencies` sets up: depends and makedepends share one list. -/
def resolve_details : pkgdetail_t → Option Nat
  | PKGDETAIL_DEPENDS => some 0
  | PKGDETAIL_MAKEDEPENDS => some 0
  | _ => none

/-- Function `resolve_dependencies(curl, pkgname, subdir)`: the value returned and the
state. -/
def resolve_dependencies (env : download_env)
    (task_download : download_state → CStr → Option download_state)
    (st : download_state) (pkgname : CStr) (subdir : Option CStr) :
    Option (Int × download_state) :=
  let filename := st.cfg.dlpath.getD "(null)".toList ++ ['/'] ++ subdir.getD pkgname ++
    "/PKGBUILD".toList
  match env.get_file_as_buffer filename with
  | none => some (1, st)
  | some pkgbuild =>
    match pkgbuild_get_extinfo (some pkgbuild) resolve_details (fun _ => []) with
    | none => none
    | some lists =>
      (resolve_dependencies_loop env task_download (lists 0) st).map fun st1 => (0, st1)

/-- The upper-case hexadecimal digit of `n`. -/
def hex_digit (n : Nat) : Char := "0123456789ABCDEF".toList.getD n '0'

/-- libcurl `curl_easy_escape(NULL, s, 0)` on the string `s`: every byte other than a
letter, a digit, `-`, `.`, `_` and `~` becomes `%` and its two hexadecimal digits. -/
def curl_easy_escape (s : CStr) : CStr :=
  s.flatMap fun c =>
    if c.isAlphanum ∨ c = '-' ∨ c = '.' ∨ c = '_' ∨ c = '~' then [c]
    else ['%', hex_digit (c.toNat / 16 % 16), hex_digit (c.toNat % 16)]

/-- The `while` loop of `url_escape`: `inp` is `in` (`none` for NULL, with which `strsep`
answers NULL), `buf` the text held by `char buf[128]`.  Returns `buf` and the memory `in`
points into; `none` when a `strcat` writes behind the 128 bytes of `buf`. -/
def url_escape_loop (delim : List Char) : Nat → Mem → Option Nat → CStr → Option (CStr × Mem)
  | 0, _, _, _ => none
  | fuel + 1, m, inp, buf =>
    match inp with
    | none => some (buf, m)
    | some tok =>
      let r := strsep m tok delim
      let escaped := curl_easy_escape (cstr r.1 tok)
      -- strcat(buf, escaped); strcat(buf, delim): the text and its terminator must fit
      if 128 ≤ (buf ++ escaped ++ delim).length then none
      else url_escape_loop delim fuel r.1 r.2 (buf ++ escaped ++ delim)

/-- Function `url_escape(in, len, delim)` with `in` at offset `inp` of `m` (`none` for NULL):
the string returned and the memory, in which `strsep` has overwritten the delimiters. -/
def url_escape (m : Mem) (inp : Option Nat) (len : Nat) (delim : Option (List Char)) :
    Option (CStr × Mem) :=
  match delim with
  | none =>
    match inp with
    | none => some (NULL, m)
    | some p => some (curl_easy_escape (if len = 0 then cstr m p else (m.drop p).take len), m)
  | some delim =>
    (url_escape_loop delim (m.length + 2) m inp []).map fun r =>
      -- strndup(buf, strlen(buf) - 1)
      (r.1.take (size_t ((r.1.length : Int) - 1)), r.2)

/-- Macro `AUR_BASE_URL` filled in with the protocol and the path. -/
def AUR_BASE_URL (proto path : CStr) : CStr := proto ++ "://aur.archlinux.org".toList ++ path

/-- Function `download(curl, arg)`: the list returned and the state.  The recursion through
`resolve_dependencies` and `task_download` is bounded by the first argument.  `url_escape`
works on the `urlpath` of the first record of the query, which `strsep` cuts at its first
`/`; `none` when `url_escape` or `archive_extract_file` leaves its buffer. -/
def download : Nat → download_env → download_state → CStr →
    Option (List aurpkg_t × download_state)
  | 0, _, _, _ => none
  | fuel + 1, env, st, arg =>
    match env.task_query arg with
    | [] => some ([], st.note (download_note.no_results arg))
    | result0 :: rest =>
      if env.access_f_ok arg ∧ ¬ st.cfg.force then
        some ([], st.note (download_note.already_exists arg))
      else
        -- escaped = url_escape(result->urlpath, 0, "/")
        match url_escape (mem_of result0.urlpath)
            (if result0.urlpath = NULL then none else some 0) 0 (some ['/']) with
        | none => none
        | some ue =>
          let result : aurpkg_t :=
            if result0.urlpath = NULL then result0 else { result0 with urlpath := cstr ue.2 0 }
          let queryresult := result :: rest
          let response := env.curl_easy_perform (AUR_BASE_URL st.cfg.proto ue.1)
          let st1 := st.note (download_note.fetch arg)
          if response.curlstat ≠ 0 then some (queryresult, st1)
          else if response.httpcode ≠ 200 then some (queryresult, st1)
          else
            match archive_extract_file response.open_memory response.entries (some none) with
            | none => none
            | some x =>
              let st2 := st1.note (download_note.extract arg x.2.2)
              if x.1 ≠ 0 then some (queryresult, st2)
              else
                let st3 := st2.note (download_note.downloaded result.name)
                if st.cfg.getdeps then
                  match resolve_dependencies env
                      (fun s a =>
                        if (pkg_is_binary env s a).1 then some (pkg_is_binary env s a).2
                        else (download fuel env s a).map fun r => r.2)
                      st3 arg x.2.1.join with
                  | none => none
                  | some r => some (queryresult, r.2)
                else some (queryresult, st3)

/-- Function `task_download(curl, arg)`. -/
def task_download (fuel : Nat) (env : download_env) (st : download_state) (arg : CStr) :
    Option (List aurpkg_t × download_state) :=
  if (pkg_is_binary env st arg).1 then some ([], (pkg_is_binary env st arg).2)
  else download fuel env st arg

/-- The loop of `thread_pool` as one worker runs it alone: `workq` is the position of the
node `workq` points to in the list `cfg.targets` (`none` for NULL), `ret` the list joined so
far. -/
def thread_pool (threadfn : download_state → CStr → Option (List aurpkg_t × download_state)) :
    Nat → download_state → Option Nat → List aurpkg_t →
    Option (List aurpkg_t × download_state)
  | 0, _, _, _ => none
  | fuel + 1, st, workq, ret =>
    match workq with
    | none => some (ret, st)
    | some i =>
      match st.cfg.targets.get? i with
      | none => none
      | some job =>
        -- workq = alpm_list_next(workq)
        let workq1 := if i + 1 < st.cfg.targets.length then some (i + 1) else none
        match threadfn st job with
        | none => none
        | some r => thread_pool threadfn fuel r.2 workq1 (alpm_list_join ret r.1)

/-! ## Definitions used to state the properties -/

/-- A sequence with every repetition after the first occurrence removed. -/
def first_occurrences : List CStr → List CStr
  | [] => []
  | x :: xs => x :: (first_occurrences xs).filter (fun y => y != x)

/-- The step of the token loop of `parse_bash_array` on the list: a new string is appended,
a string already present is not. -/
def add_new (deplist : List CStr) (t : CStr) : List CStr :=
  if (alpm_list_find_str deplist t).isSome then deplist else alpm_list_add deplist t

/-- The strings the token loop of `parse_bash_array` offers for addition, in order. -/
def bash_offers : Nat → Mem → Option Nat → Nat → Option (Mem × List CStr)
  | 0, _, _, _ => none
  | _ + 1, m, none, _ => some (m, [])
  | fuel + 1, m, some token, saveptr =>
    let b := parse_bash_token m token saveptr
    let r := strtok_r b.1 none bash_delims b.2.1
    (bash_offers fuel r.1 r.2.1 r.2.2).map fun x =>
      (x.1, match b.2.2 with
            | some t => t :: x.2
            | none => x.2)

/-- The strings the character loop of `parse_bash_array` for optdepends appends, in order. -/
def optdep_offers : Nat → Mem → Nat → Nat → Option (Mem × List CStr)
  | 0, _, _, _ => none
  | fuel + 1, m, token, arrayend =>
    if arrayend < token then some (m, [])
    else if peek m token = '\'' ∨ peek m token = '"' then
      match memchr m (token + 1) (peek m token) (size_t ((arrayend : Int) - ((token + 1 : Nat) : Int))) with
      | none => none
      | some ptr =>
        let m1 := (strtrim (poke m ptr NUL) (token + 1)).1
        (optdep_offers fuel m1 (ptr + 1) arrayend).map fun x => (x.1, cstr m1 (token + 1) :: x.2)
    else if isalpha (peek m token) then
      match optdep_run_end m token with
      | none => none
      | some ptr =>
        let m1 := (strtrim (poke m (ptr - 1) NUL) token).1
        (optdep_offers fuel m1 (ptr + 1) arrayend).map fun x => (x.1, cstr m1 token :: x.2)
    else optdep_offers fuel m (token + 1) arrayend

/-- The effect of one parsed array on its list: optdepends entries are appended, entries of
the other kinds are appended when new. -/
def apply_offers (type : pkgdetail_t) (deplist : List CStr) (offers : List CStr) : List CStr :=
  if type = PKGDETAIL_OPTDEPENDS then deplist ++ offers else offers.foldl add_new deplist

/-- The strings `parse_bash_array` offers for the array at `array`, independent of the list. -/
def array_offers (m : Mem) (array : Nat) (type : pkgdetail_t) : Option (Mem × List CStr) :=
  if type = PKGDETAIL_OPTDEPENDS then
    optdep_offers (strlen m array + 2) m array (array + strlen m array)
  else
    let r := strtok_r m (some array) bash_delims 0
    bash_offers (m.length + 1) r.1 r.2.1 r.2.2

/-- The arrays `pkgbuild_get_extinfo` parses, in order: for each the list variable, the type
passed on and the strings offered. -/
def extinfo_offers : Nat → Mem → Nat → (pkgdetail_t → Option Nat) →
    Option (List (Nat × pkgdetail_t × List CStr))
  | 0, _, _, _ => none
  | fuel + 1, m, lineptr0, details =>
    let lineptr := lineptr0 + 1
    if m.length ≤ lineptr then none
    else
      let t := strtrim m lineptr
      let next : Mem → Nat → Option (List (Nat × pkgdetail_t × List CStr)) :=
        fun m1 lp =>
          match strchr m1 lp '\n' with
          | none => some []
          | some lp1 => extinfo_offers fuel m1 lp1 details
      if t.2 = 0 ∨ peek t.1 lineptr = '#' then next t.1 lineptr
      else
        match extinfo_kind t.1 lineptr with
        | none => next t.1 lineptr
        | some (slot, type) =>
          match details slot with
          | none => next t.1 lineptr
          | some v =>
            match memchr t.1 lineptr '(' t.2 with
            | none => none
            | some lparen =>
              match array_end t.1 (t.1.length + 1) (lparen + 1) 1 with
              | none => none
              | some arrayend =>
                match array_offers (poke t.1 (arrayend - 1) NUL) (lparen + 1) type with
                | none => none
                | some r => (next r.1 arrayend).map fun rest => (v, type, r.2) :: rest

/-- The effect of the parsed arrays on the list variables. -/
def apply_all_offers (lists : Nat → List CStr) :
    List (Nat × pkgdetail_t × List CStr) → (Nat → List CStr)
  | [] => lists
  | (v, type, offers) :: rest =>
    apply_all_offers (Function.update lists v (apply_offers type (lists v) offers)) rest

/-- The recipe text of the round-trip example:
`depends=('a>=1' "b" c #comment`, a line break, ` d)`. -/
def example_recipe : CStr := "depends=('a>=1' \"b\" c #comment\n d)".toList


/-- A stand-in for the regex library, used in examples: a pattern holding one of the
characters of `REGEX_CHARS` does not compile, any other pattern matches the strings in which
it occurs. -/
def literal_regex : regex_t CStr where
  regcomp := fun t => if t.any (fun c => "^.+*?$[]()\x7b\x7d|\\".toList.contains c) then none else some t
  regexec := fun r s => if s.tails.any (fun t => r.isPrefixOf t) then 0 else REG_NOMATCH

/-- A record with the name `name`; its other strings are empty. -/
def pkg_named (name : String) : aurpkg_t :=
  { aurpkg_zero with name := name.toList, desc := [], lic := [], url := [], urlpath := [],
                     ver := [] }

/-- The event for the key `k`. -/
def key_event (k : String) : json_event := json_event.map_key k.toList k.length

/-- The event for the string value `v`, seen as yajl passes it: a pointer into the JSON text,
where the closing quote follows the value. -/
def string_event (v : String) : json_event := json_event.string (v.toList ++ ['"']) v.length

/-- An event stream with three inner objects: `foo`, out of date by the string `1`, `bar`,
out of date by the integer `1`, and `baz`, not out of date. -/
def example_events : List json_event :=
  [json_event.start_map, key_event "type", string_event "search", key_event "results",
   json_event.start_map, key_event "Name", string_event "foo", key_event "OutOfDate",
   string_event "1", json_event.end_map,
   json_event.start_map, key_event "Name", string_event "bar", key_event "OutOfDate",
   json_event.integer 1, json_event.end_map,
   json_event.start_map, key_event "Name", string_event "baz", key_event "OutOfDate",
   string_event "0", json_event.end_map,
   json_event.end_map]

/-- The op-mask that holds exactly the flags of the chosen operations. -/
def mask_of (s i d u m : Bool) : Nat :=
  (if s then OP_SEARCH else 0) + (if i then OP_INFO else 0) + (if d then OP_DOWNLOAD else 0) +
    (if u then OP_UPDATE else 0) + (if m then OP_MSEARCH else 0)

/-- The check of `parse_options` on the op-mask `x`: the value returned, `0` standing for
going on to the targets. -/
def opmask_check (x : Nat) : Int :=
  if x = 0 then 3
  else if (x &&& OP_INFO != 0 && x &&& bnot32 OP_INFO != 0) ||
      (x &&& OP_SEARCH != 0 && x &&& bnot32 OP_SEARCH != 0) ||
      (x &&& OP_MSEARCH != 0 && x &&& bnot32 OP_MSEARCH != 0) ||
      (x &&& (OP_UPDATE ||| OP_DOWNLOAD) != 0 && x &&& bnot32 (OP_UPDATE ||| OP_DOWNLOAD) != 0)
    then 2
  else 0

/-- The installed packages of the update examples: `foo` at version `1.0-1`. -/
def example_alpm : alpm_t where
  db_local := fun n => if n = "foo".toList then some "1.0-1".toList else none
  alpm_pkg_vercmp := fun a b => strcmp a b

/-- The registry of the update examples: `foo` at version `1.1-1`. -/
def example_query : CStr → List aurpkg_t :=
  fun n => if n = "foo".toList then [{ pkg_named "foo" with ver := "1.1-1".toList }] else []

/-- The six sets of operations the specification allows, given for each of search, info,
msearch, update and download whether it is chosen: one of search, info, msearch, update and
download alone, or update together with download. -/
def allowed_operations (s i m u d : Prop) : Prop :=
  (s ∧ ¬ i ∧ ¬ m ∧ ¬ u ∧ ¬ d) ∨ (¬ s ∧ i ∧ ¬ m ∧ ¬ u ∧ ¬ d) ∨ (¬ s ∧ ¬ i ∧ m ∧ ¬ u ∧ ¬ d) ∨
    (¬ s ∧ ¬ i ∧ ¬ m ∧ u ∧ ¬ d) ∨ (¬ s ∧ ¬ i ∧ ¬ m ∧ ¬ u ∧ d) ∨ (¬ s ∧ ¬ i ∧ ¬ m ∧ u ∧ d)

/-- The configuration of a search without further options. -/
def search_cfg : cfg_t := { cfg_init with opmask := OP_SEARCH }

/-- An event stream whose top-level `type` is the string `error` and whose `results` is an
inner object named `foo`. -/
def error_events : List json_event :=
  [json_event.start_map, key_event "type", string_event "error", key_event "results",
   json_event.start_map, key_event "Name", string_event "foo", json_event.end_map,
   json_event.end_map]

/-- The parser state after the top-level object was opened and the key `type` was read. -/
def type_key_state : yajl_parser_t :=
  { yajl_parser_init with key := "type".toList ++ List.replicate 28 NUL, keysz := 4,
                          json_depth := 1 }

/-- A recipe that repeats an entry inside a depends array and across two depends arrays. -/
def repeated_depends_recipe : CStr :=
  "\ndepends=('aa' 'aa')\nmakedepends=('cc')\ndepends=('aa' 'bb')".toList

/-- A recipe that repeats an entry inside an optdepends array. -/
def repeated_optdepends_recipe : CStr := "\noptdepends=('a: x' 'a: x')".toList

/-- The conversion letters of the documented table of the custom format. -/
def format_letters : List Char := "acdilmnopstuvCDMOPR".toList

/-- A configuration whose format is `%` followed by the character `c`. -/
def format_cfg (cfg : cfg_t) (c : Char) : cfg_t := { cfg with format := some ['%', c] }

/-- A record whose depends list is `aa`, `bb` and whose name is `foo`. -/
def depends_pkg : aurpkg_t := { pkg_named "foo" with depends := ["aa".toList, "bb".toList] }

/-- A configuration with extended info, the format `%D|%n` and the list delimiter made of a
comma and a blank. -/
def depends_format_cfg : cfg_t :=
  { cfg_init with opmask := OP_INFO, extinfo := true, format := some "%D|%n".toList,
                  delim := ", ".toList }

/-- A tarball of three entries: the directory `pkg/`, the file `pkg/PKGBUILD`, whose
extraction answers `ARCHIVE_WARN` with the error number 22, and the file `pkg/pkg.install`. -/
def warn_entries : List archive_entry_t :=
  [{ pathname := some "pkg/".toList, isdir := true, extract := ARCHIVE_OK, errno := 0 },
   { pathname := some "pkg/PKGBUILD".toList, isdir := false, extract := ARCHIVE_WARN,
     errno := 22 },
   { pathname := some "pkg/pkg.install".toList, isdir := false, extract := ARCHIVE_OK,
     errno := 0 }]

/-- A package-manager configuration text with two section lines, the first of them indented
by one blank. -/
def indented_conf : List Char := " [core]\n[extra]\n".toList

/-- An environment in which nothing fails: no terminal, no configuration files, one word per
`wordexp`, every directory resolvable and writable, threads that return nothing. -/
def example_env : main_env :=
  { isatty := false, xdg_config_home := none, home := some "/home/u".toList,
    fopen := fun _ => none, wordexp := fun w => some [w], realpath := fun p => some p,
    getcwd := some "/tmp".toList, access_w_ok := fun _ => true, chdir_ok := fun _ => true,
    curl_global_init := 0, alpm_handle_ok := true, foreign_pkgs := [],
    pthread_create := fun _ => 0, thread_return := fun _ => [] }

/-- The environment `example_env` with a configuration file of one line,
`ConnectTimeout = 30`. -/
def timeout_env : main_env :=
  { example_env with
    fopen := fun path =>
      if path = "/home/u/.config/cower/config".toList then
        some (fgets_lines "ConnectTimeout = 30\n".toList)
      else none }

/-- The key buffer holds the key `k`, as `json_map_key` leaves it after that key. -/
def at_key (p : yajl_parser_t) (k : String) : Prop :=
  cstr p.key 0 = k.toList ∧ p.keysz = k.length

/-- The base-10 value of a string of decimal digits. -/
def decimal_value (d : List Char) : Nat := d.foldl (fun acc c => acc * 10 + (c.toNat - 48)) 0

/-- A string of decimal digits: not empty, every byte one of `0` to `9`. -/
def decimal_string (d : List Char) : Prop := d ≠ [] ∧ ∀ c ∈ d, c.isDigit = true

/-- A registry and file system for the download examples: every target `n` of `a`, `c` and
`libfoo` has one record with the name and the `urlpath` `n`; nothing exists in the working
directory; every transfer succeeds with status 200 and a tarball holding the directory
named after the path of the URL, `n/`; the recipe of `a` has the line
`depends=('libfoo>=1')`, the other recipes have no array; the local database satisfies
`libfoo>=1`; no binary repository provides anything. -/
def example_download_env : download_env :=
  { task_query := fun n =>
      if n = "a".toList ∨ n = "c".toList ∨ n = "libfoo".toList then
        [{ pkg_named "" with name := n, urlpath := n }]
      else [],
    access_f_ok := fun _ => false,
    curl_easy_perform := fun url =>
      { curlstat := 0, httpcode := 200, open_memory := ARCHIVE_OK,
        entries :=
          [{ pathname := some (url.drop (AUR_BASE_URL "https".toList []).length ++ ['/']),
             isdir := true, extract := ARCHIVE_OK, errno := 0 }] },
    get_file_as_buffer := fun path =>
      if path = "/tmp/a/PKGBUILD".toList then some (mem_of "\ndepends=('libfoo>=1')".toList)
      else some (mem_of "\npkgrel=1".toList),
    alpm_find_satisfier := fun depend => depend = "libfoo>=1".toList,
    alpm_provides_pkg := fun _ => none }

/-- The state of a download of the targets `a` and `c` with dependency resolution, in the
working directory `/tmp`. -/
def example_download_state : download_state :=
  { cfg := { cfg_init with opmask := OP_DOWNLOAD, getdeps := true,
                           dlpath := some "/tmp".toList,
                           targets := ["a".toList, "c".toList] },
    notes := [] }

/-- Whether `c` is one of the separators of the token loop: blank, tab, line feed. -/
def is_delim (c : Char) : Bool := bash_delims.contains c

/-- The whitespace-separated tokens of a text: the non-empty pieces between blanks, tabs and
line feeds, in order. -/
def words (text : List Char) : List CStr :=
  (text.splitOnP is_delim).filter (fun w => !w.isEmpty)

/-- Whether `c` is one of the two quote characters. -/
def is_quote (c : Char) : Bool := c == '\'' || c == '"'

/-- A token that starts with a quote character also ends with that character. -/
def well_quoted : CStr → Prop
  | [] => True
  | q :: t => is_quote q = true → (q :: t).getLast? = some q

instance well_quoted_decidable : (tok : CStr) → Decidable (well_quoted tok)
  | [] => isTrue trivial
  | q :: t => inferInstanceAs (Decidable (is_quote q = true → (q :: t).getLast? = some q))

/-- A token with a leading quote loses its first and its last character; any other token is
taken as it is. -/
def unquote (tok : CStr) : CStr :=
  match tok.head? with
  | some q => if is_quote q then tok.tail.dropLast else tok
  | none => tok

/-- What is left of a token for the list: the unquoted token, unless it is shorter than 2
characters or begins with `$`. -/
def survives (tok : CStr) : Option CStr :=
  if (unquote tok).length < 2 ∨ (unquote tok).head? = some '$' then none
  else some (unquote tok)

/-- A value of a JSON object as the sink receives it: a string or an integer. -/
inductive json_value where
  | string (data : Mem) (size : Nat)
  | integer (val : Int)
  deriving DecidableEq, Repr

/-- A key of a JSON object with its value. -/
structure json_pair where
  key : Mem
  keysz : Nat
  value : json_value
  deriving DecidableEq, Repr

/-- The two events of a key with its value. -/
def pair_events (kv : json_pair) : List json_event :=
  [json_event.map_key kv.key kv.keysz,
   match kv.value with
   | json_value.string data size => json_event.string data size
   | json_value.integer val => json_event.integer val]

/-- What the outer object holds: a key with a string or integer value, or an inner object,
given by its keys and values. -/
inductive outer_item where
  | pair (kv : json_pair)
  | object (obj : List json_pair)
  deriving DecidableEq, Repr

/-- The events of an item of the outer object. -/
def item_events : outer_item → List json_event
  | outer_item.pair kv => pair_events kv
  | outer_item.object obj =>
    json_event.start_map :: (obj.flatMap pair_events ++ [json_event.end_map])

/-- The event stream of one outer object that holds `items`. -/
def stream_events (items : List outer_item) : List json_event :=
  json_event.start_map :: (items.flatMap item_events ++ [json_event.end_map])

/-- The inner objects of the outer object, in order. -/
def inner_objects : List outer_item → List (List json_pair)
  | [] => []
  | outer_item.pair _ :: rest => inner_objects rest
  | outer_item.object obj :: rest => obj :: inner_objects rest

/-- The parser state with a zeroed record in which an inner object is read on its own. -/
def object_start : yajl_parser_t := { yajl_parser_init with json_depth := 2 }

/-- The record of an inner object: what its own keys and values make of the zeroed
record. -/
def inner_record (cfg : cfg_t) (obj : List json_pair) : Option aurpkg_t :=
  (json_run cfg object_start (obj.flatMap pair_events)).map fun p => p.aurpkg

/-- The out-of-date filter of `json_end_map`: the record is kept unless it is out of date
and `ignoreood` is set. -/
def passes_ood (cfg : cfg_t) (r : aurpkg_t) : Bool := !(r.ood != 0 && cfg.ignoreood != 0)

/-- A key and a string value that fit the 32-byte buffers of the sink. -/
def small_pair (kv : json_pair) : Prop :=
  kv.keysz < 32 ∧
    match kv.value with
    | json_value.string _ size => size < 32
    | json_value.integer _ => True

/-- An item all of whose keys and string values fit the 32-byte buffers of the sink. -/
def small_item : outer_item → Prop
  | outer_item.pair kv => small_pair kv
  | outer_item.object obj => ∀ kv ∈ obj, small_pair kv

/-- A reply with two inner objects, first `zsh`, which has a version, then `bash`, which
has none. -/
def example_reply : List outer_item :=
  [outer_item.pair ⟨"type".toList, 4, json_value.string "search\"".toList 6⟩,
   outer_item.pair ⟨"resultcount".toList, 11, json_value.integer 2⟩,
   outer_item.object
     [⟨"Name".toList, 4, json_value.string "zsh\"".toList 3⟩,
      ⟨"Version".toList, 7, json_value.string "5.0\"".toList 3⟩],
   outer_item.object [⟨"Name".toList, 4, json_value.string "bash\"".toList 4⟩]]

/-- A reply whose only inner object has the name `foo` and no other key. -/
def name_only_reply : List outer_item :=
  [outer_item.object [⟨"Name".toList, 4, json_value.string "foo\"".toList 3⟩]]

/-- A package name of sixty letters. -/
def long_name : CStr := List.replicate 60 'a'

/-- The path the registry gives for the tarball of `long_name`, 141 bytes long. -/
def long_urlpath : CStr :=
  "/packages/aa/".toList ++ long_name ++ ['/'] ++ long_name ++ ".tar.gz".toList

/-- A registry with two packages: `cower` with the path `/packages/co/cower/cower.tar.gz`
and `long_name` with the path `long_urlpath`.  Nothing exists in the working directory, and
every transfer succeeds with status 200 and a tarball holding the directory `pkg/`. -/
def long_download_env : download_env :=
  { task_query := fun n =>
      if n = "cower".toList then
        [{ pkg_named "cower" with urlpath := "/packages/co/cower/cower.tar.gz".toList }]
      else if n = long_name then [{ pkg_named "" with name := n, urlpath := long_urlpath }]
      else [],
    access_f_ok := fun _ => false,
    curl_easy_perform := fun _ =>
      { curlstat := 0, httpcode := 200, open_memory := ARCHIVE_OK,
        entries := [{ pathname := some "pkg/".toList, isdir := true,
                      extract := ARCHIVE_OK, errno := 0 }] },
    get_file_as_buffer := fun _ => none,
    alpm_find_satisfier := fun _ => false,
    alpm_provides_pkg := fun _ => none }

/-- The state of a download without dependency resolution. -/
def plain_download_state : download_state :=
  { cfg := { cfg_init with opmask := OP_DOWNLOAD, dlpath := some "/tmp".toList }, notes := [] }

theorem parse_bash_loop_eq (fuel : Nat) (m : Mem) (token : Option Nat) (saveptr : Nat)
    (deplist : List CStr) :
    parse_bash_loop fuel m token saveptr deplist =
      (bash_offers fuel m token saveptr).map fun x => (x.1, x.2.foldl add_new deplist) := by
  induction fuel generalizing m token saveptr deplist with
  | zero => simp [parse_bash_loop, bash_offers]
  | succ fuel ih =>
    cases token with
    | none => simp [parse_bash_loop, bash_offers]
    | some token =>
      simp only [parse_bash_loop, bash_offers, ih, Option.map_map]
      congr 1
      funext x
      cases h : (parse_bash_token m token saveptr).2.2 <;> simp [add_new, Function.comp]

theorem parse_optdep_loop_eq (fuel : Nat) (m : Mem) (token arrayend : Nat) (deplist : List CStr) :
    parse_optdep_loop fuel m token arrayend deplist =
      (optdep_offers fuel m token arrayend).map fun x => (x.1, deplist ++ x.2) := by
  induction fuel generalizing m token deplist with
  | zero => simp [parse_optdep_loop, optdep_offers]
  | succ fuel ih =>
    simp only [parse_optdep_loop, optdep_offers]
    split
    · simp
    · split
      · split
        · simp
        · simp [ih, alpm_list_add, Function.comp_def]
      · split
        · split
          · simp
          · simp [ih, alpm_list_add, Function.comp_def]
        · exact ih _ _ _

theorem parse_bash_array_eq (deplist : List CStr) (m : Mem) (array : Nat) (type : pkgdetail_t) :
    parse_bash_array deplist m array type =
      (array_offers m array type).map fun x => (x.1, apply_offers type deplist x.2) := by
  unfold parse_bash_array array_offers apply_offers
  split
  · exact parse_optdep_loop_eq _ _ _ _ _
  · exact parse_bash_loop_eq _ _ _ _ _

theorem extinfo_loop_eq (fuel : Nat) (m : Mem) (lineptr : Nat)
    (details : pkgdetail_t → Option Nat) (lists : Nat → List CStr) :
    extinfo_loop fuel m lineptr details lists =
      (extinfo_offers fuel m lineptr details).map (apply_all_offers lists) := by
  induction fuel generalizing m lineptr lists with
  | zero => simp [extinfo_loop, extinfo_offers]
  | succ fuel ih =>
    have next_eq : ∀ (m1 : Mem) (lp : Nat) (lists1 : Nat → List CStr),
        (match strchr m1 lp '\n' with
          | none => some lists1
          | some lp1 => extinfo_loop fuel m1 lp1 details lists1) =
        (match strchr m1 lp '\n' with
          | none => some []
          | some lp1 => extinfo_offers fuel m1 lp1 details).map (apply_all_offers lists1) := by
      intro m1 lp lists1
      cases strchr m1 lp '\n' with
      | none => simp [apply_all_offers]
      | some lp1 => simp [ih]
    simp only [extinfo_loop, extinfo_offers, next_eq, parse_bash_array_eq]
    split
    · rfl
    · split
      · rfl
      · split
        · rfl
        · split
          · rfl
          · split
            · rfl
            · split
              · rfl
              · cases h : array_offers _ _ _ with
                | none => simp
                | some r => simp [Option.map_map, Function.comp_def, apply_all_offers]

theorem example_offers_after_line_break :
    extinfo_offers ((mem_of ('\n' :: example_recipe)).length + 1)
      (mem_of ('\n' :: example_recipe)) 0
      query_details = some [(0, PKGDETAIL_DEPENDS, ["a>=1".toList])] := by
  decide

theorem add_new_eq (deplist : List CStr) (t : CStr) :
    add_new deplist t = if t ∈ deplist then deplist else deplist ++ [t] := by
  unfold add_new alpm_list_find_str alpm_list_add
  by_cases h : t ∈ deplist
  · have : (List.find? (fun s => s == t) deplist).isSome = true := by
      rw [List.find?_isSome]
      exact ⟨t, h, by simp⟩
    simp [h, this]
  · have : (List.find? (fun s => s == t) deplist).isSome = false := by
      cases hf : List.find? (fun s => s == t) deplist with
      | none => rfl
      | some x =>
        have h1 := List.find?_some hf
        have h2 := List.mem_of_find?_eq_some hf
        simp at h1
        exact absurd (h1 ▸ h2) h
    simp [h, this]

/-- C1 (amended): when the line `depends=('a>=1' "b" c #comment<LF> d)` follows a line break
of the recipe buffer, the recipe parser run on a record whose depends list is `L` leaves the
depends list as `L` followed by `a>=1` when `a>=1` is not in `L`, and as `L` otherwise; the
tokens `b`, `c` and `d`, shorter than two characters, are not added, and no other field of
the record changes. -/
theorem recipe_example_after_line_break (pkg : aurpkg_t) :
    aurpkg_get_extinfo (some (mem_of ('\n' :: example_recipe))) pkg =
      some { pkg with depends :=
        if "a>=1".toList ∈ pkg.depends then pkg.depends else pkg.depends ++ ["a>=1".toList] } := by
  unfold aurpkg_get_extinfo pkgbuild_get_extinfo
  simp only [extinfo_loop_eq]
  rw [example_offers_after_line_break]
  cases pkg
  simp [apply_all_offers, apply_offers, add_new_eq, aurpkg_lists, Function.update]

/-- C1 (counterexample): starting from the empty depends list, the recipe parser run on the
text itself does not produce `a>=1, b, c, d`; preceded by a line break the text yields
`a>=1` alone. -/
theorem recipe_example_counterexample :
    (aurpkg_get_extinfo (some (mem_of example_recipe)) aurpkg_zero).map (fun p => p.depends) ≠
        some ["a>=1".toList, "b".toList, "c".toList, "d".toList] ∧
      (aurpkg_get_extinfo (some (mem_of ('\n' :: example_recipe))) aurpkg_zero).map
        (fun p => p.depends) = some ["a>=1".toList] := by
  decide

/-! ## Exit code -/

theorem strcmp_self (a : CStr) : strcmp a a = 0 := by
  induction a with
  | nil => rfl
  | cons x xs ih => simp [strcmp, ih]

theorem strcmp_eq_zero (a b : CStr) : strcmp a b = 0 ↔ a = b := by
  constructor
  · intro h
    induction a generalizing b with
    | nil => cases b <;> simp_all [strcmp]
    | cons x xs ih =>
      cases b with
      | nil => simp [strcmp] at h
      | cons y ys =>
        simp only [strcmp] at h
        split at h
        · omega
        · split at h
          · omega
          · have hxy : x = y := Char.ext (UInt32.ext (by
              show x.val.toNat = y.val.toNat
              have : x.toNat = y.toNat := by omega
              exact this))
            rw [hxy, ih ys h]
  · intro h
    rw [h]
    exact strcmp_self b

theorem strcmp_total (a b : CStr) : strcmp a b ≤ 0 ∨ strcmp b a ≤ 0 := by
  induction a generalizing b with
  | nil => cases b <;> simp [strcmp]
  | cons x xs ih =>
    cases b with
    | nil => simp [strcmp]
    | cons y ys =>
      simp only [strcmp]
      by_cases h1 : x.toNat < y.toNat
      · simp [h1]
      · by_cases h2 : y.toNat < x.toNat
        · simp [h1, h2]
        · simp [h1, h2, ih ys]

theorem strcmp_trans (a b c : CStr) (hab : strcmp a b ≤ 0) (hbc : strcmp b c ≤ 0) :
    strcmp a c ≤ 0 := by
  induction a generalizing b c with
  | nil => cases c <;> simp [strcmp]
  | cons x xs ih =>
    cases b with
    | nil => simp [strcmp] at hab
    | cons y ys =>
      cases c with
      | nil => simp [strcmp] at hbc
      | cons z zs =>
        simp only [strcmp] at hab hbc ⊢
        by_cases h1 : x.toNat < y.toNat
        · by_cases h2 : y.toNat < z.toNat
          · have : x.toNat < z.toNat := by omega
            simp [this]
          · by_cases h3 : z.toNat < y.toNat
            · simp [h2, h3] at hbc
            · have : x.toNat < z.toNat := by omega
              simp [this]
        · by_cases h1' : y.toNat < x.toNat
          · simp [h1, h1'] at hab
          · simp only [h1, h1', if_false] at hab
            by_cases h2 : y.toNat < z.toNat
            · have : x.toNat < z.toNat := by omega
              simp [this]
            · by_cases h3 : z.toNat < y.toNat
              · simp [h2, h3] at hbc
              · simp only [h2, h3, if_false] at hbc
                have e1 : ¬ x.toNat < z.toNat := by omega
                have e2 : ¬ z.toNat < x.toNat := by omega
                simp only [e1, e2, if_false]
                exact ih ys zs hab hbc

theorem strcmp_antisymm (a b : CStr) (hab : strcmp a b ≤ 0) (hba : strcmp b a ≤ 0) : a = b := by
  induction a generalizing b with
  | nil => cases b <;> simp_all [strcmp]
  | cons x xs ih =>
    cases b with
    | nil => simp [strcmp] at hab
    | cons y ys =>
      simp only [strcmp] at hab hba
      by_cases h1 : x.toNat < y.toNat
      · have h2 : ¬ y.toNat < x.toNat := by omega
        simp [h1, h2] at hba
      · by_cases h2 : y.toNat < x.toNat
        · simp [h1, h2] at hab
        · simp only [h1, h2, if_false] at hab hba
          have hxy : x = y := Char.ext (UInt32.ext (by
            show x.val.toNat = y.val.toNat
            have : x.toNat = y.toNat := by omega
            exact this))
          rw [hxy, ih ys hab hba]

theorem mmerge_nil_right {α : Type} (fn : α → α → Int) (l : List α) :
    alpm_list_mmerge fn l [] = l := by
  cases l <;> simp [alpm_list_mmerge, alpm_list_mmerge_left]

theorem mmerge_cons_cons {α : Type} (fn : α → α → Int) (l r : α) (ls rs : List α) :
    alpm_list_mmerge fn (l :: ls) (r :: rs) =
      if fn l r ≤ 0 then l :: alpm_list_mmerge fn ls (r :: rs)
      else r :: alpm_list_mmerge fn (l :: ls) rs := by
  simp [alpm_list_mmerge, alpm_list_mmerge_left]

theorem mmerge_perm {α : Type} (fn : α → α → Int) (l r : List α) :
    (alpm_list_mmerge fn l r).Perm (l ++ r) := by
  induction l generalizing r with
  | nil => simp [alpm_list_mmerge]
  | cons x xs ihl =>
    induction r with
    | nil => simp [mmerge_nil_right]
    | cons y ys ihr =>
      rw [mmerge_cons_cons]
      split
      · exact (ihl (y :: ys)).cons x
      · exact (ihr.cons y).trans (List.perm_middle.symm)

theorem mmerge_sorted {α : Type} (fn : α → α → Int)
    (total : ∀ a b, fn a b ≤ 0 ∨ fn b a ≤ 0)
    (trans : ∀ a b c, fn a b ≤ 0 → fn b c ≤ 0 → fn a c ≤ 0) (l r : List α)
    (hl : l.Pairwise (fun a b => fn a b ≤ 0)) (hr : r.Pairwise (fun a b => fn a b ≤ 0)) :
    (alpm_list_mmerge fn l r).Pairwise (fun a b => fn a b ≤ 0) := by
  induction l generalizing r with
  | nil => simpa [alpm_list_mmerge] using hr
  | cons x xs ihl =>
    induction r with
    | nil => simpa [mmerge_nil_right] using hl
    | cons y ys ihr =>
      rw [mmerge_cons_cons]
      rw [List.pairwise_cons] at hl hr
      split
      · rename_i hxy
        rw [List.pairwise_cons]
        refine ⟨?_, ihl (y :: ys) hl.2 (List.pairwise_cons.mpr hr)⟩
        intro z hz
        rw [(mmerge_perm fn xs (y :: ys)).mem_iff, List.mem_append, List.mem_cons] at hz
        rcases hz with hz | hz | hz
        · exact hl.1 z hz
        · rw [hz]; exact hxy
        · exact trans x y z hxy (hr.1 z hz)
      · rename_i hxy
        have hyx : fn y x ≤ 0 := (total x y).resolve_left hxy
        rw [List.pairwise_cons]
        refine ⟨?_, ihr hr.2⟩
        intro z hz
        rw [(mmerge_perm fn (x :: xs) ys).mem_iff, List.mem_append, List.mem_cons] at hz
        rcases hz with (hz | hz) | hz
        · rw [hz]; exact hyx
        · exact trans y x z hyx (hl.1 z hz)
        · exact hr.1 z hz

theorem msort_rec_spec {α : Type} (fn : α → α → Int)
    (total : ∀ a b, fn a b ≤ 0 ∨ fn b a ≤ 0)
    (trans : ∀ a b c, fn a b ≤ 0 → fn b c ≤ 0 → fn a c ≤ 0) (fuel : Nat) (list : List α)
    (hf : list.length ≤ fuel) :
    (alpm_list_msort_rec fn fuel list list.length).Perm list ∧
      (alpm_list_msort_rec fn fuel list list.length).Pairwise (fun a b => fn a b ≤ 0) := by
  induction fuel generalizing list with
  | zero =>
    have : list = [] := List.length_eq_zero.mp (Nat.le_zero.mp hf)
    subst this
    simp [alpm_list_msort_rec]
  | succ fuel ih =>
    unfold alpm_list_msort_rec
    split
    · rename_i hn
      have h1 : (list.take (list.length / 2)).length = list.length / 2 := by
        rw [List.length_take]; omega
      have h2 : (list.drop (list.length / 2)).length = list.length - list.length / 2 := by
        rw [List.length_drop]
      have i1 := ih (list.take (list.length / 2)) (by rw [h1]; omega)
      have i2 := ih (list.drop (list.length / 2)) (by rw [h2]; omega)
      rw [h1] at i1
      rw [h2] at i2
      constructor
      · refine (mmerge_perm fn _ _).trans ?_
        refine (List.Perm.append i1.1 i2.1).trans ?_
        rw [List.take_append_drop]
      · exact mmerge_sorted fn total trans _ _ i1.2 i2.2
    · rename_i hn
      refine ⟨List.Perm.refl _, ?_⟩
      match list, hn with
      | [], _ => exact List.Pairwise.nil
      | [a], _ => exact List.pairwise_singleton _ _
      | a :: b :: t, hn => simp at hn

theorem msort_perm (list : List aurpkg_t) :
    (alpm_list_msort list (alpm_list_count list) aurpkg_cmp).Perm list :=
  (msort_rec_spec aurpkg_cmp (fun a b => strcmp_total a.name b.name)
    (fun a b c => strcmp_trans a.name b.name c.name) list.length list (Nat.le_refl _)).1

theorem msort_sorted (list : List aurpkg_t) :
    (alpm_list_msort list (alpm_list_count list) aurpkg_cmp).Pairwise
      (fun a b => strcmp a.name b.name ≤ 0) :=
  (msort_rec_spec aurpkg_cmp (fun a b => strcmp_total a.name b.name)
    (fun a b c => strcmp_trans a.name b.name c.name) list.length list (Nat.le_refl _)).2

/-! ## Rendered records -/

theorem print_loop_sublist (prev : Option aurpkg_t) (l : List aurpkg_t) :
    (print_results_loop (fun pkg => [pkg]) prev l).Sublist l := by
  induction l generalizing prev with
  | nil => simp [print_results_loop]
  | cons pkg rest ih =>
    unfold print_results_loop
    cases prev with
    | none => exact (ih (some pkg)).cons₂ pkg
    | some q =>
      by_cases h : aurpkg_cmp pkg q ≠ 0
      · simp only [if_pos h]
        exact (ih (some pkg)).cons₂ pkg
      · simp only [if_neg h]
        exact (ih (some pkg)).cons pkg

theorem print_loop_distinct (l : List aurpkg_t)
    (hs : l.Pairwise (fun a b => strcmp a.name b.name ≤ 0)) (prev : Option aurpkg_t)
    (hp : ∀ q, prev = some q → ∀ x ∈ l, strcmp q.name x.name ≤ 0) :
    (∀ q, prev = some q →
        ∀ x ∈ print_results_loop (fun pkg => [pkg]) prev l, x.name ≠ q.name) ∧
      ((print_results_loop (fun pkg => [pkg]) prev l).map (fun p => p.name)).Nodup := by
  induction l generalizing prev with
  | nil => simp [print_results_loop]
  | cons pkg rest ih =>
    rw [List.pairwise_cons] at hs
    obtain ⟨ih1, ih2⟩ := ih hs.2 (some pkg) (fun q hq x hx => by
      cases hq
      exact hs.1 x hx)
    have hnot : pkg.name ∉ (print_results_loop (fun pkg => [pkg]) (some pkg) rest).map
        (fun p => p.name) := by
      intro hmem
      rw [List.mem_map] at hmem
      obtain ⟨x, hx, hxe⟩ := hmem
      exact ih1 pkg rfl x hx hxe
    unfold print_results_loop
    cases prev with
    | none =>
      refine ⟨(fun q hq => by cases hq), ?_⟩
      simp only [List.singleton_append, List.map_cons]
      exact List.nodup_cons.mpr ⟨hnot, ih2⟩
    | some q =>
      have hq := hp q rfl
      by_cases h : aurpkg_cmp pkg q ≠ 0
      · simp only [if_pos h, List.singleton_append, List.map_cons]
        refine ⟨?_, List.nodup_cons.mpr ⟨hnot, ih2⟩⟩
        intro q' hq' x hx
        cases hq'
        have hpq : pkg.name ≠ q.name := fun e => h ((strcmp_eq_zero _ _).mpr e)
        rw [List.mem_cons] at hx
        rcases hx with hx | hx
        · rw [hx]; exact hpq
        · intro e
          have h1 : strcmp pkg.name x.name ≤ 0 := hs.1 x ((print_loop_sublist _ _).subset hx)
          rw [e] at h1
          exact hpq (strcmp_antisymm _ _ h1 (hq pkg (List.mem_cons_self _ _)))
      · simp only [if_neg h, List.nil_append]
        refine ⟨?_, ih2⟩
        intro q' hq' x hx
        cases hq'
        have e : pkg.name = q.name := (strcmp_eq_zero _ _).mp (not_not.mp h)
        rw [← e]
        exact ih1 pkg rfl x hx

theorem print_loop_adjacent (prev : Option aurpkg_t) (l : List aurpkg_t) :
    (print_results_loop (fun pkg => [pkg]) prev l).Chain' (fun a b => a.name ≠ b.name) ∧
      ∀ q, prev = some q →
        ∀ x ∈ (print_results_loop (fun pkg => [pkg]) prev l).head?, x.name ≠ q.name := by
  induction l generalizing prev with
  | nil => simp [print_results_loop]
  | cons pkg rest ih =>
    obtain ⟨ih1, ih2⟩ := ih (some pkg)
    have hcons : (pkg :: print_results_loop (fun pkg => [pkg]) (some pkg) rest).Chain'
        (fun a b => a.name ≠ b.name) := by
      rw [List.chain'_cons']
      exact ⟨fun y hy => Ne.symm (ih2 pkg rfl y hy), ih1⟩
    unfold print_results_loop
    cases prev with
    | none =>
      simp only [List.singleton_append]
      exact ⟨hcons, fun q hq => by cases hq⟩
    | some q =>
      by_cases h : aurpkg_cmp pkg q ≠ 0
      · simp only [if_pos h, List.singleton_append]
        refine ⟨hcons, ?_⟩
        intro q1 hq1 x hx
        cases hq1
        simp only [List.head?_cons, Option.mem_def, Option.some.injEq] at hx
        rw [← hx]
        exact fun e => h ((strcmp_eq_zero _ _).mpr e)
      · simp only [if_neg h, List.nil_append]
        refine ⟨ih1, ?_⟩
        intro q1 hq1 x hx
        cases hq1
        have e : pkg.name = q.name := (strcmp_eq_zero _ _).mp (not_not.mp h)
        rw [← e]
        exact ih2 pkg rfl x hx

theorem filter_results_search_sorted {R : Type} (rx : regex_t R) (cfg : cfg_t)
    (list : List aurpkg_t) (hs : cfg.opmask &&& OP_SEARCH ≠ 0) :
    (filter_results rx cfg list).Pairwise (fun a b => strcmp a.name b.name ≤ 0) := by
  unfold filter_results
  simp only [hs, if_false]
  exact msort_sorted _

theorem rendered_sublist {R : Type} (rx : regex_t R) (cfg : cfg_t)
    (thread_returns : List (List aurpkg_t)) :
    (main_finish rx cfg thread_returns).2.Sublist
      (filter_results rx cfg (main_join thread_returns)) := by
  unfold main_finish print_results
  simp only
  split
  · exact List.nil_sublist _
  · rename_i f hf
    split at hf
    · cases hf
      split
      · exact List.nil_sublist _
      · exact print_loop_sublist _ _
    · cases hf

/-- C3 (amended): for every operation and every collection of per-worker result lists, no
two consecutive records of the sequence `print_results` hands to the renderer have equal
names; when the op-mask contains search, the only case in which `filter_results` sorts the
joined list, that sequence contains no two records with equal names at all. -/
theorem rendered_names_distinct {R : Type} (rx : regex_t R) (cfg : cfg_t)
    (thread_returns : List (List aurpkg_t)) :
    (main_finish rx cfg thread_returns).2.Chain' (fun a b => a.name ≠ b.name) ∧
      (cfg.opmask &&& OP_SEARCH ≠ 0 →
        ((main_finish rx cfg thread_returns).2.map (fun p => p.name)).Nodup) := by
  unfold main_finish print_results
  simp only
  split
  · exact ⟨List.chain'_nil, fun _ => List.nodup_nil⟩
  · rename_i f hf
    split at hf
    · cases hf
      split
      · exact ⟨List.chain'_nil, fun _ => List.nodup_nil⟩
      · refine ⟨(print_loop_adjacent none _).1, fun hs => ?_⟩
        exact (print_loop_distinct _
          (filter_results_search_sorted rx cfg (main_join thread_returns) hs) none
          (fun q hq => by cases hq)).2
    · cases hf

/-- C3 (witness): a search for `co` over two workers that both return `cower`. -/
theorem rendered_names_distinct_witness :
    ((main_finish literal_regex { cfg_init with opmask := OP_SEARCH, targets := ["co".toList] }
      [[pkg_named "cower", pkg_named "scowl"], [pkg_named "cower"]]).2.map
        (fun p => p.name)).Nodup :=
  (rendered_names_distinct literal_regex
    { cfg_init with opmask := OP_SEARCH, targets := ["co".toList] }
    [[pkg_named "cower", pkg_named "scowl"], [pkg_named "cower"]]).2 (by decide)

/-- C3 (counterexample): in info mode three workers return `a`, `b` and `a`; the renderer
receives `a`, `b`, `a`, two records with the name `a`. -/
theorem rendered_names_dup_info :
    (main_finish literal_regex { cfg_init with opmask := OP_INFO }
      [[pkg_named "a"], [pkg_named "b"], [pkg_named "a"]]).2 =
        [pkg_named "a", pkg_named "b", pkg_named "a"] ∧
    ¬ ((main_finish literal_regex { cfg_init with opmask := OP_INFO }
      [[pkg_named "a"], [pkg_named "b"], [pkg_named "a"]]).2.map (fun p => p.name)).Nodup := by
  decide

/-- C4 (amended): when the op-mask contains search, the sequence of records `print_results`
hands to the renderer is in non-decreasing `strcmp` order of name, for every collection of
per-worker result lists. -/
theorem rendered_sorted_search {R : Type} (rx : regex_t R) (cfg : cfg_t)
    (thread_returns : List (List aurpkg_t)) (hs : cfg.opmask &&& OP_SEARCH ≠ 0) :
    (main_finish rx cfg thread_returns).2.Pairwise (fun a b => strcmp a.name b.name ≤ 0) :=
  (filter_results_search_sorted rx cfg (main_join thread_returns) hs).sublist
    (rendered_sublist rx cfg thread_returns)

/-- C4 (witness): a search for `co` whose workers return `scowl`, `cower-git` and `cower`. -/
theorem rendered_sorted_search_witness :
    (main_finish literal_regex { cfg_init with opmask := OP_SEARCH, targets := ["co".toList] }
      [[pkg_named "scowl", pkg_named "cower-git"], [pkg_named "cower"]]).2.Pairwise
        (fun a b => strcmp a.name b.name ≤ 0) :=
  rendered_sorted_search literal_regex
    { cfg_init with opmask := OP_SEARCH, targets := ["co".toList] }
    [[pkg_named "scowl", pkg_named "cower-git"], [pkg_named "cower"]] (by decide)

/-- C4 (counterexample): in info mode the workers return `zsh` and then `bash`; the renderer
receives them in that order, which is not non-decreasing. -/
theorem rendered_unsorted_info :
    (main_finish literal_regex { cfg_init with opmask := OP_INFO }
      [[pkg_named "zsh"], [pkg_named "bash"]]).2 = [pkg_named "zsh", pkg_named "bash"] ∧
    ¬ (main_finish literal_regex { cfg_init with opmask := OP_INFO }
      [[pkg_named "zsh"], [pkg_named "bash"]]).2.Pairwise
        (fun a b => strcmp a.name b.name ≤ 0) := by
  decide

/-! ## Search filter -/

theorem filter_inner_eq {R : Type} (rx : regex_t R) (regex : R) (list acc : List aurpkg_t) :
    filter_inner rx regex list acc = acc ++ list.filter (fun pkg => filter_match rx regex pkg) := by
  induction list generalizing acc with
  | nil => simp [filter_inner]
  | cons pkg rest ih =>
    unfold filter_inner
    by_cases h : filter_match rx regex pkg = true
    · simp [h, ih, alpm_list_add]
    · simp [h, ih]

theorem mem_filter_outer {R : Type} (rx : regex_t R) (targets : List CStr)
    (list : List aurpkg_t) (pkg : aurpkg_t) :
    pkg ∈ filter_outer rx targets list list ↔
      pkg ∈ list ∧ ∀ t ∈ targets, ∃ regex, rx.regcomp t = some regex ∧
        filter_match rx regex pkg = true := by
  induction targets generalizing list with
  | nil => simp [filter_outer]
  | cons t rest ih =>
    unfold filter_outer
    simp only
    rw [ih]
    cases h : rx.regcomp t with
    | none => simp [h]
    | some regex =>
      simp only [filter_inner_eq, List.nil_append, List.mem_filter, List.mem_cons,
        forall_eq_or_imp, h, Option.some.injEq, exists_eq_left']
      tauto

theorem filter_outer_start {R : Type} (rx : regex_t R) (targets : List CStr)
    (list acc : List aurpkg_t) (h : targets ≠ []) :
    filter_outer rx targets list acc = filter_outer rx targets list list := by
  cases targets with
  | nil => exact absurd rfl h
  | cons t rest => simp [filter_outer]

/-- C5: in search mode with at least one search target, a record is in the output of
`filter_results` if and only if it is in the input and every target compiles and matches the
name or the description of the record; hence every record of the output matches each target
on name or description, and one target that does not compile leaves no record. -/
theorem filter_results_search {R : Type} (rx : regex_t R) (cfg : cfg_t) (list : List aurpkg_t)
    (hs : cfg.opmask &&& OP_SEARCH ≠ 0) (ht : cfg.targets ≠ []) :
    (∀ pkg, pkg ∈ filter_results rx cfg list ↔
      pkg ∈ list ∧ ∀ t ∈ cfg.targets, ∃ regex, rx.regcomp t = some regex ∧
        (rx.regexec regex pkg.name ≠ REG_NOMATCH ∨ rx.regexec regex pkg.desc ≠ REG_NOMATCH)) ∧
    (∀ pkg ∈ filter_results rx cfg list, ∀ t ∈ cfg.targets, ∃ regex,
      rx.regcomp t = some regex ∧
        (rx.regexec regex pkg.name ≠ REG_NOMATCH ∨ rx.regexec regex pkg.desc ≠ REG_NOMATCH)) ∧
    ((∃ t ∈ cfg.targets, rx.regcomp t = none) → filter_results rx cfg list = []) := by
  have key : ∀ pkg, pkg ∈ filter_results rx cfg list ↔
      pkg ∈ list ∧ ∀ t ∈ cfg.targets, ∃ regex, rx.regcomp t = some regex ∧
        (rx.regexec regex pkg.name ≠ REG_NOMATCH ∨
          rx.regexec regex pkg.desc ≠ REG_NOMATCH) := by
    intro pkg
    unfold filter_results
    simp only [hs, if_false]
    rw [(msort_perm _).mem_iff, filter_outer_start rx cfg.targets list [] ht, mem_filter_outer]
    simp [filter_match]
  refine ⟨key, fun pkg hp => ((key pkg).mp hp).2, ?_⟩
  rintro ⟨t, htm, hnone⟩
  apply List.eq_nil_iff_forall_not_mem.mpr
  intro pkg hp
  obtain ⟨regex, hr, _⟩ := ((key pkg).mp hp).2 t htm
  rw [hnone] at hr
  cases hr

/-- C5 (witness): the search for `co` over the records `cower-git`, `zsh` (described as
`a shell`) and `make` (described as `controls builds`) keeps `cower-git` and `make`. -/
theorem filter_results_search_witness :
    filter_results literal_regex { cfg_init with opmask := OP_SEARCH, targets := ["co".toList] }
        [pkg_named "cower-git", { pkg_named "zsh" with desc := "a shell".toList },
          { pkg_named "make" with desc := "controls builds".toList }] =
        [pkg_named "cower-git", { pkg_named "make" with desc := "controls builds".toList }] ∧
      ∀ pkg ∈ filter_results literal_regex
          { cfg_init with opmask := OP_SEARCH, targets := ["co".toList] }
          [pkg_named "cower-git", { pkg_named "zsh" with desc := "a shell".toList },
            { pkg_named "make" with desc := "controls builds".toList }],
        ∀ t ∈ ["co".toList], ∃ regex, literal_regex.regcomp t = some regex ∧
          (literal_regex.regexec regex pkg.name ≠ REG_NOMATCH ∨
            literal_regex.regexec regex pkg.desc ≠ REG_NOMATCH) :=
  ⟨by decide,
   (filter_results_search literal_regex
      { cfg_init with opmask := OP_SEARCH, targets := ["co".toList] }
      [pkg_named "cower-git", { pkg_named "zsh" with desc := "a shell".toList },
        { pkg_named "make" with desc := "controls builds".toList }] (by decide) (by decide)).2.1⟩

/-! ## JSON sink -/

theorem mem_add_sorted {α : Type} (fn : α → α → Int) (list : List α) (data x : α) :
    x ∈ alpm_list_add_sorted list data fn ↔ x = data ∨ x ∈ list := by
  induction list with
  | nil => simp [alpm_list_add_sorted]
  | cons y ys ih =>
    unfold alpm_list_add_sorted
    split
    · simp
    · simp only [List.mem_cons, ih]
      tauto

theorem ite_pkglist {c : Prop} [Decidable c] {a b : Option yajl_parser_t}
    {p p1 : yajl_parser_t} (ha : a = some p1 → p1.pkglist = p.pkglist)
    (hb : b = some p1 → p1.pkglist = p.pkglist) :
    (if c then a else b) = some p1 → p1.pkglist = p.pkglist := by
  split <;> assumption

theorem json_string_pkglist (p p1 : yajl_parser_t) (data : Mem) (size : Nat)
    (h : json_string p data size = some p1) : p1.pkglist = p.pkglist := by
  unfold json_string at h
  revert h
  repeat' apply ite_pkglist
  all_goals
    intro h
    first
    | (cases h; rfl)
    | (obtain ⟨v, _, hv⟩ := Option.map_eq_some'.mp h
       rw [← hv])

theorem json_integer_pkglist (p : yajl_parser_t) (val : Int) :
    (json_integer p val).pkglist = p.pkglist := by
  unfold json_integer
  repeat' split
  all_goals rfl

theorem json_callback_ood (cfg : cfg_t) (hcfg : cfg.ignoreood ≠ 0) (p p1 : yajl_parser_t)
    (e : json_event) (hp : ∀ r ∈ p.pkglist, r.ood = 0) (h : json_callback cfg p e = some p1) :
    ∀ r ∈ p1.pkglist, r.ood = 0 := by
  cases e with
  | integer val =>
    simp only [json_callback, Option.some.injEq] at h
    rw [← h, json_integer_pkglist]
    exact hp
  | string data size =>
    simp only [json_callback] at h
    rw [json_string_pkglist p p1 data size h]
    exact hp
  | start_map =>
    simp only [json_callback, Option.some.injEq] at h
    rw [← h]
    unfold json_start_map
    simp only
    split <;> exact hp
  | map_key data size =>
    simp only [json_callback, json_map_key] at h
    split at h
    · cases h
    · cases h
      exact hp
  | end_map =>
    simp only [json_callback, Option.some.injEq] at h
    rw [← h]
    unfold json_end_map
    simp only
    split
    · split
      · rename_i hood
        intro r hr
        simp only [mem_add_sorted, aurpkg_dup] at hr
        rcases hr with hr | hr
        · rw [hr]
          by_contra hne
          exact hood ⟨hne, hcfg⟩
        · exact hp r hr
      · exact hp
    · exact hp

/-- C6: while `ignoreood` is set, whatever events are fed to the JSON sink, starting from a
package list without out-of-date records (the empty list of a fresh query in particular), no
record of the resulting package list has a non-zero out-of-date flag; the flag may have come
as an integer or as a string. -/
theorem json_run_ignoreood (cfg : cfg_t) (hcfg : cfg.ignoreood ≠ 0) (events : List json_event)
    (p p1 : yajl_parser_t) (hp : ∀ r ∈ p.pkglist, r.ood = 0)
    (h : json_run cfg p events = some p1) : ∀ r ∈ p1.pkglist, r.ood = 0 := by
  induction events generalizing p with
  | nil =>
    simp only [json_run, Option.some.injEq] at h
    rw [← h]
    exact hp
  | cons e es ih =>
    unfold json_run at h
    split at h
    · cases h
    · rename_i p2 h2
      exact ih p2 (json_callback_ood cfg hcfg p p2 e hp h2) h

/-- C6 (witness): with `ignoreood` set, the stream `example_events` leaves a package list that
holds `baz` only, without an out-of-date record. -/
theorem json_run_ignoreood_witness :
    ∃ p1, json_run { cfg_init with ignoreood := 1 } yajl_parser_init example_events = some p1 ∧
      p1.pkglist.map (fun r => r.name) = ["baz".toList] ∧ ∀ r ∈ p1.pkglist, r.ood = 0 := by
  have hsome : (json_run { cfg_init with ignoreood := 1 } yajl_parser_init
      example_events).isSome = true := by decide
  obtain ⟨p1, h1⟩ := Option.isSome_iff_exists.mp hsome
  have hn : (json_run { cfg_init with ignoreood := 1 } yajl_parser_init example_events).map
      (fun p => p.pkglist.map (fun r => r.name)) = some ["baz".toList] := by decide
  refine ⟨p1, h1, ?_, json_run_ignoreood { cfg_init with ignoreood := 1 } (by decide)
    example_events yajl_parser_init p1 (by simp [yajl_parser_init]) h1⟩
  rw [h1] at hn
  simpa using hn

/-! ## Custom format -/

theorem printf_s_nil (arg : CStr) : printf_s [] arg = arg := by
  simp [printf_s]

theorem printf_arg_set (arg : CStr) (h : arg ≠ NULL) : printf_arg arg = arg := by
  simp [printf_arg, h]

/-- A string the sink stores with `VALDUPE` is never the value `NULL`: a field of a record
of the sink is `NULL` only when no value was stored in it. -/
theorem VALDUPE_ne_NULL (src : Mem) (n : Nat) : VALDUPE src n ≠ NULL := by
  intro h
  have hmem : NUL ∈ VALDUPE src n := by
    rw [h]
    exact List.mem_singleton.mpr rfl
  unfold VALDUPE cstr at hmem
  have := List.mem_takeWhile_imp hmem
  simp at this

/-- C7 (amended): for every record whose name and version are set (neither pointer is
NULL), rendering the format made of `%n`, the two characters backslash and `t`, and `%v`
writes the name, one tab, the version and one line feed, and nothing else; for the name
`foo` and the version `1.0` the output is `foo<TAB>1.0<LF>`. -/
theorem format_name_tab_version (cfg : cfg_t) (pkg : aurpkg_t)
    (hf : cfg.format = some "%n\\t%v".toList) (hn : pkg.name ≠ NULL) (hv : pkg.ver ≠ NULL) :
    print_pkg_formatted cfg pkg = some (pkg.name ++ ['\t'] ++ pkg.ver ++ ['\n']) ∧
      (pkg.name = "foo".toList → pkg.ver = "1.0".toList →
        print_pkg_formatted cfg pkg = some "foo\t1.0\n".toList) := by
  have key : print_pkg_formatted cfg pkg = some (pkg.name ++ ['\t'] ++ pkg.ver ++ ['\n']) := by
    unfold print_pkg_formatted
    rw [hf]
    have h : print_pkg_formatted_loop cfg pkg (mem_of (cstr "%n\\t%v".toList 0))
        (cstr "%n\\t%v".toList 0).length ((cstr "%n\\t%v".toList 0).length + 1) 0 =
        some (printf_s [] (printf_arg pkg.name) ++
          ('\t' :: (printf_s [] (printf_arg pkg.ver) ++ []))) := by
      rfl
    show Option.map (fun r => r ++ ['\n']) (print_pkg_formatted_loop cfg pkg
      (mem_of (cstr "%n\\t%v".toList 0)) (cstr "%n\\t%v".toList 0).length
      ((cstr "%n\\t%v".toList 0).length + 1) 0) = _
    rw [h]
    simp [printf_s_nil, printf_arg_set _ hn, printf_arg_set _ hv]
  refine ⟨key, ?_⟩
  intro hn hv
  rw [key, hn, hv]
  rfl

/-- C7 (witness): the record with the name `foo` and the version `1.0`. -/
theorem format_name_tab_version_witness :
    print_pkg_formatted { cfg_init with format := some "%n\\t%v".toList }
        { pkg_named "foo" with ver := "1.0".toList } = some "foo\t1.0\n".toList :=
  (format_name_tab_version { cfg_init with format := some "%n\\t%v".toList }
    { pkg_named "foo" with ver := "1.0".toList } rfl (by decide) (by decide)).2 rfl rfl

/-- C7 (counterexample): the reply holds one object, with the name `foo` and no version.
The record the sink builds from it has the NULL pointer of the zeroed record as version,
and the format renders it as `foo<TAB>(null)<LF>`: what follows the tab is not a version
of the record. -/
theorem format_version_unset :
    (json_run cfg_init yajl_parser_init (stream_events name_only_reply)).map
        (fun p => p.pkglist.map (fun r => (r.name, r.ver,
          print_pkg_formatted { cfg_init with format := some "%n\\t%v".toList } r))) =
      some [("foo".toList, NULL, some "foo\t(null)\n".toList)] := by
  decide

/-! ## Update task -/

theorem find_str_isSome (haystack : List CStr) (needle : CStr) :
    (alpm_list_find_str haystack needle).isSome = true ↔ needle ∈ haystack := by
  unfold alpm_list_find_str
  rw [List.find?_isSome]
  constructor
  · rintro ⟨x, hx, he⟩
    have : x = needle := by simpa using he
    rw [← this]
    exact hx
  · intro h
    exact ⟨needle, h, by simp⟩

theorem task_update_example :
    (task_update { cfg_init with opmask := OP_UPDATE } example_alpm example_query
        "foo".toList).1 = [{ pkg_named "foo" with ver := "1.1-1".toList }] ∧
      (task_update { cfg_init with opmask := OP_UPDATE, ignore_pkgs := ["foo".toList] }
        example_alpm example_query "foo".toList).1 = [] ∧
      (task_update { cfg_init with opmask := OP_UPDATE } example_alpm example_query
        "bar".toList).1 = [] := by
  decide

/-! ## Command line -/

theorem mask_of_or :
    ∀ s i d u m : Bool,
      mask_of s i d u m ||| OP_SEARCH = mask_of true i d u m ∧
      mask_of s i d u m ||| OP_INFO = mask_of s true d u m ∧
      mask_of s i d u m ||| OP_DOWNLOAD = mask_of s i true u m ∧
      mask_of s i d u m ||| OP_UPDATE = mask_of s i d true m ∧
      mask_of s i d u m ||| OP_MSEARCH = mask_of s i d u true ∧
      (mask_of s i d u m &&& OP_INFO = 0 ↔ i = false) ∧
      (mask_of s i d u m &&& OP_DOWNLOAD = 0 ↔ d = false) := by
  decide

theorem opmask_check_mask_of :
    ∀ s i d u m : Bool,
      opmask_check (mask_of s i d u m) =
        if !(s || i || d || u || m) then 3
        else if (s && !i && !m && !u && !d) || (!s && i && !m && !u && !d) ||
            (!s && !i && m && !u && !d) || (!s && !i && !m && u && !d) ||
            (!s && !i && !m && !u && d) || (!s && !i && !m && u && d) then 0
        else 2 := by
  decide

theorem parse_option_step (isatty : Bool) (cfg cfg1 : cfg_t) (opt : getopt_t)
    (s i d u m : Bool) (h : parse_option isatty cfg opt = .ok cfg1)
    (hm : cfg.opmask = mask_of s i d u m) :
    cfg1.targets = cfg.targets ∧
      cfg1.opmask = mask_of (s || decide (getopt_t.opt_s = opt)) (i || decide (getopt_t.opt_i = opt))
        (d || decide (getopt_t.opt_d = opt)) (u || decide (getopt_t.opt_u = opt))
        (m || decide (getopt_t.opt_m = opt)) := by
  obtain ⟨h1, h2, h3, h4, h5, h6, h7⟩ := mask_of_or s i d u m
  cases opt <;> simp only [parse_option] at h
  case opt_s => cases h; simp [hm, h1]
  case opt_u => cases h; simp [hm, h4]
  case opt_m => cases h; simp [hm, h5]
  case opt_i =>
    rw [hm] at h
    split at h
    · cases h; simp [hm, h2]
    · rename_i hz
      cases h
      have : i = true := by
        cases i
        · exact absurd (h6.mpr rfl) hz
        · rfl
      simp [hm, this]
  case opt_d =>
    rw [hm] at h
    split at h
    · cases h; simp [hm, h3]
    · rename_i hz
      cases h
      have : d = true := by
        cases d
        · exact absurd (h7.mpr rfl) hz
        · rfl
      simp [hm, this]
  all_goals first
    | (cases h <;> simp [hm])
    | (split at h <;> cases h <;> simp [hm])

theorem parse_options_loop_step (isatty : Bool) (opts : List getopt_t) (cfg cfg1 : cfg_t)
    (s i d u m : Bool) (h : parse_options_loop isatty cfg opts = .ok cfg1)
    (hm : cfg.opmask = mask_of s i d u m) :
    cfg1.targets = cfg.targets ∧
      cfg1.opmask = mask_of (s || decide (getopt_t.opt_s ∈ opts))
        (i || decide (getopt_t.opt_i ∈ opts)) (d || decide (getopt_t.opt_d ∈ opts))
        (u || decide (getopt_t.opt_u ∈ opts)) (m || decide (getopt_t.opt_m ∈ opts)) := by
  induction opts generalizing cfg s i d u m with
  | nil =>
    simp only [parse_options_loop, Except.ok.injEq] at h
    rw [← h]
    simp [hm]
  | cons opt rest ih =>
    unfold parse_options_loop at h
    split at h
    · cases h
    · rename_i cfg2 h2
      obtain ⟨t2, m2⟩ := parse_option_step isatty cfg cfg2 opt s i d u m h2 hm
      obtain ⟨t1, m1⟩ := ih cfg2 _ _ _ _ _ h m2
      refine ⟨t1.trans t2, ?_⟩
      rw [m1]
      simp only [List.mem_cons, Bool.decide_or, Bool.or_assoc]

theorem parse_options_ret (isatty : Bool) (cfg cfg1 : cfg_t) (opts : List getopt_t)
    (args : List CStr) (hl : parse_options_loop isatty cfg opts = .ok cfg1) :
    (parse_options isatty cfg opts args).1 = opmask_check cfg1.opmask ∧
      ((parse_options isatty cfg opts args).1 = 0 →
        (parse_options isatty cfg opts args).2.targets = parse_targets cfg1.targets args) ∧
      ((parse_options isatty cfg opts args).1 ≠ 0 →
        (parse_options isatty cfg opts args).2.targets = cfg1.targets) := by
  unfold parse_options opmask_check NOT_EXCL
  rw [hl]
  simp only
  split
  · simp
  · split <;> simp

theorem parse_options_loop_error (isatty : Bool) (opts : List getopt_t) (cfg : cfg_t) (r : Int)
    (h : parse_options_loop isatty cfg opts = .error r) : r ≠ 0 := by
  induction opts generalizing cfg with
  | nil => simp [parse_options_loop] at h
  | cons opt rest ih =>
    unfold parse_options_loop at h
    split at h
    · rename_i r1 h1
      cases h
      cases opt <;> simp only [parse_option] at h1 <;>
        first
        | (cases h1; decide)
        | cases h1
        | (split at h1 <;> first | (cases h1; decide) | cases h1)
    · exact ih _ h

theorem parse_option_targets (isatty : Bool) (cfg cfg1 : cfg_t) (opt : getopt_t)
    (h : parse_option isatty cfg opt = .ok cfg1) : cfg1.targets = cfg.targets := by
  cases opt <;> simp only [parse_option] at h <;>
    first
    | (cases h <;> rfl)
    | (split at h <;> cases h <;> rfl)

theorem parse_options_loop_targets (isatty : Bool) (opts : List getopt_t) (cfg cfg1 : cfg_t)
    (h : parse_options_loop isatty cfg opts = .ok cfg1) : cfg1.targets = cfg.targets := by
  induction opts generalizing cfg with
  | nil =>
    simp only [parse_options_loop, Except.ok.injEq] at h
    rw [← h]
  | cons opt rest ih =>
    unfold parse_options_loop at h
    split at h
    · cases h
    · rename_i cfg2 h2
      exact (ih cfg2 h).trans (parse_option_targets isatty cfg cfg2 opt h2)

theorem parse_options_zero_targets (isatty : Bool) (cfg : cfg_t) (opts : List getopt_t)
    (args : List CStr) (hr : (parse_options isatty cfg opts args).1 = 0) :
    (parse_options isatty cfg opts args).2.targets = parse_targets cfg.targets args := by
  cases hl : parse_options_loop isatty cfg opts with
  | error r =>
    have hne := parse_options_loop_error isatty opts cfg r hl
    have hv : parse_options isatty cfg opts args = (r, cfg) := by
      unfold parse_options
      rw [hl]
    rw [hv] at hr
    exact absurd hr hne
  | ok cfg1 =>
    rw [(parse_options_ret isatty cfg cfg1 opts args hl).2.1 hr,
      parse_options_loop_targets isatty opts cfg cfg1 hl]

/-- C9 (amended): `parse_options` returns 0 and collects the targets only when the set of
operations on the command line is one of search, info, msearch, update, download, or update
with download.  When no option makes it return from its option loop (no `-h`, no `-V`, no
invalid argument, no unknown option), the value returned is decided by that set: 0 if and
only if the set is one of these six, 3 if and only if there is no operation, and 2 for every
other combination; when it is not 0 no target is collected. -/
theorem parse_options_operations (isatty : Bool) (cfg : cfg_t) (opts : List getopt_t)
    (args : List CStr) (h0 : cfg.opmask = 0) :
    ((parse_options isatty cfg opts args).1 = 0 →
      allowed_operations (getopt_t.opt_s ∈ opts) (getopt_t.opt_i ∈ opts)
        (getopt_t.opt_m ∈ opts) (getopt_t.opt_u ∈ opts) (getopt_t.opt_d ∈ opts) ∧
      (parse_options isatty cfg opts args).2.targets = parse_targets cfg.targets args) ∧
    ((parse_options isatty cfg opts args).1 ≠ 0 →
      (parse_options isatty cfg opts args).2.targets = cfg.targets) ∧
    ∀ cfg1, parse_options_loop isatty cfg opts = .ok cfg1 →
      ((parse_options isatty cfg opts args).1 = 0 ↔
        allowed_operations (getopt_t.opt_s ∈ opts) (getopt_t.opt_i ∈ opts)
          (getopt_t.opt_m ∈ opts) (getopt_t.opt_u ∈ opts) (getopt_t.opt_d ∈ opts)) ∧
      ((parse_options isatty cfg opts args).1 = 3 ↔
        ¬ (getopt_t.opt_s ∈ opts ∨ getopt_t.opt_i ∈ opts ∨ getopt_t.opt_m ∈ opts ∨
          getopt_t.opt_u ∈ opts ∨ getopt_t.opt_d ∈ opts)) ∧
      ((parse_options isatty cfg opts args).1 = 2 ↔
        (getopt_t.opt_s ∈ opts ∨ getopt_t.opt_i ∈ opts ∨ getopt_t.opt_m ∈ opts ∨
          getopt_t.opt_u ∈ opts ∨ getopt_t.opt_d ∈ opts) ∧
        ¬ allowed_operations (getopt_t.opt_s ∈ opts) (getopt_t.opt_i ∈ opts)
          (getopt_t.opt_m ∈ opts) (getopt_t.opt_u ∈ opts) (getopt_t.opt_d ∈ opts)) := by
  have main : ∀ cfg1, parse_options_loop isatty cfg opts = .ok cfg1 →
      ((parse_options isatty cfg opts args).1 = 0 ↔
        allowed_operations (getopt_t.opt_s ∈ opts) (getopt_t.opt_i ∈ opts)
          (getopt_t.opt_m ∈ opts) (getopt_t.opt_u ∈ opts) (getopt_t.opt_d ∈ opts)) ∧
      ((parse_options isatty cfg opts args).1 = 3 ↔
        ¬ (getopt_t.opt_s ∈ opts ∨ getopt_t.opt_i ∈ opts ∨ getopt_t.opt_m ∈ opts ∨
          getopt_t.opt_u ∈ opts ∨ getopt_t.opt_d ∈ opts)) ∧
      ((parse_options isatty cfg opts args).1 = 2 ↔
        (getopt_t.opt_s ∈ opts ∨ getopt_t.opt_i ∈ opts ∨ getopt_t.opt_m ∈ opts ∨
          getopt_t.opt_u ∈ opts ∨ getopt_t.opt_d ∈ opts) ∧
        ¬ allowed_operations (getopt_t.opt_s ∈ opts) (getopt_t.opt_i ∈ opts)
          (getopt_t.opt_m ∈ opts) (getopt_t.opt_u ∈ opts) (getopt_t.opt_d ∈ opts)) := by
    intro cfg1 hl
    obtain ⟨_, hmask⟩ := parse_options_loop_step isatty opts cfg cfg1 false false false false
      false hl (by rw [h0]; rfl)
    obtain ⟨hret, _, _⟩ := parse_options_ret isatty cfg cfg1 opts args hl
    refine ⟨?_, ?_, ?_⟩ <;>
      rw [hret, hmask, opmask_check_mask_of] <;>
      by_cases hS : getopt_t.opt_s ∈ opts <;> by_cases hI : getopt_t.opt_i ∈ opts <;>
      by_cases hM : getopt_t.opt_m ∈ opts <;> by_cases hU : getopt_t.opt_u ∈ opts <;>
      by_cases hD : getopt_t.opt_d ∈ opts <;>
      simp [hS, hI, hM, hU, hD, allowed_operations]
  cases hl : parse_options_loop isatty cfg opts with
  | error r =>
    have hr := parse_options_loop_error isatty opts cfg r hl
    have hv : parse_options isatty cfg opts args = (r, cfg) := by
      unfold parse_options
      rw [hl]
    refine ⟨?_, ?_, ?_⟩
    · intro h
      rw [hv] at h
      exact absurd h hr
    · intro _
      rw [hv]
    · intro cfg1 h1
      cases h1
  | ok cfg1 =>
    obtain ⟨ht, _⟩ := parse_options_loop_step isatty opts cfg cfg1 false false false false
      false hl (by rw [h0]; rfl)
    obtain ⟨_, hzero, hnonzero⟩ := parse_options_ret isatty cfg cfg1 opts args hl
    rw [ht] at hzero hnonzero
    refine ⟨fun h => ⟨((main cfg1 hl).1).mp h, hzero h⟩, hnonzero, ?_⟩
    intro cfg2 h2
    cases h2
    exact main cfg1 hl

/-- C9 (witness): `-u -d -d --threads 4 foo` is accepted and its target collected, and
`-s -i` is answered with 2. -/
theorem parse_options_operations_witness :
    ((parse_options true cfg_init
      [getopt_t.opt_u, getopt_t.opt_d, getopt_t.opt_d, getopt_t.OP_THREADS "4".toList]
      ["foo".toList]).1 = 0 ↔
      allowed_operations
        (getopt_t.opt_s ∈ [getopt_t.opt_u, getopt_t.opt_d, getopt_t.opt_d,
          getopt_t.OP_THREADS "4".toList])
        (getopt_t.opt_i ∈ [getopt_t.opt_u, getopt_t.opt_d, getopt_t.opt_d,
          getopt_t.OP_THREADS "4".toList])
        (getopt_t.opt_m ∈ [getopt_t.opt_u, getopt_t.opt_d, getopt_t.opt_d,
          getopt_t.OP_THREADS "4".toList])
        (getopt_t.opt_u ∈ [getopt_t.opt_u, getopt_t.opt_d, getopt_t.opt_d,
          getopt_t.OP_THREADS "4".toList])
        (getopt_t.opt_d ∈ [getopt_t.opt_u, getopt_t.opt_d, getopt_t.opt_d,
          getopt_t.OP_THREADS "4".toList])) ∧
    (parse_options true cfg_init
      [getopt_t.opt_u, getopt_t.opt_d, getopt_t.opt_d, getopt_t.OP_THREADS "4".toList]
      ["foo".toList]).1 = 0 ∧
    (parse_options true cfg_init [getopt_t.opt_s, getopt_t.opt_i] ["foo".toList]).1 = 2 :=
  ⟨((parse_options_operations true cfg_init
      [getopt_t.opt_u, getopt_t.opt_d, getopt_t.opt_d, getopt_t.OP_THREADS "4".toList]
      ["foo".toList] rfl).2.2 _ rfl).1, by decide, by decide⟩

/-- C9 (counterexample): an option that returns from the option loop decides the value
before the operations are looked at.  `-s --threads 0 foo` has the one operation search and
is answered with 1, not accepted; `-h` has no operation and is answered with 1, not 3;
`-s -i -h` has the two operations search and info and is answered with 1, not 2; `-V` has
no operation and is answered with 2, not 3. -/
theorem parse_options_option_returns :
    (parse_options true cfg_init [getopt_t.opt_s, getopt_t.OP_THREADS "0".toList]
      ["foo".toList]).1 = 1 ∧
    (parse_options true cfg_init [getopt_t.opt_h] []).1 = 1 ∧
    (parse_options true cfg_init [getopt_t.opt_s, getopt_t.opt_i, getopt_t.opt_h] []).1 = 1 ∧
    (parse_options true cfg_init [getopt_t.opt_V] []).1 = 2 := by
  decide

/-! ## Targets -/

theorem parse_targets_eq (args targets : List CStr) :
    parse_targets targets args =
      targets ++ (first_occurrences args).filter (fun y => decide (y ∉ targets)) := by
  induction args generalizing targets with
  | nil => simp [parse_targets, first_occurrences]
  | cons a rest ih =>
    unfold parse_targets first_occurrences
    by_cases h : a ∈ targets
    · rw [if_pos ((find_str_isSome targets a).mpr h), ih]
      congr 1
      rw [List.filter_cons, List.filter_filter]
      simp only [h, not_true_eq_false, decide_False, Bool.false_eq_true, if_false]
      apply List.filter_congr
      intro y _
      by_cases hy : y ∈ targets
      · simp [hy]
      · have : y ≠ a := fun e => hy (e ▸ h)
        simp [hy, this]
    · have hn : ¬ (alpm_list_find_str targets a).isSome = true :=
        fun e => h ((find_str_isSome targets a).mp e)
      rw [if_neg hn, ih]
      unfold alpm_list_add
      rw [List.filter_cons, List.filter_filter]
      simp only [h, not_false_eq_true, decide_True, if_true, List.append_assoc,
        List.singleton_append]
      congr 2
      apply List.filter_congr
      intro y _
      by_cases hy : y ∈ targets <;> by_cases hya : y = a <;> simp [hy, hya]

theorem mem_first_occurrences (args : List CStr) (x : CStr) :
    x ∈ first_occurrences args ↔ x ∈ args := by
  induction args with
  | nil => simp [first_occurrences]
  | cons a rest ih =>
    unfold first_occurrences
    simp only [List.mem_cons, List.mem_filter, ih]
    by_cases h : x = a <;> simp [h]

theorem first_occurrences_nodup (args : List CStr) : (first_occurrences args).Nodup := by
  induction args with
  | nil => simp [first_occurrences]
  | cons a rest ih =>
    unfold first_occurrences
    rw [List.nodup_cons]
    exact ⟨by simp [List.mem_filter], ih.filter _⟩

theorem first_occurrences_sublist (args : List CStr) : (first_occurrences args).Sublist args := by
  induction args with
  | nil => simp [first_occurrences]
  | cons a rest ih =>
    unfold first_occurrences
    exact ((List.filter_sublist _).trans ih).cons₂ a

theorem indexOf_cons_same (a : CStr) (l : List CStr) : (a :: l).indexOf a = 0 := by
  simp [List.indexOf_cons]

theorem indexOf_cons_other (a x : CStr) (l : List CStr) (h : a ≠ x) :
    (a :: l).indexOf x = l.indexOf x + 1 := by
  rw [List.indexOf_cons]
  have : (a == x) = false := by simpa using h
  rw [this]
  rfl

theorem indexOf_filter_lt (p : CStr → Bool) (l : List CStr) (x y : CStr) (hx : p x = true)
    (hy : p y = true) (hm : x ∈ l) :
    (l.filter p).indexOf x < (l.filter p).indexOf y ↔ l.indexOf x < l.indexOf y := by
  induction l with
  | nil => cases hm
  | cons b rest ih =>
    by_cases hbx : b = x
    · subst hbx
      rw [List.filter_cons, if_pos hx, indexOf_cons_same, indexOf_cons_same]
      by_cases hby : b = y
      · subst hby
        rw [indexOf_cons_same, indexOf_cons_same]
      · rw [indexOf_cons_other _ _ _ hby, indexOf_cons_other _ _ _ hby]
        simp
    · have hmr : x ∈ rest := by
        rcases List.mem_cons.mp hm with h | h
        · exact absurd h.symm hbx
        · exact h
      by_cases hby : b = y
      · subst hby
        rw [List.filter_cons, if_pos hy, indexOf_cons_same, indexOf_cons_same]
        simp
      · rw [indexOf_cons_other _ _ _ hbx, indexOf_cons_other _ _ _ hby, List.filter_cons]
        by_cases hpb : p b = true
        · rw [if_pos hpb, indexOf_cons_other _ _ _ hbx, indexOf_cons_other _ _ _ hby]
          simp only [Nat.succ_eq_add_one, Nat.add_lt_add_iff_right]
          exact ih hmr
        · rw [if_neg hpb]
          simp only [Nat.succ_eq_add_one, Nat.add_lt_add_iff_right]
          exact ih hmr

theorem first_occurrences_order (args : List CStr) (x y : CStr) (hx : x ∈ args) :
    (first_occurrences args).indexOf x < (first_occurrences args).indexOf y ↔
      args.indexOf x < args.indexOf y := by
  induction args with
  | nil => cases hx
  | cons a rest ih =>
    unfold first_occurrences
    by_cases hax : a = x
    · subst hax
      rw [indexOf_cons_same, indexOf_cons_same]
      by_cases hay : a = y
      · subst hay
        rw [indexOf_cons_same, indexOf_cons_same]
      · rw [indexOf_cons_other _ _ _ hay, indexOf_cons_other _ _ _ hay]
        simp
    · have hxr : x ∈ rest := by
        rcases List.mem_cons.mp hx with h | h
        · exact absurd h.symm hax
        · exact h
      by_cases hay : a = y
      · subst hay
        rw [indexOf_cons_same, indexOf_cons_same]
        simp
      · have hf := indexOf_filter_lt (fun z => z != a) (first_occurrences rest) x y
          (by simpa using Ne.symm hax) (by simpa using Ne.symm hay)
          ((mem_first_occurrences rest x).mpr hxr)
        rw [indexOf_cons_other _ _ _ hax, indexOf_cons_other _ _ _ hay, indexOf_cons_other _ _ _ hax,
          indexOf_cons_other _ _ _ hay]
        simp only [Nat.succ_eq_add_one, Nat.add_lt_add_iff_right]
        rw [hf]
        exact ih hxr

/-- C10: for every sequence of positional arguments, the target list `parse_options` builds
when it accepts the command line, starting without targets, is that sequence with every
repetition after the first removed: it has no duplicates, holds exactly the strings that
occur among the arguments, keeps their order, and lists them by first occurrence (one target
comes before another exactly when its first occurrence among the arguments does). -/
theorem parse_options_targets (isatty : Bool) (cfg : cfg_t) (opts : List getopt_t)
    (args : List CStr) (ht : cfg.targets = [])
    (hr : (parse_options isatty cfg opts args).1 = 0) :
    (parse_options isatty cfg opts args).2.targets = first_occurrences args ∧
    (parse_options isatty cfg opts args).2.targets.Nodup ∧
    (∀ x, x ∈ (parse_options isatty cfg opts args).2.targets ↔ x ∈ args) ∧
    (parse_options isatty cfg opts args).2.targets.Sublist args ∧
    (∀ x y, x ∈ args →
      ((parse_options isatty cfg opts args).2.targets.indexOf x <
          (parse_options isatty cfg opts args).2.targets.indexOf y ↔
        args.indexOf x < args.indexOf y)) := by
  have h := parse_options_zero_targets isatty cfg opts args hr
  rw [ht, parse_targets_eq] at h
  have he : (parse_options isatty cfg opts args).2.targets = first_occurrences args := by
    rw [h]
    simp
  rw [he]
  exact ⟨rfl, first_occurrences_nodup args, mem_first_occurrences args,
    first_occurrences_sublist args, fun x y hx => first_occurrences_order args x y hx⟩

/-- C10 (witness): `-i b a b c a` gives the targets `b`, `a`, `c`. -/
theorem parse_options_targets_witness :
    (parse_options true cfg_init [getopt_t.opt_i]
      ["b".toList, "a".toList, "b".toList, "c".toList, "a".toList]).2.targets =
        ["b".toList, "a".toList, "c".toList] :=
  (parse_options_targets true cfg_init [getopt_t.opt_i]
    ["b".toList, "a".toList, "b".toList, "c".toList, "a".toList] rfl (by decide)).1.trans
    (by decide)

/-! ## Strings in a buffer -/

theorem takeWhile_append_stop (a rest : List Char) (ha : ∀ c ∈ a, c ≠ NUL) :
    (a ++ NUL :: rest).takeWhile (fun c => c != NUL) = a := by
  induction a with
  | nil => simp [List.takeWhile]
  | cons x xs ih =>
    have hx : x ≠ NUL := ha x (List.mem_cons_self _ _)
    simp only [List.cons_append, List.takeWhile_cons, bne_iff_ne, ne_eq, hx, not_false_eq_true,
      if_true]
    rw [ih (fun c hc => ha c (List.mem_cons_of_mem _ hc))]

theorem cstr_split (s rest : List Char) (hs : ∀ c ∈ s, c ≠ NUL) (p : Nat) (hp : p ≤ s.length) :
    cstr (s ++ NUL :: rest) p = s.drop p := by
  unfold cstr
  rw [List.drop_append_of_le_length hp]
  exact takeWhile_append_stop _ _ (fun c hc => hs c (List.mem_of_mem_drop hc))

theorem peek_split_lt (s rest : List Char) (p : Nat) (hp : p < s.length) :
    peek (s ++ NUL :: rest) p = s.getD p NUL := by
  unfold peek
  simp [List.getD_eq_getElem?_getD, List.getElem?_append_left hp]

theorem peek_split_ne (s rest : List Char) (hs : ∀ c ∈ s, c ≠ NUL) (p : Nat)
    (hp : p < s.length) : peek (s ++ NUL :: rest) p ≠ NUL := by
  rw [peek_split_lt s rest p hp, List.getD_eq_getElem?_getD, List.getElem?_eq_getElem hp]
  exact hs _ (List.getElem_mem _)

theorem peek_split_len (s rest : List Char) : peek (s ++ NUL :: rest) s.length = NUL := by
  unfold peek
  rw [List.getD_eq_getElem?_getD, List.getElem?_append_right (Nat.le_refl _)]
  simp

theorem mem_of_split (arg : CStr) :
    ∃ s post rest, arg = s ++ post ∧ mem_of arg = s ++ NUL :: rest ∧ (∀ c ∈ s, c ≠ NUL) ∧
      (NUL ∉ arg → post = []) := by
  refine ⟨arg.takeWhile (fun c => c != NUL), arg.dropWhile (fun c => c != NUL), ?_⟩
  have hs : ∀ c ∈ arg.takeWhile (fun c => c != NUL), c ≠ NUL := by
    intro c hc
    simpa using List.mem_takeWhile_imp hc
  cases hd : arg.dropWhile (fun c => c != NUL) with
  | nil =>
    refine ⟨[], ?_, ?_, hs, fun _ => rfl⟩
    · rw [← hd, List.takeWhile_append_dropWhile]
    · unfold mem_of
      conv_lhs => rw [← List.takeWhile_append_dropWhile (fun c => c != NUL) arg, hd]
      simp
  | cons x xs =>
    have hx : x = NUL := by
      have := List.head_dropWhile_not (fun c => c != NUL) arg (by rw [hd]; simp)
      simpa [hd] using this
    refine ⟨xs ++ [NUL], ?_, ?_, hs, ?_⟩
    · rw [← hd, List.takeWhile_append_dropWhile]
    · unfold mem_of
      conv_lhs => rw [← List.takeWhile_append_dropWhile (fun c => c != NUL) arg, hd, hx]
      simp
    · intro hn
      exfalso
      apply hn
      rw [← List.takeWhile_append_dropWhile (fun c => c != NUL) arg, hd, hx]
      simp

theorem find_idx_some (pred : Char → Bool) (l : List Char) (i : Nat)
    (h : find_idx pred l = some i) : i < l.length ∧ pred (l.getD i NUL) = true := by
  induction l generalizing i with
  | nil => simp [find_idx] at h
  | cons x xs ih =>
    unfold find_idx at h
    split at h
    · rename_i hx
      cases h
      simp [hx]
    · simp only [Option.map_eq_some'] at h
      obtain ⟨j, hj, rfl⟩ := h
      obtain ⟨h1, h2⟩ := ih j hj
      refine ⟨by simpa using h1, ?_⟩
      simpa [List.getD_eq_getElem?_getD] using h2

/-! ## Search pre-filter -/

theorem take_takeWhile_all (pred : Char → Bool) (l : List Char) (n : Nat)
    (hn : n ≤ (l.takeWhile pred).length) : n ≤ l.length ∧ ∀ c ∈ l.take n, pred c = true := by
  induction l generalizing n with
  | nil => simp at hn; subst hn; simp
  | cons x xs ih =>
    cases n with
    | zero => simp
    | succ k =>
      by_cases hx : pred x = true
      · simp only [List.takeWhile_cons, hx, if_true, List.length_cons,
          Nat.add_le_add_iff_right] at hn
        obtain ⟨h1, h2⟩ := ih k hn
        refine ⟨by simpa using h1, ?_⟩
        intro c hc
        simp only [List.take_succ_cons, List.mem_cons] at hc
        rcases hc with hc | hc
        · rw [hc]; exact hx
        · exact h2 c hc
      · simp [List.takeWhile_cons, hx] at hn

theorem query_span_run (s rest : List Char) (hs : ∀ c ∈ s, c ≠ NUL) (a : Nat)
    (ha : a ≤ s.length) (n : Nat) (hn : (n : Int) ≤ query_span (s ++ NUL :: rest) a) :
    a + n ≤ s.length ∧ ∀ c ∈ (s.drop a).take n, REGEX_CHARS.contains c = false := by
  have hle : n ≤ ((s.drop a).takeWhile (fun c => !REGEX_CHARS.contains c)).length := by
    unfold query_span span at hn
    rw [cstr_split s rest hs a ha] at hn
    simp only at hn
    split at hn <;> omega
  obtain ⟨h1, h2⟩ := take_takeWhile_all _ _ n hle
  rw [List.length_drop] at h1
  refine ⟨by omega, ?_⟩
  intro c hc
  simpa using h2 c hc

theorem query_span_bracket (s rest : List Char) (hs : ∀ c ∈ s, c ≠ NUL) (a : Nat)
    (ha : a < s.length)
    (hb : peek (s ++ NUL :: rest) a = '[' ∨ peek (s ++ NUL :: rest) a = '\x7b') :
    query_span (s ++ NUL :: rest) a = 0 := by
  have hd : s.drop a = s.getD a NUL :: s.drop (a + 1) := by
    rw [List.getD_eq_getElem?_getD, List.getElem?_eq_getElem ha]
    simp
  have hp := peek_split_lt s rest a ha
  have h0 : span (s ++ NUL :: rest) a (fun c => !REGEX_CHARS.contains c) = 0 := by
    unfold span
    rw [cstr_split s rest hs a (Nat.le_of_lt ha), hd, ← hp]
    rcases hb with hb | hb <;> rw [hb] <;> rfl
  unfold query_span
  simp only [h0, Nat.add_zero]
  rcases hb with hb | hb <;> rw [hb] <;> simp

theorem strpbrk_lt (s rest : List Char) (hs : ∀ c ∈ s, c ≠ NUL) (p q : Nat)
    (hp : p ≤ s.length) (accept : List Char)
    (h : strpbrk (s ++ NUL :: rest) p accept = some q) : p ≤ q ∧ q < s.length := by
  unfold strpbrk at h
  rw [cstr_split s rest hs p hp] at h
  simp only [Option.map_eq_some'] at h
  obtain ⟨i, hi, rfl⟩ := h
  have := (find_idx_some _ _ _ hi).1
  rw [List.length_drop] at this
  omega

theorem query_span_loop_some (s rest : List Char) (hs : ∀ c ∈ s, c ≠ NUL) (fuel argstr : Nat)
    (span0 : Int) (ha : argstr ≤ s.length) (hf : s.length - argstr < fuel) :
    (query_span_loop (s ++ NUL :: rest) fuel argstr span0).isSome = true := by
  induction fuel generalizing argstr span0 with
  | zero => omega
  | succ fuel ih =>
    unfold query_span_loop
    by_cases hend : peek (s ++ NUL :: rest) argstr = NUL
    · simp [hend]
    · have hlt : argstr < s.length := by
        rcases Nat.lt_or_ge argstr s.length with h | h
        · exact h
        · have : argstr = s.length := by omega
          rw [this] at hend
          exact absurd (peek_split_len s rest) hend
      rw [if_neg hend]
      split
      · rename_i hb
        rw [query_span_bracket s rest hs argstr hlt hb]
        simp only [Int.add_zero, Int.toNat_ofNat]
        cases hq : strpbrk (s ++ NUL :: rest) argstr [']', '\x7d'] with
        | none => rfl
        | some q =>
          obtain ⟨h1, h2⟩ := strpbrk_lt s rest hs argstr q (Nat.le_of_lt hlt) _ hq
          exact ih (q + 1) 0 (by omega) (by omega)
      · split
        · rfl
        · exact ih (argstr + 1) _ (by omega) (by omega)

theorem query_span_loop_spec (s rest : List Char) (hs : ∀ c ∈ s, c ≠ NUL) (fuel argstr : Nat)
    (span0 : Int) (ha : argstr ≤ s.length) (h0 : span0 < 2) (r : Nat × Int)
    (h : query_span_loop (s ++ NUL :: rest) fuel argstr span0 = some (some r)) :
    r.2 < 2 ∨
      (argstr ≤ r.1 ∧ r.1 < s.length ∧ r.2 = query_span (s ++ NUL :: rest) r.1 ∧
        ∀ p, argstr ≤ p → p < r.1 →
          (∀ j, argstr ≤ j → j ≤ p →
            peek (s ++ NUL :: rest) j ≠ '[' ∧ peek (s ++ NUL :: rest) j ≠ '\x7b') →
          query_span (s ++ NUL :: rest) p < 2) := by
  induction fuel generalizing argstr span0 with
  | zero => simp [query_span_loop] at h
  | succ fuel ih =>
    unfold query_span_loop at h
    by_cases hend : peek (s ++ NUL :: rest) argstr = NUL
    · rw [if_pos hend] at h
      cases h
      exact Or.inl h0
    · have hlt : argstr < s.length := by
        rcases Nat.lt_or_ge argstr s.length with h | h
        · exact h
        · have : argstr = s.length := by omega
          rw [this] at hend
          exact absurd (peek_split_len s rest) hend
      rw [if_neg hend] at h
      split at h
      · rename_i hb
        rw [query_span_bracket s rest hs argstr hlt hb] at h
        simp only [Int.add_zero, Int.toNat_ofNat] at h
        cases hq : strpbrk (s ++ NUL :: rest) argstr [']', '\x7d'] with
        | none => rw [hq] at h; cases h
        | some q =>
          rw [hq] at h
          obtain ⟨h1, h2⟩ := strpbrk_lt s rest hs argstr q (Nat.le_of_lt hlt) _ hq
          rcases ih (q + 1) 0 (by omega) (by decide) h with hr | ⟨r1, r2, r3, _⟩
          · exact Or.inl hr
          · refine Or.inr ⟨by omega, r2, r3, ?_⟩
            intro p hp1 _ hj
            have := hj argstr (Nat.le_refl _) hp1
            rcases hb with hb | hb
            · exact absurd hb this.1
            · exact absurd hb this.2
      · rename_i hb
        split at h
        · cases h
          exact Or.inr ⟨Nat.le_refl _, hlt, rfl, fun p hp1 hp2 => by omega⟩
        · rename_i hsp
          rcases ih (argstr + 1) _ (by omega) (by omega) h with hr | ⟨r1, r2, r3, r4⟩
          · exact Or.inl hr
          · refine Or.inr ⟨by omega, r2, r3, ?_⟩
            intro p hp1 hp2 hj
            rcases Nat.eq_or_lt_of_le hp1 with he | hlt2
            · rw [← he]
              omega
            · exact r4 p (by omega) hp2 (fun j hj1 hj2 => hj j (by omega) hj2)

theorem query_argument_split (s post rest : List Char) (arg : CStr) (harg : arg = s ++ post)
    (hm : mem_of arg = s ++ NUL :: rest) (hs : ∀ c ∈ s, c ≠ NUL) (a n : Nat)
    (ha : a ≤ s.length) (hn : 2 ≤ n) (hle : a + n ≤ s.length) :
    query_argument arg a (n : Int) = (s.drop a).take n ∧
      (query_argument arg a (n : Int)).length = n ∧
      arg = s.take a ++ query_argument arg a (n : Int) ++ (s.drop (a + n) ++ post) := by
  have hq : query_argument arg a (n : Int) = (s.drop a).take n := by
    unfold query_argument
    have : ¬ ((n : Int) = 0) := by omega
    rw [if_neg this, hm, cstr_split s rest hs a ha]
    simp
  refine ⟨hq, ?_, ?_⟩
  · rw [hq, List.length_take, List.length_drop]
    omega
  · rw [hq, harg]
    have h1 : s = s.take a ++ ((s.drop a).take n ++ s.drop (a + n)) := by
      rw [← List.drop_drop, List.take_append_drop, List.take_append_drop]
    have h2 : s ++ post = (s.take a ++ ((s.drop a).take n ++ s.drop (a + n))) ++ post := by
      rw [← h1]
    rw [h2]
    simp only [List.append_assoc]

theorem query_span_loop_plain (arg : CStr) (hlen : 2 ≤ arg.length)
    (hplain : ∀ c ∈ arg, REGEX_CHARS.contains c = false ∧ c ≠ NUL) (fuel : Nat) :
    query_span_loop (mem_of arg) (fuel + 1) 0 0 = some (some (0, (arg.length : Int))) := by
  have hm : mem_of arg = arg ++ NUL :: [] := rfl
  have hs : ∀ c ∈ arg, c ≠ NUL := fun c hc => (hplain c hc).2
  have h0 : peek (mem_of arg) 0 ≠ NUL := by
    rw [hm]
    exact peek_split_ne arg [] hs 0 (by omega)
  have hmem : peek (mem_of arg) 0 ∈ arg := by
    rw [hm, peek_split_lt arg [] 0 (by omega), List.getD_eq_getElem?_getD,
      List.getElem?_eq_getElem (by omega)]
    exact List.getElem_mem _
  have hnb : ¬ (peek (mem_of arg) 0 = '[' ∨ peek (mem_of arg) 0 = '\x7b') := by
    intro hb
    have := (hplain _ hmem).1
    rcases hb with hb | hb <;> rw [hb] at this <;> exact absurd this (by decide)
  have hspan : span (mem_of arg) 0 (fun c => !REGEX_CHARS.contains c) = arg.length := by
    unfold span
    rw [hm, cstr_split arg [] hs 0 (Nat.zero_le _), List.drop_zero]
    have : arg.takeWhile (fun c => !REGEX_CHARS.contains c) = arg := by
      rw [List.takeWhile_eq_self_iff]
      intro c hc
      rw [(hplain c hc).1]
      rfl
    rw [this]
  have hqs : query_span (mem_of arg) 0 = (arg.length : Int) := by
    unfold query_span
    simp only [hspan, Nat.zero_add]
    have hp : peek (mem_of arg) arg.length = NUL := by
      rw [hm]
      exact peek_split_len arg []
    rw [hp]
    have : ¬ (NUL = '?' ∨ NUL = '*') := by decide
    rw [if_neg this]
  unfold query_span_loop
  rw [if_neg h0, if_neg hnb, hqs]
  have : (2 : Int) ≤ (arg.length : Int) := by omega
  rw [if_pos this]

/-- C11: in search mode `task_query` settles every target before any request is made: it
rejects it (search string too short, or invalid regular expression) or chooses `argstr` and
`span`.  When it chooses, `span` is at least 2 and the RPC argument is a contiguous piece of
the target, `span` bytes long, without any of the characters of `REGEX_CHARS`.  A target
shorter than 2 characters is always rejected, and a target of at least 2 characters none of
which is in `REGEX_CHARS` is sent whole. -/
theorem task_query_prefilter_search (cfg : cfg_t) (arg : CStr)
    (hsearch : cfg.opmask &&& OP_SEARCH ≠ 0) :
    (∃ r, task_query_prefilter cfg arg = some r) ∧
    (∀ argstr span, task_query_prefilter cfg arg = some (prefilter_t.request argstr span) →
      2 ≤ span ∧ ((query_argument arg argstr span).length : Int) = span ∧
      (∃ pre post, arg = pre ++ query_argument arg argstr span ++ post) ∧
      ∀ c ∈ query_argument arg argstr span, c ∉ REGEX_CHARS) ∧
    (arg.length < 2 →
      task_query_prefilter cfg arg = some prefilter_t.too_short ∨
        task_query_prefilter cfg arg = some prefilter_t.invalid_regex) ∧
    (2 ≤ arg.length → (∀ c ∈ arg, c ∉ REGEX_CHARS ∧ c ≠ NUL) →
      task_query_prefilter cfg arg = some (prefilter_t.request 0 arg.length) ∧
        query_argument arg 0 arg.length = arg) := by
  obtain ⟨s, post, rest, harg, hm, hs, hpost⟩ := mem_of_split arg
  have hlen : s.length ≤ arg.length := by rw [harg]; simp
  have hsome := query_span_loop_some s rest hs (arg.length + 2) 0 0 (Nat.zero_le _) (by omega)
  have hreq : ∀ argstr span,
      task_query_prefilter cfg arg = some (prefilter_t.request argstr span) →
      2 ≤ span ∧ argstr < s.length ∧ span = query_span (s ++ NUL :: rest) argstr := by
    intro argstr span h
    unfold task_query_prefilter at h
    rw [if_pos hsearch, hm] at h
    cases hr : query_span_loop (s ++ NUL :: rest) (arg.length + 2) 0 0 with
    | none => rw [hr] at h; cases h
    | some r =>
      rw [hr] at h
      cases r with
      | none => cases h
      | some r =>
        obtain ⟨a, sp⟩ := r
        simp only at h
        split at h
        · cases h
        · rename_i hsp
          cases h
          rcases query_span_loop_spec s rest hs _ 0 0 (Nat.zero_le _) (by decide) _ hr with
            hlt | ⟨_, h2, h3, _⟩
          · exact absurd hlt hsp
          · exact ⟨by omega, h2, h3⟩
  have hfacts : ∀ argstr span,
      task_query_prefilter cfg arg = some (prefilter_t.request argstr span) →
      2 ≤ span ∧ ((query_argument arg argstr span).length : Int) = span ∧
      (∃ pre post, arg = pre ++ query_argument arg argstr span ++ post) ∧
      ∀ c ∈ query_argument arg argstr span, c ∉ REGEX_CHARS := by
    intro argstr span h
    obtain ⟨h2, ha, hq⟩ := hreq argstr span h
    obtain ⟨n, hn⟩ := Int.eq_ofNat_of_zero_le (show (0 : Int) ≤ span by omega)
    subst hn
    obtain ⟨hle, hall⟩ := query_span_run s rest hs argstr (Nat.le_of_lt ha) n (by omega)
    obtain ⟨e1, e2, e3⟩ := query_argument_split s post rest arg harg hm hs argstr n
      (Nat.le_of_lt ha) (by omega) hle
    refine ⟨h2, by rw [e2], ⟨_, _, e3⟩, ?_⟩
    intro c hc
    rw [e1] at hc
    have := hall c hc
    simpa using this
  refine ⟨?_, hfacts, ?_, ?_⟩
  · unfold task_query_prefilter
    rw [if_pos hsearch, hm]
    obtain ⟨r, hr⟩ := Option.isSome_iff_exists.mp hsome
    rw [hr]
    cases r with
    | none => exact ⟨_, rfl⟩
    | some r =>
      obtain ⟨a, sp⟩ := r
      simp only
      split <;> exact ⟨_, rfl⟩
  · intro hshort
    have hno : ∀ argstr span,
        task_query_prefilter cfg arg ≠ some (prefilter_t.request argstr span) := by
      intro argstr span h
      obtain ⟨h2, ha, hq⟩ := hreq argstr span h
      obtain ⟨n, hn⟩ := Int.eq_ofNat_of_zero_le (show (0 : Int) ≤ span by omega)
      subst hn
      have := (query_span_run s rest hs argstr (Nat.le_of_lt ha) n (by omega)).1
      omega
    unfold task_query_prefilter at hno ⊢
    rw [if_pos hsearch, hm] at hno ⊢
    obtain ⟨r, hr⟩ := Option.isSome_iff_exists.mp hsome
    rw [hr] at hno ⊢
    cases r with
    | none => exact Or.inr rfl
    | some r =>
      obtain ⟨a, sp⟩ := r
      simp only at hno ⊢
      by_cases hsp : sp < 2
      · rw [if_pos hsp]
        exact Or.inl rfl
      · rw [if_neg hsp] at hno
        exact absurd rfl (hno a sp)
  · intro h2 hplain
    have hplain2 : ∀ c ∈ arg, REGEX_CHARS.contains c = false ∧ c ≠ NUL := by
      intro c hc
      refine ⟨?_, (hplain c hc).2⟩
      simpa using (hplain c hc).1
    have hloop := query_span_loop_plain arg h2 hplain2 (arg.length + 1)
    have hres : task_query_prefilter cfg arg =
        some (prefilter_t.request 0 (arg.length : Int)) := by
      unfold task_query_prefilter
      rw [if_pos hsearch, hloop]
      simp only
      have : ¬ ((arg.length : Int) < 2) := by omega
      rw [if_neg this]
    refine ⟨hres, ?_⟩
    have hnul : NUL ∉ arg := fun hc => (hplain NUL hc).2 rfl
    have hp := hpost hnul
    subst hp
    rw [List.append_nil] at harg
    subst harg
    have := (query_argument_split arg [] rest arg (by simp) hm hs 0 arg.length (Nat.zero_le _)
      h2 (by omega)).1
    rw [this]
    simp

/-- C11 (witness): the target `cower` is sent whole. -/
theorem task_query_prefilter_search_witness :
    task_query_prefilter search_cfg "cower".toList = some (prefilter_t.request 0 5) ∧
      query_argument "cower".toList 0 5 = "cower".toList :=
  (task_query_prefilter_search search_cfg "cower".toList (by decide)).2.2.2 (by decide)
    (by decide)

/-! ## Groups of a search target -/

/-- C14 (amended): when the key is `type` and the string value begins with `error`,
`json_string` returns at once and leaves the parser state as it is, so the rest of the
document is processed as if that value had not been there: nothing is recorded that would
keep a later inner object out of the package list. -/
theorem json_run_type_error (cfg : cfg_t) (p : yajl_parser_t) (data : Mem) (size : Nat)
    (rest : List json_event) (hkey : KEY_IS p "type" = true)
    (herr : STR_STARTS_WITH data 0 "error".toList = true) :
    json_callback cfg p (json_event.string data size) = some p ∧
      json_run cfg p (json_event.string data size :: rest) = json_run cfg p rest := by
  have h : json_callback cfg p (json_event.string data size) = some p := by
    show json_string p data size = some p
    unfold json_string
    rw [hkey, herr]
    rfl
  exact ⟨h, by simp only [json_run, h]⟩

/-- C14 (witness): the value `error` under the top-level key `type`. -/
theorem json_run_type_error_witness :
    json_callback cfg_init type_key_state (string_event "error") = some type_key_state ∧
      json_run cfg_init type_key_state (string_event "error" :: error_events.drop 3) =
        json_run cfg_init type_key_state (error_events.drop 3) :=
  json_run_type_error cfg_init type_key_state ("error".toList ++ ['"']) 5
    (error_events.drop 3) (by decide) (by decide)

/-- C14 (counterexample): in a document whose top-level `type` is `error`, the inner object
`foo` that follows is inserted into the package list. -/
theorem json_run_error_then_record :
    (json_run cfg_init yajl_parser_init error_events).map
        (fun p => p.pkglist.map (fun pkg => pkg.name)) = some ["foo".toList] ∧
      json_run cfg_init yajl_parser_init (error_events.take 2) = some type_key_state := by
  decide

/-! ## Repeated entries -/

theorem foldl_add_new_nodup (offers : List CStr) :
    ∀ deplist : List CStr, deplist.Nodup → (offers.foldl add_new deplist).Nodup := by
  induction offers with
  | nil => intro deplist h; exact h
  | cons t ts ih =>
    intro deplist h
    apply ih
    rw [add_new_eq]
    split
    · exact h
    · rename_i hn
      rw [List.nodup_append]
      refine ⟨h, List.nodup_singleton t, ?_⟩
      intro a ha hb
      simp only [List.mem_singleton] at hb
      exact hn (hb ▸ ha)

theorem extinfo_kind_optdepends (m : Mem) (lineptr : Nat) (slot type : pkgdetail_t)
    (h : extinfo_kind m lineptr = some (slot, type)) :
    type = PKGDETAIL_OPTDEPENDS → slot = PKGDETAIL_OPTDEPENDS := by
  unfold extinfo_kind at h
  split_ifs at h <;> cases h <;> decide

theorem query_details_optdepends (slot : pkgdetail_t) (v : Nat)
    (h : query_details slot = some v) : slot = PKGDETAIL_OPTDEPENDS → v = 2 := by
  intro hs
  subst hs
  cases h
  rfl

theorem extinfo_offers_optdepends (fuel : Nat) (m : Mem) (lineptr : Nat) :
    ∀ l, extinfo_offers fuel m lineptr query_details = some l →
      ∀ e ∈ l, e.2.1 = PKGDETAIL_OPTDEPENDS → e.1 = 2 := by
  induction fuel generalizing m lineptr with
  | zero => intro l h; simp [extinfo_offers] at h
  | succ fuel ih =>
    have next_ok : ∀ (m1 : Mem) (lp : Nat) (l : List (Nat × pkgdetail_t × List CStr)),
        (match strchr m1 lp '\n' with
          | none => some []
          | some lp1 => extinfo_offers fuel m1 lp1 query_details) = some l →
        ∀ e ∈ l, e.2.1 = PKGDETAIL_OPTDEPENDS → e.1 = 2 := by
      intro m1 lp l h
      cases hs : strchr m1 lp '\n' with
      | none =>
        rw [hs] at h
        cases h
        intro e he
        cases he
      | some lp1 =>
        rw [hs] at h
        exact ih m1 lp1 l h
    intro l h
    simp only [extinfo_offers] at h
    split at h
    · cases h
    · split at h
      · exact next_ok _ _ _ h
      · split at h
        · exact next_ok _ _ _ h
        · rename_i slot type hk
          split at h
          · exact next_ok _ _ _ h
          · rename_i v hv
            split at h
            · cases h
            · split at h
              · cases h
              · split at h
                · cases h
                · obtain ⟨rest, hrest, hl⟩ := Option.map_eq_some'.mp h
                  subst hl
                  intro e he
                  rcases List.mem_cons.mp he with he | he
                  · subst he
                    exact fun ht =>
                      query_details_optdepends slot v hv
                        (extinfo_kind_optdepends _ _ slot type hk ht)
                  · exact next_ok _ _ _ hrest e he

theorem apply_all_offers_nodup (k : Nat) (offers : List (Nat × pkgdetail_t × List CStr)) :
    (∀ e ∈ offers, e.1 = k → e.2.1 ≠ PKGDETAIL_OPTDEPENDS) →
    ∀ lists : Nat → List CStr, (lists k).Nodup → (apply_all_offers lists offers k).Nodup := by
  induction offers with
  | nil => intro _ lists h; exact h
  | cons e rest ih =>
    obtain ⟨v, type, o⟩ := e
    intro hk lists h
    simp only [apply_all_offers]
    apply ih (fun e he => hk e (List.mem_cons_of_mem _ he))
    by_cases hv : v = k
    · subst hv
      have ht : type ≠ PKGDETAIL_OPTDEPENDS := hk (v, type, o) (List.mem_cons_self _ _) rfl
      simp only [Function.update_same, apply_offers, if_neg ht]
      exact foldl_add_new_nodup o _ h
    · rw [Function.update_noteq (Ne.symm hv)]
      exact h

theorem extinfo_list_nodup (pkgbuild : Option Mem) (lists l : Nat → List CStr) (k : Nat)
    (hk : k ≠ 2) (hn : (lists k).Nodup)
    (h : pkgbuild_get_extinfo pkgbuild query_details lists = some l) : (l k).Nodup := by
  unfold pkgbuild_get_extinfo at h
  cases pkgbuild with
  | none => cases h; exact hn
  | some m =>
    simp only [extinfo_loop_eq] at h
    obtain ⟨offers, ho, hl⟩ := Option.map_eq_some'.mp h
    subst hl
    apply apply_all_offers_nodup k offers _ lists hn
    intro e he hek ht
    exact hk (hek ▸ extinfo_offers_optdepends _ _ _ offers ho e he ht)

/-- C16 (amended): for every recipe text, when the depends, makedepends, provides, conflicts
and replaces lists of a record hold no string twice (in particular when they are empty), the
five lists the recipe parser leaves hold no string twice, also when the recipe repeats an
entry inside an array or across arrays of one kind; an optdepends entry is appended each
time it is read. -/
theorem extinfo_lists_nodup (pkgbuild : Option Mem) (pkg pkg1 : aurpkg_t)
    (hd : pkg.depends.Nodup) (hm : pkg.makedepends.Nodup) (hp : pkg.provides.Nodup)
    (hc : pkg.conflicts.Nodup) (hr : pkg.replaces.Nodup)
    (h : aurpkg_get_extinfo pkgbuild pkg = some pkg1) :
    pkg1.depends.Nodup ∧ pkg1.makedepends.Nodup ∧ pkg1.provides.Nodup ∧
      pkg1.conflicts.Nodup ∧ pkg1.replaces.Nodup := by
  unfold aurpkg_get_extinfo at h
  obtain ⟨l, hl, h1⟩ := Option.map_eq_some'.mp h
  subst h1
  exact ⟨extinfo_list_nodup pkgbuild _ l 0 (by decide) hd hl,
    extinfo_list_nodup pkgbuild _ l 1 (by decide) hm hl,
    extinfo_list_nodup pkgbuild _ l 3 (by decide) hp hl,
    extinfo_list_nodup pkgbuild _ l 4 (by decide) hc hl,
    extinfo_list_nodup pkgbuild _ l 5 (by decide) hr hl⟩

/-- C16 (witness): a recipe that repeats `aa` inside a depends array and across two depends
arrays leaves the depends list `aa`, `bb`. -/
theorem extinfo_lists_nodup_witness :
    aurpkg_get_extinfo (some (mem_of repeated_depends_recipe)) aurpkg_zero =
        some { aurpkg_zero with depends := ["aa".toList, "bb".toList],
                                makedepends := ["cc".toList] } ∧
      (["aa".toList, "bb".toList].Nodup ∧ ["cc".toList].Nodup ∧ ([] : List CStr).Nodup ∧
        ([] : List CStr).Nodup ∧ ([] : List CStr).Nodup) :=
  ⟨by decide,
    extinfo_lists_nodup (some (mem_of repeated_depends_recipe)) aurpkg_zero
      { aurpkg_zero with depends := ["aa".toList, "bb".toList], makedepends := ["cc".toList] }
      List.nodup_nil List.nodup_nil List.nodup_nil List.nodup_nil List.nodup_nil (by decide)⟩

/-- C16 (counterexample): starting from empty lists, a recipe whose optdepends array holds
the entry `a: x` twice leaves an optdepends list that holds it twice. -/
theorem optdepends_repeated :
    (aurpkg_get_extinfo (some (mem_of repeated_optdepends_recipe)) aurpkg_zero).map
        (fun p => p.optdepends) = some ["a: x".toList, "a: x".toList] ∧
      ¬ ["a: x".toList, "a: x".toList].Nodup := by
  decide

/-! ## Conversion letters -/

theorem format_single (cfg : cfg_t) (pkg : aurpkg_t) (c : Char) (h0 : c ≠ NUL)
    (hfl : printf_flags.contains c = false) (hdg : digits.contains c = false) :
    print_pkg_formatted (format_cfg cfg c) pkg =
      (print_pkg_conversion (format_cfg cfg c) pkg [] c).map fun o => o ++ ['\n'] := by
  have hc : cstr ['%', c] 0 = ['%', c] := by
    have h1 : ('%' != NUL) = true := by decide
    have h2 : (c != NUL) = true := by simpa using h0
    simp [cstr, List.takeWhile, h1, h2]
  have hc1 : cstr (mem_of ['%', c]) 1 = [c] := by
    have h2 : (c != NUL) = true := by simpa using h0
    have h3 : (NUL != NUL) = false := by decide
    simp [cstr, mem_of, List.takeWhile, h2, h3]
  have hs1 : span (mem_of ['%', c]) 1 (fun x => printf_flags.contains x) = 0 := by
    simp only [span, hc1, List.takeWhile, hfl]
    rfl
  have hs2 : span (mem_of ['%', c]) 1 (fun x => digits.contains x) = 0 := by
    simp only [span, hc1, List.takeWhile, hdg]
    rfl
  have hp1 : peek (mem_of ['%', c]) 1 = c := rfl
  have hp0 : peek (mem_of ['%', c]) 0 = '%' := rfl
  unfold print_pkg_formatted
  simp only [format_cfg, hc]
  show Option.map _ (print_pkg_formatted_loop _ pkg (mem_of ['%', c]) 2 3 0) = _
  rw [print_pkg_formatted_loop, if_neg (by decide), if_pos hp0]
  simp only [hs1, hs2, Nat.add_zero, Nat.zero_add, hp1, List.take_zero]
  rw [if_neg (by decide)]
  cases print_pkg_conversion _ pkg _ c with
  | none => rfl
  | some o =>
    show Option.map _ (Option.map _ (print_pkg_formatted_loop _ pkg (mem_of ['%', c]) 2 2 2)) = _
    rw [print_pkg_formatted_loop, if_pos (Nat.le_refl 2)]
    simp

theorem format_table_letter (cfg : cfg_t) (pkg : aurpkg_t) (c : Char) (out : CStr)
    (h0 : c ≠ NUL) (hfl : printf_flags.contains c = false) (hdg : digits.contains c = false)
    (h : print_pkg_conversion (format_cfg cfg c) pkg [] c = some out) :
    print_pkg_formatted (format_cfg cfg c) pkg = some (out ++ ['\n']) := by
  rw [format_single cfg pkg c h0 hfl hdg, h]
  rfl

theorem isalpha_not_flag (c : Char) (hal : isalpha c = true) (hI : c ≠ 'I') :
    c ≠ NUL ∧ c ≠ '%' ∧ printf_flags.contains c = false ∧ digits.contains c = false := by
  have h : ∀ d : Char, isalpha d = false → c ≠ d := by
    intro d hd hcd
    rw [hcd, hd] at hal
    cases hal
  refine ⟨h _ (by decide), h _ (by decide), ?_, ?_⟩
  · have h1 := h '\'' (by decide)
    have h2 := h '-' (by decide)
    have h3 := h '+' (by decide)
    have h4 := h ' ' (by decide)
    have h5 := h '#' (by decide)
    have h6 := h '0' (by decide)
    simp [printf_flags, h1, h2, h3, h4, h5, h6, hI]
  · have h0 := h '0' (by decide)
    have h1 := h '1' (by decide)
    have h2 := h '2' (by decide)
    have h3 := h '3' (by decide)
    have h4 := h '4' (by decide)
    have h5 := h '5' (by decide)
    have h6 := h '6' (by decide)
    have h7 := h '7' (by decide)
    have h8 := h '8' (by decide)
    have h9 := h '9' (by decide)
    simp [digits, h0, h1, h2, h3, h4, h5, h6, h7, h8, h9]

theorem conversion_unknown (cfg : cfg_t) (pkg : aurpkg_t) (spec : CStr) (c : Char)
    (hc : c ∉ format_letters) (hp : c ≠ '%') :
    print_pkg_conversion cfg pkg spec c = some ['?'] := by
  simp only [format_letters, String.toList, List.mem_cons, List.not_mem_nil, or_false,
    not_or] at hc
  obtain ⟨h1, h2, h3, h4, h5, h6, h7, h8, h9, h10, h11, h12, h13, h14, h15, h16, h17, h18,
    h19⟩ := hc
  unfold print_pkg_conversion
  rw [if_neg h1, if_neg h2, if_neg h3, if_neg h4, if_neg h5, if_neg h6, if_neg h7, if_neg h8,
    if_neg h9, if_neg h10, if_neg h11, if_neg h12, if_neg h13, if_neg h14, if_neg h15,
    if_neg h16, if_neg h17, if_neg h18, if_neg h19, if_neg hp]

/-- C19 (amended): for every record, a format made of `%` and one letter is expanded
according to the documented table: `%n`, `%v`, `%d`, `%l`, `%u` give the name, version,
description, license and upstream URL when the record has them (the pointer is not NULL);
`%i`, `%o`, `%a`, `%s` give the decimal id, vote count, last-modified and first-submitted
values; `%m` gives the maintainer, or `(orphan)` when the record has none; `%t` gives `yes`
when the out-of-date flag is non-zero and `no` otherwise; `%%` gives `%`; and `%` followed
by a letter outside the table other than `I`, such as `z`, gives the single character `?`.
Each output ends with the line feed that closes the record. -/
theorem format_scalar_table (cfg : cfg_t) (pkg : aurpkg_t) :
    (pkg.name ≠ NULL →
      print_pkg_formatted (format_cfg cfg 'n') pkg = some (pkg.name ++ ['\n'])) ∧
    (pkg.ver ≠ NULL →
      print_pkg_formatted (format_cfg cfg 'v') pkg = some (pkg.ver ++ ['\n'])) ∧
    (pkg.desc ≠ NULL →
      print_pkg_formatted (format_cfg cfg 'd') pkg = some (pkg.desc ++ ['\n'])) ∧
    (pkg.lic ≠ NULL →
      print_pkg_formatted (format_cfg cfg 'l') pkg = some (pkg.lic ++ ['\n'])) ∧
    (pkg.url ≠ NULL →
      print_pkg_formatted (format_cfg cfg 'u') pkg = some (pkg.url ++ ['\n'])) ∧
    print_pkg_formatted (format_cfg cfg 'i') pkg = some (itoa10 pkg.id ++ ['\n']) ∧
    print_pkg_formatted (format_cfg cfg 'o') pkg = some (itoa10 pkg.votes ++ ['\n']) ∧
    print_pkg_formatted (format_cfg cfg 'a') pkg = some (itoa10 pkg.lastmod ++ ['\n']) ∧
    print_pkg_formatted (format_cfg cfg 's') pkg = some (itoa10 pkg.firstsub ++ ['\n']) ∧
    (∀ maint, pkg.maint = some maint →
      print_pkg_formatted (format_cfg cfg 'm') pkg = some (maint ++ ['\n'])) ∧
    (pkg.maint = none →
      print_pkg_formatted (format_cfg cfg 'm') pkg = some "(orphan)\n".toList) ∧
    (pkg.ood ≠ 0 → print_pkg_formatted (format_cfg cfg 't') pkg = some "yes\n".toList) ∧
    (pkg.ood = 0 → print_pkg_formatted (format_cfg cfg 't') pkg = some "no\n".toList) ∧
    print_pkg_formatted (format_cfg cfg '%') pkg = some "%\n".toList ∧
    print_pkg_formatted (format_cfg cfg 'z') pkg = some "?\n".toList ∧
    (∀ c, isalpha c = true → c ∉ format_letters → c ≠ 'I' →
      print_pkg_formatted (format_cfg cfg c) pkg = some "?\n".toList) := by
  refine ⟨?_, ?_, ?_, ?_, ?_, ?_, ?_, ?_, ?_, ?_, ?_, ?_, ?_, ?_, ?_, ?_⟩
  · intro hset
    exact format_table_letter cfg pkg 'n' _ (by decide) rfl rfl
      (by simp [print_pkg_conversion, printf_s_nil, printf_arg_set _ hset])
  · intro hset
    exact format_table_letter cfg pkg 'v' _ (by decide) rfl rfl
      (by simp [print_pkg_conversion, printf_s_nil, printf_arg_set _ hset])
  · intro hset
    exact format_table_letter cfg pkg 'd' _ (by decide) rfl rfl
      (by simp [print_pkg_conversion, printf_s_nil, printf_arg_set _ hset])
  · intro hset
    exact format_table_letter cfg pkg 'l' _ (by decide) rfl rfl
      (by simp [print_pkg_conversion, printf_s_nil, printf_arg_set _ hset])
  · intro hset
    exact format_table_letter cfg pkg 'u' _ (by decide) rfl rfl
      (by simp [print_pkg_conversion, printf_s_nil, printf_arg_set _ hset])
  · exact format_table_letter cfg pkg 'i' _ (by decide) rfl rfl
      (by simp [print_pkg_conversion, printf_s_nil])
  · exact format_table_letter cfg pkg 'o' _ (by decide) rfl rfl
      (by simp [print_pkg_conversion, printf_s_nil])
  · exact format_table_letter cfg pkg 'a' _ (by decide) rfl rfl
      (by simp [print_pkg_conversion, printf_s_nil])
  · exact format_table_letter cfg pkg 's' _ (by decide) rfl rfl
      (by simp [print_pkg_conversion, printf_s_nil])
  · intro maint hm
    exact format_table_letter cfg pkg 'm' _ (by decide) rfl rfl
      (by simp [print_pkg_conversion, printf_s_nil, hm])
  · intro hm
    exact format_table_letter cfg pkg 'm' "(orphan)".toList (by decide) rfl rfl
      (by simp [print_pkg_conversion, printf_s_nil, hm])
  · intro ho
    exact format_table_letter cfg pkg 't' "yes".toList (by decide) rfl rfl
      (by simp [print_pkg_conversion, printf_s_nil, ho])
  · intro ho
    exact format_table_letter cfg pkg 't' "no".toList (by decide) rfl rfl
      (by simp [print_pkg_conversion, printf_s_nil, ho])
  · exact format_table_letter cfg pkg '%' ['%'] (by decide) rfl rfl
      (by simp [print_pkg_conversion])
  · exact format_table_letter cfg pkg 'z' ['?'] (by decide) rfl rfl
      (conversion_unknown _ pkg [] 'z' (by decide) (by decide))
  · intro c hal hc hI
    obtain ⟨h0, hp, hfl, hdg⟩ := isalpha_not_flag c hal hI
    exact format_table_letter cfg pkg c _ h0 hfl hdg (conversion_unknown _ pkg [] c hc hp)

/-- C19 (witness): the record `foo` with the version `1.0`, no maintainer and the
out-of-date flag 0. -/
theorem format_scalar_table_witness :
    print_pkg_formatted (format_cfg cfg_init 'n') { pkg_named "foo" with ver := "1.0".toList } =
        some "foo\n".toList ∧
      print_pkg_formatted (format_cfg cfg_init 'v') { pkg_named "foo" with ver := "1.0".toList } =
        some "1.0\n".toList ∧
      print_pkg_formatted (format_cfg cfg_init 'm') { pkg_named "foo" with ver := "1.0".toList } =
        some "(orphan)\n".toList ∧
      print_pkg_formatted (format_cfg cfg_init 't') { pkg_named "foo" with ver := "1.0".toList } =
        some "no\n".toList :=
  ⟨(format_scalar_table cfg_init { pkg_named "foo" with ver := "1.0".toList }).1 (by decide),
   (format_scalar_table cfg_init { pkg_named "foo" with ver := "1.0".toList }).2.1 (by decide),
   (format_scalar_table cfg_init
     { pkg_named "foo" with ver := "1.0".toList }).2.2.2.2.2.2.2.2.2.2.1 rfl,
   (format_scalar_table cfg_init
     { pkg_named "foo" with ver := "1.0".toList }).2.2.2.2.2.2.2.2.2.2.2.2.1 rfl⟩

/-- C19 (counterexample): `I` is a letter outside the table, and the format `%In` renders
the name of the record, not `?` followed by `n`.  And for the record the sink builds from a
reply object that has the name `foo` and no version, `%v` gives `(null)`, which is not a
version of the record. -/
theorem format_flag_letter :
    isalpha 'I' = true ∧ 'I' ∉ format_letters ∧
      print_pkg_formatted { cfg_init with format := some "%In".toList } (pkg_named "foo") =
        some "foo\n".toList ∧
      (json_run cfg_init yajl_parser_init (stream_events name_only_reply)).map
          (fun p => p.pkglist.map
            (fun r => (r.ver, print_pkg_formatted (format_cfg cfg_init 'v') r))) =
        some [(NULL, some "(null)\n".toList)] := by
  decide

/-! ## Lists in a custom format -/

/-- C20: with the format `%D|%n`, the list delimiter `, ` and the depends list `aa`, `bb`
of the record `foo`, `print_pkg_formatted` writes `aa, bb`, a line feed, and `|foo` on a
second line: `print_extinfo_list` ends the list with a line feed of its own. -/
theorem format_list_line_feed :
    print_pkg_formatted depends_format_cfg depends_pkg = some "aa, bb\n|foo\n".toList ∧
      print_extinfo_list 0 depends_pkg.depends none depends_format_cfg.delim false =
        some "aa, bb\n".toList := by
  decide

/-! ## Tarball extraction -/

/-- C15: when the extraction of the second of three entries answers `ARCHIVE_WARN` with the
error number 22, `archive_extract_file` returns 22 and the third entry is never handed to
`archive_read_extract`. -/
theorem archive_extract_warn_stops :
    archive_extract_file ARCHIVE_OK warn_entries (some none) =
      some (22, some (some "pkg".toList), [some "pkg/".toList, some "pkg/PKGBUILD".toList]) := by
  decide

/-! ## Sync databases -/

/-- C17: for the text made of the lines ` [core]` and `[extra]`, `alpm_init` registers
`extra` alone: the first line is trimmed to `[core]`, six bytes, but `strtrim` answers 5, so
that the byte compared with `]` is `e`. -/
theorem alpm_init_indented_section :
    alpm_init cfg_init true (some (fgets_lines indented_conf)) =
        some (some (cfg_init, ["extra".toList])) ∧
      fgets_lines indented_conf = [" [core]\n".toList, "[extra]\n".toList] ∧
      cstr (strtrim (mem_of " [core]\n".toList) 0).1 0 = "[core]".toList ∧
      (strtrim (mem_of " [core]\n".toList) 0).2 = 5 := by
  decide

/-! ## Startup -/

/-- C18: with `--timeout -5` on the command line and `ConnectTimeout = 30` in the
configuration file, both parsers succeed and `main` runs with the timeout `-5`; the number
of threads is the default 10. -/
theorem main_negative_timeout :
    (parse_options timeout_env.isatty cfg_init
        [getopt_t.opt_s, getopt_t.OP_TIMEOUT "-5".toList] ["foo".toList]).1 = 0 ∧
      (parse_configfile timeout_env (parse_options timeout_env.isatty cfg_init
        [getopt_t.opt_s, getopt_t.OP_TIMEOUT "-5".toList] ["foo".toList]).2).map
          (fun r => r.1) = some 0 ∧
      (main literal_regex timeout_env [getopt_t.opt_s, getopt_t.OP_TIMEOUT "-5".toList]
        ["foo".toList]).map (fun r => (r.cfg.timeout, r.cfg.maxthreads, r.workers)) =
          some (-5, 10, 1) := by
  decide

/-- C13: when the command line is accepted, `main` returns 1 and creates no thread if
`parse_configfile` fails, and returns the non-zero answer of `set_working_dir` and creates
no thread if that fails; but when these and `curl_global_init` succeed and
`alpm_initialize` hands out no handle, `main` creates no thread and returns 0. -/
theorem main_startup_failure {R : Type} (rx : regex_t R) (env : main_env)
    (opts : List getopt_t) (args : List CStr)
    (hpo : (parse_options env.isatty cfg_init opts args).1 = 0) :
    (∀ pc, parse_configfile env (parse_options env.isatty cfg_init opts args).2 = some pc →
      pc.1 ≠ 0 →
      ∃ r, main rx env opts args = some r ∧ r.ret = 1 ∧ r.workers = 0) ∧
    (∀ pc, parse_configfile env (parse_options env.isatty cfg_init opts args).2 = some pc →
      pc.1 = 0 → (set_working_dir env (strings_init (main_fallback pc.2))).1 ≠ 0 →
      ∃ r, main rx env opts args = some r ∧ r.ret ≠ 0 ∧ r.workers = 0) ∧
    (∀ pc, parse_configfile env (parse_options env.isatty cfg_init opts args).2 = some pc →
      pc.1 = 0 → (set_working_dir env (strings_init (main_fallback pc.2))).1 = 0 →
      env.curl_global_init = 0 → env.alpm_handle_ok = false →
      ∃ r, main rx env opts args = some r ∧ r.ret = 0 ∧ r.workers = 0) := by
  have h0 : ¬ ((parse_options env.isatty cfg_init opts args).1 = 3 ∨
      (parse_options env.isatty cfg_init opts args).1 = 1 ∨
      (parse_options env.isatty cfg_init opts args).1 = 2) := by
    rw [hpo]
    decide
  refine ⟨?_, ?_, ?_⟩
  · intro pc hpc hne
    refine ⟨⟨1, 0, pc.2, [], []⟩, ?_, rfl, rfl⟩
    unfold main
    rw [if_neg h0, hpc]
    show (if pc.1 ≠ 0 then _ else _) = _
    rw [if_pos hne]
  · intro pc hpc hz hwd
    refine ⟨⟨(set_working_dir env (strings_init (main_fallback pc.2))).1, 0,
      (set_working_dir env (strings_init (main_fallback pc.2))).2, [], []⟩, ?_, hwd, rfl⟩
    unfold main
    rw [if_neg h0, hpc]
    show (if pc.1 ≠ 0 then _ else _) = _
    rw [if_neg (not_not.mpr hz)]
    show (if (set_working_dir env (strings_init (main_fallback pc.2))).1 ≠ 0 then _ else _) = _
    rw [if_pos hwd]
  · intro pc hpc hz hwd hcurl halpm
    refine ⟨⟨0, 0, (set_working_dir env (strings_init (main_fallback pc.2))).2, [], []⟩, ?_,
      rfl, rfl⟩
    unfold main
    rw [if_neg h0, hpc]
    show (if pc.1 ≠ 0 then _ else _) = _
    rw [if_neg (not_not.mpr hz)]
    show (if (set_working_dir env (strings_init (main_fallback pc.2))).1 ≠ 0 then _ else _) = _
    rw [if_neg (not_not.mpr hwd), if_neg (not_not.mpr hcurl), halpm, hcurl]
    rfl

/-- C13 (witness): a search for `foo` in an environment where only `alpm_initialize`
fails exits with 0. -/
theorem main_startup_failure_witness :
    ∃ r, main literal_regex { example_env with alpm_handle_ok := false } [getopt_t.opt_s]
        ["foo".toList] = some r ∧ r.ret = 0 ∧ r.workers = 0 :=
  (main_startup_failure literal_regex { example_env with alpm_handle_ok := false }
    [getopt_t.opt_s] ["foo".toList] (by decide)).2.2
    (0, { cfg_init with opmask := OP_SEARCH, targets := ["foo".toList] }) (by decide) rfl
    (by decide) rfl rfl

/-! ## Recipe lines, comments and runs -/

/-- C22: for the buffer made of the single line `depends=(foo bar)` the recipe parser
leaves the depends list empty: `strtrim(++lineptr)` steps over the first byte of the
buffer, so the first line is read as `epends=(foo bar)`.  Behind a line feed the same line
yields `foo`, `bar`.  When the same line ends the buffer behind nine blanks, the length
returned by `strtrim` is 8, `memchr` does not reach the parenthesis and the scan for the
end of the array starts outside the buffer. -/
theorem extinfo_first_line_skipped :
    (aurpkg_get_extinfo (some (mem_of "depends=(foo bar)".toList)) aurpkg_zero).map
        (fun p => p.depends) = some [] ∧
      (aurpkg_get_extinfo (some (mem_of "\ndepends=(foo bar)".toList)) aurpkg_zero).map
        (fun p => p.depends) = some ["foo".toList, "bar".toList] ∧
      (strtrim (mem_of "\n         depends=(foo bar)".toList) 1).2 = 8 ∧
      aurpkg_get_extinfo (some (mem_of "\n         depends=(foo bar)".toList)) aurpkg_zero =
        none := by
  decide

/-- C25: for the array text `aa #note<LF>bb` `parse_bash_array` returns `aa` alone: the
token `#note` already ends at the line feed, and the `strtok_r(NULL, "\n", &saveptr)` meant
to skip the rest of the line consumes `bb`.  For `aa # a note<LF>bb` the result is `aa`,
`bb`. -/
theorem comment_token_eats_next_line :
    (parse_bash_array [] (mem_of "aa #note\nbb".toList) 0 PKGDETAIL_DEPENDS).map
        (fun r => r.2) = some ["aa".toList] ∧
      (parse_bash_array [] (mem_of "aa # a note\nbb".toList) 0 PKGDETAIL_DEPENDS).map
        (fun r => r.2) = some ["aa".toList, "bb".toList] := by
  decide

/-- C26: for the optdepends array text `'foo: bar' baz ` `parse_bash_array` returns
`foo: bar`, `ba`: `*(ptr - 1) = 0` ends the unquoted run one byte before the whitespace
that follows it. -/
theorem optdepends_run_cut :
    (parse_bash_array [] (mem_of "'foo: bar' baz ".toList) 0 PKGDETAIL_OPTDEPENDS).map
        (fun r => r.2) = some ["foo: bar".toList, "ba".toList] := by
  decide

/-! ## Trimming -/

/-- C30: for the string ` ab ` `strtrim` rewrites the buffer to `ab` and returns 1, not the
length 2: the value returned is `right - left`, and `left` was advanced past the leading
blank.  For `  a` the difference is negative and the value returned is `2^64 - 1`. -/
theorem strtrim_return_value :
    cstr (strtrim (mem_of " ab ".toList) 0).1 0 = "ab".toList ∧
      (strtrim (mem_of " ab ".toList) 0).2 = 1 ∧
      cstr (strtrim (mem_of "  a".toList) 0).1 0 = "a".toList ∧
      (strtrim (mem_of "  a".toList) 0).2 = 2 ^ 64 - 1 := by
  decide

/-! ## String values -/

theorem KEY_IS_at_key (p : yajl_parser_t) (k : String) (h : at_key p k) (k1 : String) :
    KEY_IS p k1 = strncmp_eq k.toList k1.toList k.length := by
  unfold KEY_IS
  rw [h.1, h.2]

theorem json_map_key_at_key (p : yajl_parser_t) (k : String) (rest : List Char)
    (hlen : k.length < 32) (hk : ∀ c ∈ k.toList, c ≠ NUL) :
    ∃ p1, json_map_key p (k.toList ++ rest) k.length = some p1 ∧ at_key p1 k ∧
      p1.aurpkg = p.aurpkg ∧ p1.pkglist = p.pkglist := by
  have hl : k.toList.length = k.length := rfl
  refine ⟨{ p with keysz := k.length,
                    key := (k.toList ++ rest).take k.length ++ [NUL] ++
                      p.key.drop (k.length + 1) },
    by unfold json_map_key; rw [if_neg (by omega)], ⟨?_, rfl⟩, rfl, rfl⟩
  show cstr ((k.toList ++ rest).take k.length ++ [NUL] ++ p.key.drop (k.length + 1)) 0 = _
  rw [← hl, List.take_left, List.append_assoc]
  exact cstr_split k.toList _ hk 0 (Nat.zero_le _)

theorem isDigit_not (c : Char) (hc : c.isDigit = true) (d : Char) (hd : d.isDigit = false) :
    c ≠ d := by
  intro h
  rw [h, hd] at hc
  cases hc

theorem isDigit_not_space (c : Char) (hc : c.isDigit = true) : isspace c = false := by
  have h1 := isDigit_not c hc ' ' (by decide)
  have h2 := isDigit_not c hc '\t' (by decide)
  have h3 := isDigit_not c hc '\n' (by decide)
  have h4 := isDigit_not c hc (Char.ofNat 11) (by decide)
  have h5 := isDigit_not c hc (Char.ofNat 12) (by decide)
  have h6 := isDigit_not c hc '\r' (by decide)
  simp [isspace, h1, h2, h3, h4, h5, h6]

theorem strtol_decimal (d : List Char) (hd : decimal_string d) :
    strtol d = (min (decimal_value d : Int) (2 ^ 63 - 1), d.length) := by
  obtain ⟨hne, hdig⟩ := hd
  cases d with
  | nil => exact absurd rfl hne
  | cons c cs =>
    have hc : c.isDigit = true := hdig c (List.mem_cons_self _ _)
    have hws : (c :: cs).takeWhile isspace = [] := by
      simp [List.takeWhile, isDigit_not_space c hc]
    have hm : c ≠ '-' := isDigit_not c hc '-' (by decide)
    have hp : c ≠ '+' := isDigit_not c hc '+' (by decide)
    have hall : (c :: cs).takeWhile Char.isDigit = c :: cs :=
      List.takeWhile_eq_self_iff.mpr hdig
    unfold strtol
    simp only [hws, List.length_nil, List.drop_zero]
    have hsgn : (match c :: cs with
        | '-' :: _ => 1
        | '+' :: _ => 1
        | _ => 0) = 0 := by
      split
      · rename_i h; exact absurd (List.cons.inj h).1 hm
      · rename_i h; exact absurd (List.cons.inj h).1 hp
      · rfl
    have hneg : (match c :: cs with
        | '-' :: _ => true
        | _ => false) = false := by
      split
      · rename_i h; exact absurd (List.cons.inj h).1 hm
      · rfl
    rw [hsgn, hneg]
    simp only [Nat.add_zero, List.drop_zero, hall, Nat.zero_add]
    rw [if_neg (by simp)]
    rfl

theorem NUMCOPY_decimal (d rest : List Char) (hd : decimal_string d) (hlen : d.length < 32) :
    NUMCOPY (d ++ rest) d.length = some (min (decimal_value d : Int) (2 ^ 63 - 1)) := by
  have hnul : ∀ c ∈ d, c ≠ NUL := fun c hc => isDigit_not c (hd.2 c hc) NUL (by decide)
  unfold NUMCOPY
  rw [if_neg (by omega), List.take_left]
  have h := cstr_split d [] hnul 0 (Nat.zero_le _)
  rw [List.drop_zero] at h
  rw [h, strtol_decimal d hd]

theorem to_int_small (v : Nat) (h : v < 2 ^ 31) :
    to_int (min (v : Int) (2 ^ 63 - 1)) = v := by
  unfold to_int
  omega

theorem long_small (v : Nat) (h : v < 2 ^ 63) : min (v : Int) (2 ^ 63 - 1) = v := by
  omega

/-- C27 (amended): for each of the thirteen wire keys a string value delivered to
`json_string` after that key updates the record field of that key and nothing else of the
parser state (`URL` and `URLPath` do not collide); the numeric fields take `strtol` of a
value shorter than 32 bytes, which for a string of decimal digits is its base-10 value when
that value is below `2^31` for `ID`, `CategoryID` and `NumVotes`, and below `2^63` for
`FirstSubmitted` and `LastModified`. -/
theorem json_string_field (p : yajl_parser_t) (data : Mem) (size : Nat) :
    (at_key p "Name" → json_string p data size =
      some { p with aurpkg := { p.aurpkg with name := VALDUPE data size } }) ∧
    (at_key p "Version" → json_string p data size =
      some { p with aurpkg := { p.aurpkg with ver := VALDUPE data size } }) ∧
    (at_key p "Description" → json_string p data size =
      some { p with aurpkg := { p.aurpkg with desc := VALDUPE data size } }) ∧
    (at_key p "URL" → json_string p data size =
      some { p with aurpkg := { p.aurpkg with url := VALDUPE data size } }) ∧
    (at_key p "URLPath" → json_string p data size =
      some { p with aurpkg := { p.aurpkg with urlpath := VALDUPE data size } }) ∧
    (at_key p "License" → json_string p data size =
      some { p with aurpkg := { p.aurpkg with lic := VALDUPE data size } }) ∧
    (at_key p "Maintainer" → json_string p data size =
      some { p with aurpkg := { p.aurpkg with maint := some (VALDUPE data size) } }) ∧
    (at_key p "OutOfDate" → json_string p data size =
      some { p with aurpkg := { p.aurpkg with ood := ((peek data 0).toNat : Int) - 48 } }) ∧
    (at_key p "ID" → size < 32 → json_string p data size =
      some { p with aurpkg := { p.aurpkg with id := to_int (strtol (VALDUPE data size)).1 } }) ∧
    (at_key p "CategoryID" → size < 32 → json_string p data size =
      some { p with aurpkg := { p.aurpkg with cat := to_int (strtol (VALDUPE data size)).1 } }) ∧
    (at_key p "NumVotes" → size < 32 → json_string p data size =
      some { p with aurpkg := { p.aurpkg with votes := to_int (strtol (VALDUPE data size)).1 } }) ∧
    (at_key p "FirstSubmitted" → size < 32 → json_string p data size =
      some { p with aurpkg := { p.aurpkg with firstsub := (strtol (VALDUPE data size)).1 } }) ∧
    (at_key p "LastModified" → size < 32 → json_string p data size =
      some { p with aurpkg := { p.aurpkg with lastmod := (strtol (VALDUPE data size)).1 } }) ∧
    (∀ d rest, decimal_string d → d.length < 32 →
      (at_key p "ID" → decimal_value d < 2 ^ 31 → json_string p (d ++ rest) d.length =
        some { p with aurpkg := { p.aurpkg with id := decimal_value d } }) ∧
      (at_key p "CategoryID" → decimal_value d < 2 ^ 31 →
        json_string p (d ++ rest) d.length =
          some { p with aurpkg := { p.aurpkg with cat := decimal_value d } }) ∧
      (at_key p "NumVotes" → decimal_value d < 2 ^ 31 →
        json_string p (d ++ rest) d.length =
          some { p with aurpkg := { p.aurpkg with votes := decimal_value d } }) ∧
      (at_key p "FirstSubmitted" → decimal_value d < 2 ^ 63 →
        json_string p (d ++ rest) d.length =
          some { p with aurpkg := { p.aurpkg with firstsub := decimal_value d } }) ∧
      (at_key p "LastModified" → decimal_value d < 2 ^ 63 →
        json_string p (d ++ rest) d.length =
          some { p with aurpkg := { p.aurpkg with lastmod := decimal_value d } })) := by
  have hnum : size < 32 → NUMCOPY data size = some (strtol (VALDUPE data size)).1 := by
    intro h
    unfold NUMCOPY VALDUPE
    rw [if_neg (by omega)]
  refine ⟨?_, ?_, ?_, ?_, ?_, ?_, ?_, ?_, ?_, ?_, ?_, ?_, ?_, ?_⟩
  · intro h
    unfold json_string
    simp only [KEY_IS_at_key p _ h]
    simp +decide
  · intro h
    unfold json_string
    simp only [KEY_IS_at_key p _ h]
    simp +decide
  · intro h
    unfold json_string
    simp only [KEY_IS_at_key p _ h]
    simp +decide
  · intro h
    unfold json_string
    simp only [KEY_IS_at_key p _ h]
    simp +decide
  · intro h
    unfold json_string
    simp only [KEY_IS_at_key p _ h]
    simp +decide
  · intro h
    unfold json_string
    simp only [KEY_IS_at_key p _ h]
    simp +decide
  · intro h
    unfold json_string
    simp only [KEY_IS_at_key p _ h]
    simp +decide
  · intro h
    unfold json_string
    simp only [KEY_IS_at_key p _ h]
    simp +decide
  · intro h hs
    unfold json_string
    simp only [KEY_IS_at_key p _ h, hnum hs]
    simp +decide
  · intro h hs
    unfold json_string
    simp only [KEY_IS_at_key p _ h, hnum hs]
    simp +decide
  · intro h hs
    unfold json_string
    simp only [KEY_IS_at_key p _ h, hnum hs]
    simp +decide
  · intro h hs
    unfold json_string
    simp only [KEY_IS_at_key p _ h, hnum hs]
    simp +decide
  · intro h hs
    unfold json_string
    simp only [KEY_IS_at_key p _ h, hnum hs]
    simp +decide
  · intro d rest hd hlen
    have hn := NUMCOPY_decimal d rest hd hlen
    refine ⟨?_, ?_, ?_, ?_, ?_⟩
    · intro h hv
      unfold json_string
      simp only [KEY_IS_at_key p _ h, hn]
      simp +decide
      exact to_int_small _ hv
    · intro h hv
      unfold json_string
      simp only [KEY_IS_at_key p _ h, hn]
      simp +decide
      exact to_int_small _ hv
    · intro h hv
      unfold json_string
      simp only [KEY_IS_at_key p _ h, hn]
      simp +decide
      exact to_int_small _ hv
    · intro h hv
      unfold json_string
      simp only [KEY_IS_at_key p _ h, hn, long_small _ hv]
      simp +decide
    · intro h hv
      unfold json_string
      simp only [KEY_IS_at_key p _ h, hn, long_small _ hv]
      simp +decide

/-- C27 (counterexample): the decimal string `4294967297`, ten bytes long, delivered after
the key `ID` leaves the id 1. -/
theorem json_string_id_wraps :
    (json_run cfg_init yajl_parser_init [key_event "ID", string_event "4294967297"]).map
        (fun p => p.aurpkg.id) = some 1 ∧
      decimal_value "4294967297".toList = 4294967297 ∧
      "4294967297".toList.length = 10 ∧
      (∀ c ∈ "4294967297".toList, c.isDigit = true) := by
  decide

/-! ## Download task -/

theorem download_query_nil (fuel : Nat) (env : download_env) (st : download_state) (arg : CStr)
    (h : env.task_query arg = []) :
    download (fuel + 1) env st arg = some ([], st.note (download_note.no_results arg)) := by
  unfold download
  simp only [h]

theorem download_exists (fuel : Nat) (env : download_env) (st : download_state) (arg : CStr)
    (result : aurpkg_t) (rest : List aurpkg_t) (h : env.task_query arg = result :: rest)
    (he : env.access_f_ok arg = true ∧ ¬ st.cfg.force = true) :
    download (fuel + 1) env st arg = some ([], st.note (download_note.already_exists arg)) := by
  unfold download
  simp only [h]
  rw [if_pos he]

set_option maxRecDepth 100000 in
/-- C29: the info query for `long_name` returns one record, whose `urlpath` has 141 bytes,
and nothing named after the target exists.  `url_escape` copies the escaped path to
`char buf[128]` with `strcat`, which writes behind the buffer, so `download` does not
return the list of the query.  For `cower`, whose path is short, it returns the list (with
the `urlpath` of the record cut at its first `/` by the `strsep` of `url_escape`). -/
theorem download_long_urlpath :
    (long_download_env.task_query long_name).map (fun pkg => pkg.urlpath.length) = [141] ∧
    long_download_env.access_f_ok long_name = false ∧
    url_escape (mem_of long_urlpath) (some 0) 0 (some ['/']) = none ∧
    download 1 long_download_env plain_download_state long_name = none ∧
    (download 1 long_download_env plain_download_state "cower".toList).map
        (fun r => (r.1.map (fun pkg => (pkg.name, pkg.urlpath)), r.2.notes)) =
      some ([("cower".toList, [])],
        [download_note.fetch "cower".toList,
         download_note.extract "cower".toList [some "pkg/".toList],
         download_note.downloaded "cower".toList]) := by
  decide

/-- C21: the recipe of `a` names the dependency `libfoo>=1`, which the local database
satisfies.  `resolve_dependencies` still appends `libfoo` to `cfg.targets`, the list the
work queue walks, and a worker that runs the targets `a`, `c` alone takes `libfoo` from the
queue after `c` and downloads it. -/
theorem satisfied_dependency_enqueued :
    (resolve_dependencies example_download_env (fun s _ => some s) example_download_state
        "a".toList (some "a".toList)).map (fun r => (r.2.cfg.targets, r.2.notes)) =
      some (["a".toList, "c".toList, "libfoo".toList],
        [download_note.satisfied "libfoo>=1".toList]) ∧
    (thread_pool (task_download 2 example_download_env) 4 example_download_state
        (some 0) []).map (fun r => (r.1.map (fun pkg => pkg.name), r.2.notes)) =
      some (["a".toList, "c".toList, "libfoo".toList],
        [download_note.fetch "a".toList,
         download_note.extract "a".toList [some "a/".toList],
         download_note.downloaded "a".toList,
         download_note.satisfied "libfoo>=1".toList,
         download_note.fetch "c".toList,
         download_note.extract "c".toList [some "c/".toList],
         download_note.downloaded "c".toList,
         download_note.fetch "libfoo".toList,
         download_note.extract "libfoo".toList [some "libfoo/".toList],
         download_note.downloaded "libfoo".toList]) := by
  decide

/-! ## Extent of an array -/

theorem peek_append_cons (a b : List Char) (c : Char) : peek (a ++ c :: b) a.length = c := by
  unfold peek
  rw [List.getD_eq_getElem?_getD, List.getElem?_append_right (Nat.le_refl _)]
  simp

theorem poke_append_cons (a b : List Char) (c d : Char) :
    poke (a ++ c :: b) a.length d = a ++ d :: b := by
  unfold poke
  rw [List.set_append_right _ _ (Nat.le_refl _)]
  simp

theorem is_delim_ne_nul (c : Char) (h : is_delim c = true) : c ≠ NUL := by
  intro hc
  rw [hc] at h
  exact absurd h (by decide)

theorem span_split (pre a : List Char) (b : Char) (rest : List Char) (pred : Char → Bool)
    (ha : ∀ c ∈ a, pred c = true ∧ c ≠ NUL) (hb : pred b = false ∨ b = NUL) :
    span (pre ++ a ++ b :: rest) pre.length pred = a.length := by
  unfold span cstr
  rw [List.append_assoc, List.drop_left]
  induction a with
  | nil =>
    rcases hb with hb | hb
    · by_cases hn : b = NUL
      · subst hn
        simp [List.takeWhile]
      · have : (b != NUL) = true := by simpa using hn
        simp [List.takeWhile, this, hb]
    · subst hb
      simp [List.takeWhile]
  | cons x xs ih =>
    have hx := ha x (List.mem_cons_self _ _)
    have hxn : (x != NUL) = true := by simpa using hx.2
    have h := ih (fun c hc => ha c (List.mem_cons_of_mem _ hc))
    simp only [List.cons_append, List.takeWhile, hxn, hx.1, List.length_cons]
    exact congrArg (· + 1) h

theorem span_split_end (pre a rest : List Char) (pred : Char → Bool)
    (ha : ∀ c ∈ a, pred c = true ∧ c ≠ NUL) :
    span (pre ++ a ++ NUL :: rest) pre.length pred = a.length :=
  span_split pre a NUL rest pred ha (Or.inr rfl)

theorem cstr_at (pre t rest : List Char) (ht : ∀ c ∈ t, c ≠ NUL) :
    cstr (pre ++ t ++ NUL :: rest) pre.length = t := by
  unfold cstr
  rw [List.append_assoc, List.drop_left]
  exact takeWhile_append_stop t rest ht

theorem strtok_r_none (pre d junk : List Char) (s : Option Nat) (saveptr : Nat)
    (hs : s.getD saveptr = pre.length) (hd : ∀ c ∈ d, is_delim c = true) :
    strtok_r (pre ++ d ++ NUL :: junk) s bash_delims saveptr =
      (pre ++ d ++ NUL :: junk, none,
        if d = [] then pre.length else pre.length + d.length) := by
  unfold strtok_r
  simp only [hs]
  cases d with
  | nil =>
    have hp : peek (pre ++ [] ++ NUL :: junk) pre.length = NUL := by
      simpa using peek_append_cons pre junk NUL
    rw [if_pos hp]
    simp
  | cons x xs =>
    have hx : x ≠ NUL := is_delim_ne_nul x (hd x (List.mem_cons_self _ _))
    have hp : peek (pre ++ x :: xs ++ NUL :: junk) pre.length = x := by
      rw [List.append_assoc]
      exact peek_append_cons pre _ x
    have hsp : span (pre ++ x :: xs ++ NUL :: junk) pre.length
        (fun c => bash_delims.contains c) = (x :: xs).length :=
      span_split_end pre (x :: xs) junk _
        (fun c hc => ⟨hd c hc, is_delim_ne_nul c (hd c hc)⟩)
    have hp1 : peek (pre ++ x :: xs ++ NUL :: junk) (pre.length + (x :: xs).length) = NUL := by
      have := peek_append_cons (pre ++ x :: xs) junk NUL
      simpa using this
    rw [if_neg (by rw [hp]; exact hx), hsp, if_pos hp1]
    simp

theorem strtok_r_token (pre d t : List Char) (x : Char) (rest : List Char) (s : Option Nat)
    (saveptr : Nat) (hs : s.getD saveptr = pre.length) (hd : ∀ c ∈ d, is_delim c = true)
    (ht : ∀ c ∈ t, is_delim c = false ∧ c ≠ NUL) (hne : t ≠ [])
    (hx : is_delim x = true ∨ x = NUL) :
    strtok_r (pre ++ d ++ t ++ x :: rest) s bash_delims saveptr =
      (pre ++ d ++ t ++ NUL :: rest, some (pre.length + d.length),
        if x = NUL then pre.length + d.length + t.length
        else pre.length + d.length + t.length + 1) := by
  obtain ⟨c, t1, rfl⟩ : ∃ c t1, t = c :: t1 := by
    cases t with
    | nil => exact absurd rfl hne
    | cons c t1 => exact ⟨c, t1, rfl⟩
  have hc := ht c (List.mem_cons_self _ _)
  have hm : pre ++ d ++ c :: t1 ++ x :: rest = pre ++ d ++ c :: (t1 ++ x :: rest) := by simp
  have hl : (pre ++ d).length = pre.length + d.length := by simp
  have hl2 : (pre ++ d ++ c :: t1).length = pre.length + d.length + (c :: t1).length := by
    simp [Nat.add_assoc]
  -- the first byte is not the terminator
  have hp0 : peek (pre ++ d ++ c :: t1 ++ x :: rest) pre.length ≠ NUL := by
    cases d with
    | nil =>
      have : peek (pre ++ [] ++ c :: t1 ++ x :: rest) pre.length = c := by
        have := peek_append_cons pre (t1 ++ x :: rest) c
        simpa using this
      rw [this]
      exact hc.2
    | cons y ys =>
      have : peek (pre ++ y :: ys ++ c :: t1 ++ x :: rest) pre.length = y := by
        have := peek_append_cons pre (ys ++ c :: t1 ++ x :: rest) y
        simpa using this
      rw [this]
      exact is_delim_ne_nul y (hd y (List.mem_cons_self _ _))
  have hsp1 : span (pre ++ d ++ c :: t1 ++ x :: rest) pre.length
      (fun a => bash_delims.contains a) = d.length := by
    rw [hm]
    exact span_split pre d c _ _ (fun a ha => ⟨hd a ha, is_delim_ne_nul a (hd a ha)⟩)
      (Or.inl hc.1)
  have hp1 : peek (pre ++ d ++ c :: t1 ++ x :: rest) (pre.length + d.length) = c := by
    rw [hm, ← hl]
    exact peek_append_cons _ _ c
  have hsp2 : span (pre ++ d ++ c :: t1 ++ x :: rest) (pre.length + d.length)
      (fun a => !bash_delims.contains a) = (c :: t1).length := by
    rw [← hl]
    refine span_split (pre ++ d) (c :: t1) x rest _ (fun a ha => ⟨?_, (ht a ha).2⟩) ?_
    · have := (ht a ha).1
      unfold is_delim at this
      show (!bash_delims.contains a) = true
      rw [this]
      rfl
    · rcases hx with hx | hx
      · unfold is_delim at hx
        refine Or.inl ?_
        show (!bash_delims.contains x) = false
        rw [hx]
        rfl
      · exact Or.inr hx
  have hp2 : peek (pre ++ d ++ c :: t1 ++ x :: rest)
      (pre.length + d.length + (c :: t1).length) = x := by
    rw [← hl2]
    exact peek_append_cons _ _ x
  have hpoke : poke (pre ++ d ++ c :: t1 ++ x :: rest)
      (pre.length + d.length + (c :: t1).length) NUL = pre ++ d ++ c :: t1 ++ NUL :: rest := by
    rw [← hl2]
    exact poke_append_cons _ _ x NUL
  unfold strtok_r
  simp only [hs]
  rw [if_neg hp0, hsp1, hp1, if_neg hc.2, hsp2, hp2, hpoke]
  by_cases hxn : x = NUL
  · rw [if_pos hxn, if_pos hxn, hxn]
  · rw [if_neg hxn, if_neg hxn]

theorem token_kept_iff (u : List Char) (pk : Char) (hpk : pk = u.headD NUL)
    (hu : ∀ c ∈ u, c ≠ NUL) :
    (pk = NUL ∨ u.length < 2 ∨ pk = '$') ↔ (u.length < 2 ∨ u.head? = some '$') := by
  cases u with
  | nil => simp
  | cons y ys =>
    have hy : y ≠ NUL := hu y (List.mem_cons_self _ _)
    simp only [List.headD_cons] at hpk
    subst hpk
    simp [hy]

theorem peek_headD (pre u rest : List Char) :
    peek (pre ++ u ++ NUL :: rest) pre.length = u.headD NUL := by
  cases u with
  | nil => simpa using peek_append_cons pre rest NUL
  | cons y ys =>
    have := peek_append_cons pre (ys ++ NUL :: rest) y
    simpa using this

theorem parse_bash_token_plain (m : Mem) (pre u rest : List Char) (saveptr : Nat)
    (hm : m = pre ++ u ++ NUL :: rest) (hu : ∀ c ∈ u, c ≠ NUL) :
    (if peek m pre.length = NUL ∨ strlen m pre.length < 2 ∨ peek m pre.length = '$' then
        (m, saveptr, (none : Option CStr))
      else (m, saveptr, some (cstr m pre.length))) =
      (m, saveptr, if u.length < 2 ∨ u.head? = some '$' then none else some u) := by
  have hc : cstr m pre.length = u := by rw [hm]; exact cstr_at pre u rest hu
  have hp : peek m pre.length = u.headD NUL := by rw [hm]; exact peek_headD pre u rest
  have hiff := token_kept_iff u (peek m pre.length) hp hu
  unfold strlen
  rw [hc]
  by_cases h : u.length < 2 ∨ u.head? = some '$'
  · rw [if_pos (hiff.mpr h), if_pos h]
  · rw [if_neg (fun h1 => h (hiff.mp h1)), if_neg h]

theorem parse_bash_token_spec (pre t rest : List Char) (saveptr : Nat) (hne : t ≠ [])
    (ht : ∀ c ∈ t, c ≠ NUL) (hcomment : t.head? ≠ some '#') (hq : well_quoted t)
    (hsp : pre.length + t.length ≤ saveptr) :
    ∃ m2, parse_bash_token (pre ++ t ++ NUL :: rest) pre.length saveptr =
        (m2, saveptr, survives t) ∧
      m2.drop saveptr = (pre ++ t ++ NUL :: rest).drop saveptr ∧
      m2.length = (pre ++ t ++ NUL :: rest).length := by
  obtain ⟨c, t1, rfl⟩ : ∃ c t1, t = c :: t1 := by
    cases t with
    | nil => exact absurd rfl hne
    | cons c t1 => exact ⟨c, t1, rfl⟩
  have hc : c ≠ '#' := fun h => hcomment (by simp [h])
  have hp : peek (pre ++ c :: t1 ++ NUL :: rest) pre.length = c := by
    have := peek_append_cons pre (t1 ++ NUL :: rest) c
    simpa using this
  unfold parse_bash_token
  rw [hp, if_neg hc]
  by_cases hquote : c = '\'' ∨ c = '"'
  · -- a leading quote
    have hisq : is_quote c = true := by
      unfold is_quote
      rcases hquote with h | h <;> simp [h]
    have hcs : cstr (pre ++ c :: t1 ++ NUL :: rest) (pre.length + 1) = t1 := by
      have := cstr_at (pre ++ [c]) t1 rest (fun a ha => ht a (List.mem_cons_of_mem _ ha))
      simpa using this
    rw [if_pos hquote]
    rcases List.eq_nil_or_concat t1 with h1 | ⟨t0, b, h1⟩
    all_goals try rw [List.concat_eq_append] at h1
    · -- the token is the quote alone
      subst h1
      have hstr : strrchr (pre ++ [c] ++ NUL :: rest) (pre.length + 1) c = none := by
        unfold strrchr
        rw [hcs]
        rfl
      simp only [hstr]
      refine ⟨_, ?_, rfl, rfl⟩
      have h := parse_bash_token_plain (pre ++ [c] ++ NUL :: rest) pre [c] rest saveptr rfl ht
      rw [h]
      have hs : survives [c] = none := by
        unfold survives unquote
        simp [hisq]
      rw [hs]
      simp
    · -- the token ends with the same quote
      have hb : b = c := by
        have h2 : (c :: t1).getLast? = some c := hq hisq
        rw [h1, ← List.cons_append, List.getLast?_append] at h2
        exact (Option.some.inj h2).symm ▸ rfl
      subst hb
      subst h1
      have hstr : strrchr (pre ++ b :: (t0 ++ [b]) ++ NUL :: rest) (pre.length + 1) b =
          some (pre.length + 1 + t0.length) := by
        unfold strrchr
        rw [hcs]
        simp [find_idx]
      have hpoke : poke (pre ++ b :: (t0 ++ [b]) ++ NUL :: rest) (pre.length + 1 + t0.length)
          NUL = (pre ++ [b]) ++ t0 ++ NUL :: (NUL :: rest) := by
        have hidx : (pre ++ [b] ++ t0).length = pre.length + 1 + t0.length := by
          simp only [List.length_append, List.length_singleton]
        have hlist : pre ++ b :: (t0 ++ [b]) ++ NUL :: rest =
            (pre ++ [b] ++ t0) ++ b :: (NUL :: rest) := by simp
        rw [← hidx, hlist]
        exact poke_append_cons (pre ++ [b] ++ t0) (NUL :: rest) b NUL
      have ht0 : ∀ a ∈ t0, a ≠ NUL := fun a ha =>
        ht a (List.mem_cons_of_mem _ (List.mem_append_left _ ha))
      simp only [hstr, hpoke]
      refine ⟨(pre ++ [b]) ++ t0 ++ NUL :: (NUL :: rest), ?_, ?_, ?_⟩
      · have h := parse_bash_token_plain ((pre ++ [b]) ++ t0 ++ NUL :: (NUL :: rest))
          (pre ++ [b]) t0 (NUL :: rest) saveptr rfl ht0
        have hl : (pre ++ [b]).length = pre.length + 1 := by simp
        rw [hl] at h
        rw [h]
        have hs : survives (b :: (t0 ++ [b])) =
            if t0.length < 2 ∨ t0.head? = some '$' then none else some t0 := by
          unfold survives unquote
          simp [hisq]
        rw [hs]
      · rw [← hpoke]
        unfold poke
        exact List.drop_set_of_lt _ _ (by simp at hsp; omega)
      · simp
  · -- no leading quote
    rw [if_neg hquote]
    refine ⟨_, ?_, rfl, rfl⟩
    have h := parse_bash_token_plain (pre ++ c :: t1 ++ NUL :: rest) pre (c :: t1) rest saveptr
      rfl ht
    rw [h]
    have hs : survives (c :: t1) =
        if (c :: t1).length < 2 ∨ (c :: t1).head? = some '$' then none else some (c :: t1) := by
      have hnq : is_quote c = false := by
        unfold is_quote
        simp only [not_or] at hquote
        simp [hquote.1, hquote.2]
      unfold survives unquote
      simp [hnq]
    rw [hs]

theorem words_nil : words [] = [] := by
  decide

theorem words_delims (d rest : List Char) (hd : ∀ c ∈ d, is_delim c = true) :
    words (d ++ rest) = words rest := by
  induction d with
  | nil => rfl
  | cons x xs ih =>
    have hx := hd x (List.mem_cons_self _ _)
    have h := ih (fun c hc => hd c (List.mem_cons_of_mem _ hc))
    unfold words at h ⊢
    rw [List.cons_append, List.splitOnP_cons, if_pos hx, List.filter_cons]
    simpa using h

theorem words_token (t : List Char) (x : Char) (rest : List Char) (hne : t ≠ [])
    (ht : ∀ c ∈ t, is_delim c = false) (hx : is_delim x = true) :
    words (t ++ x :: rest) = t :: words rest := by
  unfold words
  rw [List.splitOnP_first is_delim t (fun c hc => by simp [ht c hc]) x hx rest,
    List.filter_cons]
  have : (!t.isEmpty) = true := by
    cases t with
    | nil => exact absurd rfl hne
    | cons _ _ => rfl
  rw [if_pos this]

theorem words_single (t : List Char) (hne : t ≠ []) (ht : ∀ c ∈ t, is_delim c = false) :
    words t = [t] := by
  unfold words
  rw [List.splitOnP_eq_single is_delim t (fun c hc => by simp [ht c hc])]
  cases t with
  | nil => exact absurd rfl hne
  | cons _ _ => rfl

theorem bash_offers_step (f : Nat) (pre t rest : List Char) (saveptr : Nat)
    (remaining junk : List Char) (hne : t ≠ []) (ht : ∀ c ∈ t, c ≠ NUL)
    (hcomment : t.head? ≠ some '#') (hq : well_quoted t)
    (hsp : pre.length + t.length ≤ saveptr)
    (hsp2 : saveptr ≤ (pre ++ t ++ NUL :: rest).length)
    (hdrop : (pre ++ t ++ NUL :: rest).drop saveptr = remaining ++ NUL :: junk)
    (ih : ∀ pre2 : List Char, pre2.length = saveptr →
      ∃ m1, bash_offers f
        (strtok_r (pre2 ++ remaining ++ NUL :: junk) none bash_delims saveptr).1
        (strtok_r (pre2 ++ remaining ++ NUL :: junk) none bash_delims saveptr).2.1
        (strtok_r (pre2 ++ remaining ++ NUL :: junk) none bash_delims saveptr).2.2 =
          some (m1, (words remaining).filterMap survives)) :
    ∃ m1, bash_offers (f + 1) (pre ++ t ++ NUL :: rest) (some pre.length) saveptr =
      some (m1, (t :: words remaining).filterMap survives) := by
  obtain ⟨m2, hb, hdr, hlen⟩ :=
    parse_bash_token_spec pre t rest saveptr hne ht hcomment hq hsp
  have hm2 : m2 = m2.take saveptr ++ remaining ++ NUL :: junk := by
    rw [List.append_assoc, ← hdrop, ← hdr, List.take_append_drop]
  have hl2 : (m2.take saveptr).length = saveptr := by
    rw [List.length_take]
    omega
  obtain ⟨m1, hm1⟩ := ih (m2.take saveptr) hl2
  rw [← hm2] at hm1
  refine ⟨m1, ?_⟩
  simp only [bash_offers, hb, hm1, Option.map_some']
  cases hs : survives t <;> simp [List.filterMap, hs]

theorem dropWhile_head_not (p : Char → Bool) (l : List Char) (c : Char) (rest : List Char)
    (h : l.dropWhile p = c :: rest) : p c = false := by
  induction l with
  | nil => cases h
  | cons x xs ih =>
    rw [List.dropWhile_cons] at h
    by_cases hx : p x = true
    · rw [if_pos hx] at h
      exact ih h
    · rw [if_neg hx] at h
      cases h
      simpa using hx

theorem bash_offers_words : ∀ (n : Nat) (r : List Char), r.length ≤ n →
    ∀ (pre junk : List Char) (s : Option Nat) (saveptr fuel : Nat),
      s.getD saveptr = pre.length → (∀ c ∈ r, c ≠ NUL) →
      (∀ tok ∈ words r, tok.head? ≠ some '#' ∧ well_quoted tok) → r.length + 1 ≤ fuel →
      ∃ m1, bash_offers fuel
        (strtok_r (pre ++ r ++ NUL :: junk) s bash_delims saveptr).1
        (strtok_r (pre ++ r ++ NUL :: junk) s bash_delims saveptr).2.1
        (strtok_r (pre ++ r ++ NUL :: junk) s bash_delims saveptr).2.2 =
          some (m1, (words r).filterMap survives) := by
  intro n
  induction n with
  | zero =>
    intro r hr pre junk s saveptr fuel hs _ _ hfuel
    have hr0 : r = [] := List.length_eq_zero.mp (Nat.le_zero.mp hr)
    subst hr0
    obtain ⟨f, rfl⟩ : ∃ f, fuel = f + 1 := ⟨fuel - 1, by omega⟩
    rw [strtok_r_none pre [] junk s saveptr hs (fun c hc => by cases hc), words_nil]
    exact ⟨pre ++ [] ++ NUL :: junk, rfl⟩
  | succ n ih =>
    intro r hr pre junk s saveptr fuel hs hnul htok hfuel
    obtain ⟨f, rfl⟩ : ∃ f, fuel = f + 1 := ⟨fuel - 1, by omega⟩
    have hsplit : r = r.takeWhile is_delim ++ r.dropWhile is_delim :=
      (List.takeWhile_append_dropWhile is_delim r).symm
    have hd : ∀ c ∈ r.takeWhile is_delim, is_delim c = true :=
      fun c hc => List.mem_takeWhile_imp hc
    generalize r.takeWhile is_delim = d at hsplit hd
    cases hS : r.dropWhile is_delim with
    | nil =>
      rw [hS, List.append_nil] at hsplit
      subst hsplit
      have hw : words r = [] := by
        have := words_delims r [] hd
        rw [List.append_nil] at this
        rw [this, words_nil]
      rw [strtok_r_none pre _ junk s saveptr hs hd, hw]
      exact ⟨pre ++ r ++ NUL :: junk, rfl⟩
    | cons c s1 =>
      have hc : is_delim c = false := dropWhile_head_not is_delim r c s1 hS
      rw [hS] at hsplit
      have hsplit2 : c :: s1 = (c :: s1).takeWhile (fun a => !is_delim a) ++
          (c :: s1).dropWhile (fun a => !is_delim a) :=
        (List.takeWhile_append_dropWhile _ _).symm
      have ht : ∀ a ∈ (c :: s1).takeWhile (fun a => !is_delim a), is_delim a = false :=
        fun a ha => by simpa using List.mem_takeWhile_imp ha
      have hne : (c :: s1).takeWhile (fun a => !is_delim a) ≠ [] := by
        simp [List.takeWhile, hc]
      generalize (c :: s1).takeWhile (fun a => !is_delim a) = t at hsplit2 ht hne
      have hl : (pre ++ d).length = pre.length + d.length := by
        simp only [List.length_append]
      have ht1 : 1 ≤ t.length := by
        cases t with
        | nil => exact absurd rfl hne
        | cons _ _ => simp
      cases hU : (c :: s1).dropWhile (fun a => !is_delim a) with
      | nil =>
        rw [hU, List.append_nil] at hsplit2
        rw [hsplit2] at hsplit
        have htn : ∀ a ∈ t, is_delim a = false ∧ a ≠ NUL :=
          fun a ha => ⟨ht a ha, hnul a (by rw [hsplit]; exact List.mem_append_right _ ha)⟩
        have hw : words r = [t] := by
          rw [hsplit, words_delims d t hd, words_single t hne ht]
        have htok1 := htok t (by rw [hw]; exact List.mem_singleton_self _)
        have hm : pre ++ r ++ NUL :: junk = pre ++ d ++ t ++ NUL :: junk := by
          rw [hsplit]
          simp only [List.append_assoc]
        have hrl : r.length = d.length + t.length := by
          rw [hsplit]
          simp only [List.length_append]
        have hlen3 : (pre ++ d ++ t).length = pre.length + d.length + t.length := by
          simp only [List.length_append]
        have hdrop : (pre ++ d ++ t ++ NUL :: junk).drop (pre.length + d.length + t.length) =
            [] ++ NUL :: junk := by
          rw [← hlen3, List.drop_left]
          rfl
        have hih : ∀ pre2 : List Char, pre2.length = pre.length + d.length + t.length →
            ∃ m1, bash_offers f
              (strtok_r (pre2 ++ [] ++ NUL :: junk) none bash_delims
                (pre.length + d.length + t.length)).1
              (strtok_r (pre2 ++ [] ++ NUL :: junk) none bash_delims
                (pre.length + d.length + t.length)).2.1
              (strtok_r (pre2 ++ [] ++ NUL :: junk) none bash_delims
                (pre.length + d.length + t.length)).2.2 =
                some (m1, (words []).filterMap survives) :=
          fun pre2 hp2 =>
            ih [] (Nat.zero_le _) pre2 junk none (pre.length + d.length + t.length) f
              hp2.symm (fun a ha => by cases ha)
              (fun tok htk => by rw [words_nil] at htk; cases htk)
              (by simp only [List.length_nil]; omega)
        have hstep := bash_offers_step f (pre ++ d) t junk (pre.length + d.length + t.length) []
          junk hne (fun a ha => (htn a ha).2) htok1.1 htok1.2 (by rw [hl])
          (by simp only [List.length_append, List.length_cons]; omega) hdrop hih
        rw [hm, strtok_r_token pre d t NUL junk s saveptr hs hd htn hne (Or.inr rfl), hw]
        rw [words_nil, hl] at hstep
        exact hstep
      | cons x r1 =>
        have hx : is_delim x = true := by
          have := dropWhile_head_not (fun a => !is_delim a) (c :: s1) x r1 hU
          simpa using this
        rw [hU] at hsplit2
        rw [hsplit2] at hsplit
        have htn : ∀ a ∈ t, is_delim a = false ∧ a ≠ NUL :=
          fun a ha => ⟨ht a ha, hnul a (by
            rw [hsplit]
            exact List.mem_append_right _ (List.mem_append_left _ ha))⟩
        have hw : words r = t :: words r1 := by
          rw [hsplit, words_delims d _ hd, words_token t x r1 hne ht hx]
        have htok1 := htok t (by rw [hw]; exact List.mem_cons_self _ _)
        have hm : pre ++ r ++ NUL :: junk = pre ++ d ++ t ++ x :: (r1 ++ NUL :: junk) := by
          rw [hsplit]
          simp only [List.append_assoc, List.cons_append]
        have hrl : r.length = d.length + (t.length + (r1.length + 1)) := by
          rw [hsplit]
          simp only [List.length_append, List.length_cons]
        have hlen4 : (pre ++ d ++ t ++ [NUL]).length = pre.length + d.length + t.length + 1 := by
          simp only [List.length_append, List.length_singleton]
        have hdrop : (pre ++ d ++ t ++ NUL :: (r1 ++ NUL :: junk)).drop
            (pre.length + d.length + t.length + 1) = r1 ++ NUL :: junk := by
          have h2 : pre ++ d ++ t ++ NUL :: (r1 ++ NUL :: junk) =
              (pre ++ d ++ t ++ [NUL]) ++ (r1 ++ NUL :: junk) := by
            simp only [List.append_assoc, List.singleton_append]
          rw [← hlen4, h2, List.drop_left]
        have hih : ∀ pre2 : List Char, pre2.length = pre.length + d.length + t.length + 1 →
            ∃ m1, bash_offers f
              (strtok_r (pre2 ++ r1 ++ NUL :: junk) none bash_delims
                (pre.length + d.length + t.length + 1)).1
              (strtok_r (pre2 ++ r1 ++ NUL :: junk) none bash_delims
                (pre.length + d.length + t.length + 1)).2.1
              (strtok_r (pre2 ++ r1 ++ NUL :: junk) none bash_delims
                (pre.length + d.length + t.length + 1)).2.2 =
                some (m1, (words r1).filterMap survives) :=
          fun pre2 hp2 =>
            ih r1 (by omega) pre2 junk none (pre.length + d.length + t.length + 1) f
              hp2.symm
              (fun a ha => hnul a (by
                rw [hsplit]
                exact List.mem_append_right _
                  (List.mem_append_right _ (List.mem_cons_of_mem _ ha))))
              (fun tok htk => htok tok (by rw [hw]; exact List.mem_cons_of_mem _ htk))
              (by omega)
        have hstep := bash_offers_step f (pre ++ d) t (r1 ++ NUL :: junk)
          (pre.length + d.length + t.length + 1) r1 junk hne (fun a ha => (htn a ha).2)
          htok1.1 htok1.2 (by rw [hl]; omega)
          (by simp only [List.length_append, List.length_cons]; omega) hdrop hih
        rw [hm, strtok_r_token pre d t x (r1 ++ NUL :: junk) s saveptr hs hd htn hne
          (Or.inl hx), hw]
        rw [hl] at hstep
        simp only [if_neg (is_delim_ne_nul x hx)]
        exact hstep

/-- C24: for the five kinds other than optdepends and an array text in which no token
starts with `#` and every token with a leading quote ends with that quote,
`parse_bash_array` returns the existing list followed, in order, by what is left of each
token separated by blanks, tabs and line feeds: a token with a leading quote loses its
first and last character, any other token is taken as it is; a token then shorter than 2
characters or beginning with `$` is dropped; a token already in the list is not appended
again. -/
theorem parse_bash_array_tokens (deplist : List CStr) (pre text junk : List Char)
    (type : pkgdetail_t) (htype : type ≠ PKGDETAIL_OPTDEPENDS)
    (hnul : ∀ c ∈ text, c ≠ NUL)
    (htok : ∀ tok ∈ words text, tok.head? ≠ some '#' ∧ well_quoted tok) :
    ∃ m1, parse_bash_array deplist (pre ++ text ++ NUL :: junk) pre.length type =
      some (m1, ((words text).filterMap survives).foldl add_new deplist) := by
  obtain ⟨m1, h⟩ := bash_offers_words text.length text (Nat.le_refl _) pre junk
    (some pre.length) 0 ((pre ++ text ++ NUL :: junk).length + 1) rfl hnul htok
    (by simp only [List.length_append, List.length_cons]; omega)
  refine ⟨m1, ?_⟩
  rw [parse_bash_array_eq]
  unfold array_offers apply_offers
  rw [if_neg htype]
  simp only [h, Option.map_some', if_neg htype]

/-- C24 (witness): with `bb` in the list, the array text `'aa' bb "cc"`, a line feed,
`$dd e ff 'aa'` leaves the list `bb`, `aa`, `cc`, `ff`. -/
theorem parse_bash_array_tokens_witness :
    ∃ m1, parse_bash_array ["bb".toList]
        ([] ++ "'aa' bb \"cc\"\n$dd e ff 'aa'".toList ++ NUL :: []) 0 PKGDETAIL_DEPENDS =
      some (m1, ["bb".toList, "aa".toList, "cc".toList, "ff".toList]) :=
  parse_bash_array_tokens ["bb".toList] [] "'aa' bb \"cc\"\n$dd e ff 'aa'".toList []
    PKGDETAIL_DEPENDS (by decide) (by decide) (by decide)

/-! ## Package list of a reply -/

theorem json_run_append (cfg : cfg_t) (a b : List json_event) (p : yajl_parser_t) :
    json_run cfg p (a ++ b) = (json_run cfg p a).bind fun p1 => json_run cfg p1 b := by
  induction a generalizing p with
  | nil => rfl
  | cons e es ih =>
    simp only [List.cons_append, json_run]
    cases json_callback cfg p e with
    | none => rfl
    | some p1 => exact ih p1

theorem cstr_key (a b : List Char) : cstr (a ++ [NUL] ++ b) 0 = a.takeWhile (fun c => c != NUL) := by
  unfold cstr
  rw [List.drop_zero, List.append_assoc]
  induction a with
  | nil => simp [List.takeWhile]
  | cons x xs ih =>
    by_cases hx : x = NUL
    · simp [List.takeWhile, hx]
    · have : (x != NUL) = true := by simpa using hx
      simp only [List.cons_append, List.takeWhile, this]
      exact congrArg _ ih

theorem ite_congr_aurpkg {c : Prop} [Decidable c] {a b a1 b1 : Option yajl_parser_t}
    (ha : a.map (fun r => r.aurpkg) = a1.map (fun r => r.aurpkg))
    (hb : b.map (fun r => r.aurpkg) = b1.map (fun r => r.aurpkg)) :
    (if c then a else b).map (fun r => r.aurpkg) =
      (if c then a1 else b1).map (fun r => r.aurpkg) := by
  split <;> assumption

theorem KEY_IS_congr (p q : yajl_parser_t) (hk : cstr p.key 0 = cstr q.key 0)
    (hz : p.keysz = q.keysz) (k : String) : KEY_IS q k = KEY_IS p k := by
  unfold KEY_IS
  rw [hk, hz]

theorem json_string_congr (p q : yajl_parser_t) (data : Mem) (size : Nat)
    (hk : cstr p.key 0 = cstr q.key 0) (hz : p.keysz = q.keysz) (ha : p.aurpkg = q.aurpkg) :
    (json_string p data size).map (fun r => r.aurpkg) =
      (json_string q data size).map (fun r => r.aurpkg) := by
  unfold json_string
  simp only [KEY_IS_congr p q hk hz]
  repeat' apply ite_congr_aurpkg
  all_goals simp [Option.map_map, Function.comp_def, ha]

theorem ite_congr_record {c : Prop} [Decidable c] {a b a1 b1 : yajl_parser_t}
    (ha : a.aurpkg = a1.aurpkg) (hb : b.aurpkg = b1.aurpkg) :
    (if c then a else b).aurpkg = (if c then a1 else b1).aurpkg := by
  split <;> assumption

theorem json_integer_congr (p q : yajl_parser_t) (val : Int)
    (hk : cstr p.key 0 = cstr q.key 0) (hz : p.keysz = q.keysz) (ha : p.aurpkg = q.aurpkg) :
    (json_integer p val).aurpkg = (json_integer q val).aurpkg := by
  unfold json_integer
  simp only [KEY_IS_congr p q hk hz]
  repeat' apply ite_congr_record
  all_goals simp [ha]

theorem ite_frame {c : Prop} [Decidable c] {a b : Option yajl_parser_t}
    {p p1 : yajl_parser_t}
    (ha : a = some p1 → p1.pkglist = p.pkglist ∧ p1.json_depth = p.json_depth)
    (hb : b = some p1 → p1.pkglist = p.pkglist ∧ p1.json_depth = p.json_depth) :
    (if c then a else b) = some p1 → p1.pkglist = p.pkglist ∧ p1.json_depth = p.json_depth := by
  split <;> assumption

theorem json_string_frame (p p1 : yajl_parser_t) (data : Mem) (size : Nat)
    (h : json_string p data size = some p1) :
    p1.pkglist = p.pkglist ∧ p1.json_depth = p.json_depth := by
  unfold json_string at h
  revert h
  repeat' apply ite_frame
  all_goals
    intro h
    first
    | (cases h; exact ⟨rfl, rfl⟩)
    | (obtain ⟨v, _, hv⟩ := Option.map_eq_some'.mp h
       rw [← hv]
       exact ⟨rfl, rfl⟩)

theorem json_integer_frame (p : yajl_parser_t) (val : Int) :
    (json_integer p val).pkglist = p.pkglist ∧
      (json_integer p val).json_depth = p.json_depth := by
  unfold json_integer
  repeat' split
  all_goals exact ⟨rfl, rfl⟩

theorem pair_congr (cfg : cfg_t) (kv : json_pair) (p q : yajl_parser_t)
    (ha : p.aurpkg = q.aurpkg) :
    (json_run cfg p (pair_events kv)).map (fun r => r.aurpkg) =
      (json_run cfg q (pair_events kv)).map (fun r => r.aurpkg) := by
  unfold pair_events
  simp only [json_run, json_callback, json_map_key]
  by_cases hsz : 32 ≤ kv.keysz
  · simp only [if_pos hsz]
  · simp only [if_neg hsz]
    have hk : cstr (kv.key.take kv.keysz ++ [NUL] ++ p.key.drop (kv.keysz + 1)) 0 =
        cstr (kv.key.take kv.keysz ++ [NUL] ++ q.key.drop (kv.keysz + 1)) 0 := by
      rw [cstr_key, cstr_key]
    cases kv.value with
    | string data size =>
      simp only [json_callback]
      have h := json_string_congr
        { p with keysz := kv.keysz,
                 key := kv.key.take kv.keysz ++ [NUL] ++ p.key.drop (kv.keysz + 1) }
        { q with keysz := kv.keysz,
                 key := kv.key.take kv.keysz ++ [NUL] ++ q.key.drop (kv.keysz + 1) }
        data size hk rfl ha
      revert h
      cases json_string _ data size <;> cases json_string _ data size <;> simp
    | integer val =>
      simp only [json_callback, Option.map_some', Option.some.injEq]
      exact json_integer_congr _ _ val hk rfl ha

theorem pair_frame (cfg : cfg_t) (kv : json_pair) (p p1 : yajl_parser_t)
    (h : json_run cfg p (pair_events kv) = some p1) :
    p1.pkglist = p.pkglist ∧ p1.json_depth = p.json_depth := by
  unfold pair_events at h
  simp only [json_run, json_callback, json_map_key] at h
  by_cases hsz : 32 ≤ kv.keysz
  · simp only [if_pos hsz] at h
    cases h
  · simp only [if_neg hsz] at h
    cases hv : kv.value with
    | string data size =>
      rw [hv] at h
      simp only [json_callback] at h
      split at h
      · cases h
      · rename_i p2 hs
        cases h
        have hf := json_string_frame _ _ data size hs
        exact hf
    | integer val =>
      rw [hv] at h
      simp only [json_callback, Option.some.injEq] at h
      rw [← h]
      have hf := json_integer_frame
        { p with keysz := kv.keysz, key := kv.key.take kv.keysz ++ [NUL] ++ p.key.drop (kv.keysz + 1) }
        val
      exact hf

theorem pairs_frame (cfg : cfg_t) (obj : List json_pair) :
    ∀ (p p1 : yajl_parser_t), json_run cfg p (obj.flatMap pair_events) = some p1 →
      p1.pkglist = p.pkglist ∧ p1.json_depth = p.json_depth := by
  induction obj with
  | nil =>
    intro p p1 h
    cases h
    exact ⟨rfl, rfl⟩
  | cons kv rest ih =>
    intro p p1 h
    rw [List.flatMap_cons, json_run_append] at h
    cases hp : json_run cfg p (pair_events kv) with
    | none => rw [hp] at h; cases h
    | some p2 =>
      rw [hp] at h
      have h1 := pair_frame cfg kv p p2 hp
      have h2 := ih p2 p1 h
      exact ⟨h2.1.trans h1.1, h2.2.trans h1.2⟩

theorem pairs_congr (cfg : cfg_t) (obj : List json_pair) :
    ∀ (p q : yajl_parser_t), p.aurpkg = q.aurpkg →
      (json_run cfg p (obj.flatMap pair_events)).map (fun r => r.aurpkg) =
        (json_run cfg q (obj.flatMap pair_events)).map (fun r => r.aurpkg) := by
  induction obj with
  | nil =>
    intro p q ha
    simpa [json_run] using ha
  | cons kv rest ih =>
    intro p q ha
    rw [List.flatMap_cons, json_run_append, json_run_append]
    have h := pair_congr cfg kv p q ha
    cases hp : json_run cfg p (pair_events kv) with
    | none =>
      cases hq : json_run cfg q (pair_events kv) with
      | none => rfl
      | some q2 => rw [hp, hq] at h; cases h
    | some p2 =>
      cases hq : json_run cfg q (pair_events kv) with
      | none => rw [hp, hq] at h; cases h
      | some q2 =>
        rw [hp, hq] at h
        simp only [Option.map_some', Option.some.injEq] at h
        exact ih p2 q2 h

theorem add_sorted_perm {α : Type} (fn : α → α → Int) (data : α) (list : List α) :
    (alpm_list_add_sorted list data fn).Perm (data :: list) := by
  induction list with
  | nil => exact List.Perm.refl _
  | cons x xs ih =>
    unfold alpm_list_add_sorted
    split
    · exact List.Perm.refl _
    · exact (List.Perm.cons x ih).trans (List.Perm.swap data x xs)

theorem add_sorted_sorted (data : aurpkg_t) (list : List aurpkg_t)
    (h : list.Pairwise (fun a b => strcmp a.name b.name ≤ 0)) :
    (alpm_list_add_sorted list data aurpkg_cmp).Pairwise
      (fun a b => strcmp a.name b.name ≤ 0) := by
  induction list with
  | nil => exact List.pairwise_singleton _ _
  | cons x xs ih =>
    rw [List.pairwise_cons] at h
    unfold alpm_list_add_sorted
    split
    · rename_i hle
      refine List.Pairwise.cons ?_ (List.Pairwise.cons h.1 h.2)
      intro y hy
      rcases List.mem_cons.mp hy with hy | hy
      · rw [hy]
        exact hle
      · exact strcmp_trans _ _ _ hle (h.1 y hy)
    · rename_i hle
      refine List.Pairwise.cons ?_ (ih h.2)
      intro y hy
      rcases (mem_add_sorted aurpkg_cmp xs data y).mp hy with hy | hy
      · rw [hy]
        rcases strcmp_total x.name data.name with ht | ht
        · exact ht
        · exact absurd ht hle
      · exact h.1 y hy

theorem json_end_map_inner (cfg : cfg_t) (p : yajl_parser_t) (h : p.json_depth = 2) :
    (json_end_map cfg p).json_depth = 1 ∧
      (json_end_map cfg p).pkglist =
        if passes_ood cfg p.aurpkg = true then
          alpm_list_add_sorted p.pkglist p.aurpkg aurpkg_cmp
        else p.pkglist := by
  unfold json_end_map passes_ood
  simp only [h]
  rw [if_pos (by decide)]
  by_cases hc : p.aurpkg.ood ≠ 0 ∧ cfg.ignoreood ≠ 0
  · rw [if_neg (not_not.mpr hc)]
    have : (!(p.aurpkg.ood != 0 && cfg.ignoreood != 0)) = false := by
      simp [hc.1, hc.2]
    rw [this]
    exact ⟨by norm_num, rfl⟩
  · rw [if_pos hc]
    have : (!(p.aurpkg.ood != 0 && cfg.ignoreood != 0)) = true := by
      simp only [not_and_or, not_not] at hc
      rcases hc with hc | hc <;> simp [hc]
    rw [this]
    exact ⟨by norm_num, rfl⟩

theorem json_start_map_inner (p : yajl_parser_t) (h : p.json_depth = 1) :
    json_start_map p = { p with json_depth := 2, aurpkg := aurpkg_zero } := by
  unfold json_start_map
  simp only [h]
  rw [if_pos (by decide)]
  rfl

theorem items_run (cfg : cfg_t) : ∀ (items : List outer_item) (p p1 : yajl_parser_t),
    p.json_depth = 1 → json_run cfg p (items.flatMap item_events) = some p1 →
    p1.json_depth = 1 ∧
      (p.pkglist.Pairwise (fun a b => strcmp a.name b.name ≤ 0) →
        p1.pkglist.Pairwise (fun a b => strcmp a.name b.name ≤ 0)) ∧
      ∃ records : List aurpkg_t,
        (inner_objects items).map (inner_record cfg) = records.map some ∧
        p1.pkglist.Perm (p.pkglist ++ records.filter (passes_ood cfg)) := by
  intro items
  induction items with
  | nil =>
    intro p p1 hd h
    cases h
    exact ⟨hd, fun hs => hs, [], rfl, by simp⟩
  | cons item rest ih =>
    intro p p1 hd h
    rw [List.flatMap_cons, json_run_append] at h
    cases item with
    | pair kv =>
      simp only [item_events] at h
      cases hp : json_run cfg p (pair_events kv) with
      | none => rw [hp] at h; cases h
      | some p2 =>
        rw [hp] at h
        have hf := pair_frame cfg kv p p2 hp
        obtain ⟨h1, h2, records, h3, h4⟩ := ih p2 p1 (hf.2.trans hd) h
        rw [hf.1] at h2 h4
        exact ⟨h1, h2, records, h3, h4⟩
    | object obj =>
      simp only [item_events, json_run, json_callback] at h
      rw [json_start_map_inner p hd, json_run_append] at h
      cases hr : json_run cfg { p with json_depth := 2, aurpkg := aurpkg_zero }
          (obj.flatMap pair_events) with
      | none => rw [hr] at h; cases h
      | some p2 =>
        rw [hr] at h
        simp only [Option.bind_some, json_run, json_callback] at h
        have hf := pairs_frame cfg obj _ p2 hr
        have hc := pairs_congr cfg obj object_start
          { p with json_depth := 2, aurpkg := aurpkg_zero } rfl
        rw [hr] at hc
        have hrec : inner_record cfg obj = some p2.aurpkg := hc
        have he := json_end_map_inner cfg p2 hf.2
        obtain ⟨h1, h2, records, h3, h4⟩ := ih (json_end_map cfg p2) p1 he.1 h
        rw [he.2, hf.1] at h2 h4
        refine ⟨h1, ?_, p2.aurpkg :: records, ?_, ?_⟩
        · intro hs
          apply h2
          split
          · exact add_sorted_sorted _ _ hs
          · exact hs
        · simp only [inner_objects, List.map_cons, hrec, h3]
        · by_cases hpass : passes_ood cfg p2.aurpkg = true
          · rw [if_pos hpass] at h4
            rw [List.filter_cons, if_pos hpass]
            refine h4.trans ?_
            refine (List.Perm.append_right _ (add_sorted_perm aurpkg_cmp p2.aurpkg p.pkglist)).trans
              ?_
            exact (@List.perm_middle _ p2.aurpkg p.pkglist _).symm
          · rw [if_neg hpass] at h4
            rw [List.filter_cons, if_neg hpass]
            exact h4

theorem ite_some {c : Prop} [Decidable c] {a b : Option yajl_parser_t}
    (ha : ∃ p1, a = some p1) (hb : ∃ p1, b = some p1) :
    ∃ p1, (if c then a else b) = some p1 := by
  split <;> assumption

theorem json_string_some (p : yajl_parser_t) (data : Mem) (size : Nat) (h : size < 32) :
    ∃ p1, json_string p data size = some p1 := by
  have hn : NUMCOPY data size = some (strtol (VALDUPE data size)).1 := by
    unfold NUMCOPY VALDUPE
    rw [if_neg (by omega)]
  unfold json_string
  rw [hn]
  repeat' apply ite_some
  all_goals exact ⟨_, rfl⟩

theorem pair_some (cfg : cfg_t) (kv : json_pair) (p : yajl_parser_t) (h : small_pair kv) :
    ∃ p1, json_run cfg p (pair_events kv) = some p1 := by
  obtain ⟨h1, h2⟩ := h
  unfold pair_events
  simp only [json_run, json_callback, json_map_key, if_neg (Nat.not_le.mpr h1)]
  cases hv : kv.value with
  | string data size =>
    rw [hv] at h2
    obtain ⟨p1, hp1⟩ := json_string_some
      { p with keysz := kv.keysz, key := kv.key.take kv.keysz ++ [NUL] ++ p.key.drop (kv.keysz + 1) }
      data size h2
    simp only [json_callback, hp1]
    exact ⟨p1, rfl⟩
  | integer val =>
    simp only [json_callback]
    exact ⟨_, rfl⟩

theorem pairs_some (cfg : cfg_t) (obj : List json_pair) :
    ∀ p : yajl_parser_t, (∀ kv ∈ obj, small_pair kv) →
      ∃ p1, json_run cfg p (obj.flatMap pair_events) = some p1 := by
  induction obj with
  | nil => intro p _; exact ⟨p, rfl⟩
  | cons kv rest ih =>
    intro p h
    obtain ⟨p2, hp2⟩ := pair_some cfg kv p (h kv (List.mem_cons_self _ _))
    obtain ⟨p1, hp1⟩ := ih p2 (fun x hx => h x (List.mem_cons_of_mem _ hx))
    rw [List.flatMap_cons, json_run_append, hp2]
    exact ⟨p1, hp1⟩

theorem items_some (cfg : cfg_t) (items : List outer_item) :
    ∀ p : yajl_parser_t, (∀ item ∈ items, small_item item) →
      ∃ p1, json_run cfg p (items.flatMap item_events) = some p1 := by
  induction items with
  | nil => intro p _; exact ⟨p, rfl⟩
  | cons item rest ih =>
    intro p h
    have hi := h item (List.mem_cons_self _ _)
    rw [List.flatMap_cons, json_run_append]
    cases item with
    | pair kv =>
      obtain ⟨p2, hp2⟩ := pair_some cfg kv p hi
      obtain ⟨p1, hp1⟩ := ih p2 (fun x hx => h x (List.mem_cons_of_mem _ hx))
      simp only [item_events, hp2]
      exact ⟨p1, hp1⟩
    | object obj =>
      obtain ⟨p2, hp2⟩ := pairs_some cfg obj (json_start_map p) hi
      obtain ⟨p1, hp1⟩ := ih (json_end_map cfg p2)
        (fun x hx => h x (List.mem_cons_of_mem _ hx))
      simp only [item_events, json_run, json_callback]
      rw [json_run_append, hp2]
      simp only [Option.bind_some, json_run, json_callback]
      exact ⟨p1, hp1⟩

/-- C28: for an event stream that is one outer object holding keys with values and inner
objects, the sink returns when every key and every string value is shorter than 32 bytes,
and whenever it returns the package list is in non-decreasing `strcmp` order of name and is
a permutation of the records of the inner objects that pass the out-of-date filter, the
record of an inner object being what its own keys and values make of the zeroed record. -/
theorem json_run_stream (cfg : cfg_t) (items : List outer_item) :
    ((∀ item ∈ items, small_item item) →
      ∃ p1, json_run cfg yajl_parser_init (stream_events items) = some p1) ∧
    ∀ p1, json_run cfg yajl_parser_init (stream_events items) = some p1 →
      p1.pkglist.Pairwise (fun a b => strcmp a.name b.name ≤ 0) ∧
      ∃ records : List aurpkg_t,
        (inner_objects items).map (inner_record cfg) = records.map some ∧
        p1.pkglist.Perm (records.filter (passes_ood cfg)) := by
  have hstart : json_start_map yajl_parser_init = { yajl_parser_init with json_depth := 1 } := by
    decide
  have hrun : json_run cfg yajl_parser_init (stream_events items) =
      (json_run cfg { yajl_parser_init with json_depth := 1 }
        (items.flatMap item_events)).bind fun p2 => some (json_end_map cfg p2) := by
    unfold stream_events
    simp only [json_run, json_callback]
    rw [hstart, json_run_append]
    rfl
  refine ⟨?_, ?_⟩
  · intro h
    obtain ⟨p2, hp2⟩ := items_some cfg items { yajl_parser_init with json_depth := 1 } h
    rw [hrun, hp2]
    exact ⟨_, rfl⟩
  · intro p1 h
    rw [hrun] at h
    cases hp : json_run cfg { yajl_parser_init with json_depth := 1 }
        (items.flatMap item_events) with
    | none => rw [hp] at h; cases h
    | some p2 =>
      rw [hp] at h
      have h : json_end_map cfg p2 = p1 := Option.some.inj h
      obtain ⟨h1, h2, records, h3, h4⟩ := items_run cfg items _ p2 rfl hp
      have hpk : p1.pkglist = p2.pkglist := by
        rw [← h]
        unfold json_end_map
        simp only [h1]
        rw [if_neg (by decide)]
      rw [hpk]
      exact ⟨h2 List.Pairwise.nil, records, h3, by simpa using h4⟩

/-- C28 (witness): for a reply that holds `zsh` with the version `5.0` and then `bash`
without a version, the sink returns; the package list is `bash`, `zsh`, in order, and only
`zsh` has a version (that of `bash` is the NULL pointer of the zeroed record). -/
theorem json_run_stream_witness :
    ∃ p1, json_run cfg_init yajl_parser_init (stream_events example_reply) = some p1 ∧
      p1.pkglist.Pairwise (fun a b => strcmp a.name b.name ≤ 0) ∧
      p1.pkglist.map (fun r => (r.name, r.ver)) =
        [("bash".toList, NULL), ("zsh".toList, "5.0".toList)] := by
  have hsmall : ∀ item ∈ example_reply, small_item item := by
    intro item hi
    simp only [example_reply, List.mem_cons, List.mem_singleton, List.not_mem_nil,
      or_false] at hi
    rcases hi with rfl | rfl | rfl | rfl <;> simp [small_item, small_pair]
  obtain ⟨p1, h⟩ := (json_run_stream cfg_init example_reply).1 hsmall
  refine ⟨p1, h, ((json_run_stream cfg_init example_reply).2 p1 h).1, ?_⟩
  have hn : (json_run cfg_init yajl_parser_init (stream_events example_reply)).map
      (fun p => p.pkglist.map (fun r => (r.name, r.ver))) =
      some [("bash".toList, NULL), ("zsh".toList, "5.0".toList)] := by decide
  rw [h] at hn
  exact Option.some.inj hn

end Cower
